import Mathlib

/-!
# github-act-runner: agent session and job dispatch core

A shallow embedding of `main.go` (the message pump, the post-decryption
step, the template-token tree, the timeline records, the log formatter and
the job translation) together with theorems about it.

Conventions of the embedding:

* a Go `string` or `[]byte` whose bytes matter (log text, secrets, decrypted
  buffers) is the list of its bytes, each byte a natural number below 256;
* identifiers that are only compared for equality (record ids, step ids,
  variable names) are Lean strings;
* a Go pointer that may be `nil` is an `Option`;
* a Go runtime panic is the value `none` of an `Option` result;
* values that come from outside the program (HTTP responses, generated
  UUIDs, the executor's state) are arguments of the functions; the time
  stamps of the timeline records, which are written and never read, are
  left out.
-/

namespace GithubActRunner

/-- A Go string or byte slice, as the list of its bytes. -/
abbrev GoString := List Nat

/-- The bytes of an ASCII literal of the source. -/
def ascii (s : String) : GoString := s.toList.map Char.toNat

/-! ## Post-decryption step of the message pump (`RunRunner.Run`, lines 1200-1223) -/

/-- The value of `b.BlockSize()` for the AES block cipher of the session. -/
def blockSize : Nat := 16

/-- The loop `for i := 2; i <= int(src[len(src)-1]); i++` of the depadding,
entered at index `i` with `n` iterations still to run. `some false` is the
`ok = false; break` exit, `some true` the normal exit with `ok` still true,
and `none` the index panic of `src[len(src)-i]` when `i` exceeds the
length of the buffer. -/
def padLoop (src : GoString) (last : Nat) : Nat → Nat → Option Bool
  | 0, _ => some true
  | n + 1, i =>
    if src.length < i then none
    else if src.getD (src.length - i) 0 ≠ last then some false
    else padLoop src last n (i + 1)

/-- The variable `validlen` after the depadding block (lines 1200-1213), for
block size `maxlen`. `none` is a panic: `src[len(src)-1]` on an empty
buffer, or the padding loop running past the start of the buffer. -/
def validLen (maxlen : Nat) (src : GoString) : Option Nat :=
  match src.getLast? with
  | none => none
  | some last =>
    if last < maxlen then
      match padLoop src last (last - 1) 2 with
      | none => none
      | some true => some (src.length - last)
      | some false => some src.length
    else some src.length

/-- The variable `off` after the byte-order-mark test
`src[0] == 239 && src[1] == 187 && src[2] == 191` (lines 1214-1218). The
conjunction is evaluated left to right, so a buffer that ends inside a
matching start panics (`none`). -/
def bomOffset (src : GoString) : Option Nat :=
  match src with
  | [] => none
  | b0 :: r0 =>
    if b0 = 239 then
      match r0 with
      | [] => none
      | b1 :: r1 =>
        if b1 = 187 then
          match r1 with
          | [] => none
          | b2 :: _ => if b2 = 191 then some 3 else some 0
        else some 0
    else some 0

/-- The bytes `src[off:validlen]` handed to the JSON decoder (line 1221),
computed from the decrypted buffer `src`. `none` is a panic of the
goroutine (an index or a slice bound out of range). -/
def jobRequestBytes (src : GoString) : Option GoString :=
  match validLen blockSize src with
  | none => none
  | some validlen =>
    match bomOffset src with
    | none => none
    | some off => if off ≤ validlen then some ((src.take validlen).drop off) else none

/-- The UTF-8 byte-order mark `EF BB BF`. -/
def utf8Bom : GoString := [239, 187, 191]

/-- PKCS#7 padding of `data` for blocks of `bs` bytes, as the sender of the
message applies it before encrypting: between 1 and `bs` bytes are added,
each equal to the number of bytes added, and a whole block is added when
the data already fills its last block. -/
def pkcs7Pad (bs : Nat) (data : GoString) : GoString :=
  data ++ List.replicate (bs - data.length % bs) (bs - data.length % bs)

/-! ## Strings -/

/-- The rune `unicode.ToLower(c)` wherever it is an ASCII character: besides `A`-`Z`,
the case tables of Go map U+0130 (capital I with dot above) to `i` and U+212A
(Kelvin sign) to `k`, and no other rune into ASCII. A rune whose lower case
is not ASCII is left as it is. -/
def toLowerRune (c : Char) : Char :=
  if c.toNat = 304 then 'i' else if c.toNat = 8490 then 'k' else c.toLower

/-- The call `strings.ToLower(s)`, rune by rune, as far as a comparison with ASCII text
can tell: the program compares the result with the literals `regex`,
`github.com`, `self` and the names of the step types only (lines 812, 858,
1437, 1546), and a rune whose lower case is not ASCII, kept as it is by
`toLowerRune`, differs from every byte of such a literal either way. -/
def lower (s : String) : String := String.mk (s.toList.map toLowerRune)

/-- The representative of a rune under the simple case folding of `strings.EqualFold`,
wherever its orbit holds an ASCII letter: the orbits of Go are `K k U+212A`
(Kelvin sign), `S s U+017F` (long s) and the pairs of the other ASCII
letters; U+0130 folds to itself. A rune whose orbit has no ASCII letter is
left as it is. -/
def foldRune (c : Char) : Char :=
  if c.toNat = 383 then 's' else if c.toNat = 8490 then 'k' else c.toLower

/-- The test `strings.EqualFold(a, b)` for an ASCII `b`: the program calls it with the
literals `PipelineAgentJobRequest`, `SystemVssConnection` and `Completed`
only (lines 1136, 1183, 1299, 1853). -/
def equalFold (a b : String) : Bool := a.toList.map foldRune == b.toList.map foldRune

/-- The call `strings.ReplaceAll(s, old, new)` for a non-empty `old`, run with `fuel`
steps: scanning from the left, each occurrence of `old` that starts at the
current position is replaced by `new` and the scan resumes after it; any
other byte is copied. -/
def replaceAllAux (old new : GoString) : Nat → GoString → GoString
  | 0, s => s
  | _ + 1, [] => []
  | n + 1, c :: cs =>
    if old.isPrefixOf (c :: cs) then new ++ replaceAllAux old new n ((c :: cs).drop old.length)
    else c :: replaceAllAux old new n cs

/-- The call `strings.ReplaceAll(s, old, new)` for a non-empty `old` (the only call
of the source is guarded by `len(v.Value) > 0`). -/
def replaceAll (s old new : GoString) : GoString := replaceAllAux old new s.length s

/-- Membership in the cut set of `strings.Trim(s, "\r\n")`. -/
def isCRLF (c : Nat) : Bool := c == 13 || c == 10

/-- The call `strings.Trim(s, "\r\n")`. -/
def trimCRLF (s : GoString) : GoString := ((s.dropWhile isCRLF).reverse.dropWhile isCRLF).reverse

/-! ## Wire types -/

/-- The struct `VariableValue`. -/
structure VariableValue where
  Value : GoString := []
  IsSecret : Bool := false
  deriving DecidableEq, Repr

/-- The struct `MaskHint`. -/
structure MaskHint where
  Typ : String := ""
  Value : GoString := []
  deriving DecidableEq, Repr

/-- The struct `TaskAgentMessage`. -/
structure TaskAgentMessage where
  MessageId : Int := 0
  MessageType : String := ""
  IV : String := ""
  Body : String := ""
  deriving DecidableEq, Repr

/-! ## Timeline records -/

/-- The values of `TimelineRecord.State`: the literals `"Pending"`, `"InProgress"`
and `"Completed"`, the only ones the runner writes. -/
inductive RecordState where
  | Pending
  | InProgress
  | Completed
  deriving DecidableEq, Repr

/-- The struct `TimelineRecord`, without the time stamps (`StartTime`, `FinishTime`,
`LastModified`), which are written from the clock and never read, and
without the fields the runner never assigns. -/
structure TimelineRecord where
  Id : String := ""
  ParentId : String := ""
  Typ : String := ""
  Name : GoString := []
  PercentComplete : Int := 0
  State : RecordState := RecordState.Pending
  Result : Option String := none
  WorkerName : String := ""
  Order : Int := 0
  RefName : String := ""
  Log : Option Int := none
  deriving DecidableEq, Repr

/-- The struct `TimelineRecordWrapper`. -/
structure TimelineRecordWrapper where
  Count : Int := 0
  Value : List TimelineRecord := []
  deriving DecidableEq, Repr

/-- The method `TimelineRecord.Start`. -/
def TimelineRecord.Start (rec : TimelineRecord) : TimelineRecord :=
  { rec with PercentComplete := 0, State := RecordState.InProgress }

/-- The method `TimelineRecord.Complete`. -/
def TimelineRecord.Complete (rec : TimelineRecord) (res : String) : TimelineRecord :=
  { rec with PercentComplete := 100, State := RecordState.Completed, Result := some res }

/-- The function `CreateTimelineEntry`; `id` is the string of the UUID it draws. -/
def CreateTimelineEntry (id : String) (parent refname : String) (name : GoString) :
    TimelineRecord :=
  { Id := id, RefName := refname, Name := name, Typ := "Task", WorkerName := "golang-go",
    ParentId := parent, State := RecordState.Pending, Order := 1 }

/-- An assignment through `wrap.Value[i]` (or through a pointer `&wrap.Value[i]`): the
record at index `i` is replaced by its image under `g`. -/
def modifyAt (g : TimelineRecord → TimelineRecord) : Nat → List TimelineRecord → List TimelineRecord
  | _, [] => []
  | 0, r :: rs => g r :: rs
  | n + 1, r :: rs => r :: modifyAt g n rs

/-- The conversion `int32(n)` of a Go `int`. -/
def toInt32 (n : Int) : Int := (n + 2 ^ 31) % 2 ^ 32 - 2 ^ 31

/-- The timeline the orchestrator creates first (lines 1263-1273): the Job record and
the `__setup` record, both started. `setupId` is the UUID drawn for `__setup`;
the UUID drawn for the Job record is overwritten by `jobId`. -/
def initialTimeline (jobId jobName : String) (jobDisplayName : GoString) (setupId : String) :
    TimelineRecordWrapper :=
  let r0 := CreateTimelineEntry jobId "" jobName jobDisplayName
  let r0 := { r0 with Id := jobId, Typ := "Job", Order := 0 }.Start
  let r1 := CreateTimelineEntry setupId jobId "__setup" (ascii "Setup Job")
  let r1 := { r1 with Order := 1 }.Start
  { Count := 2, Value := [r0, r1] }

/-- What the timeline needs of a translated step (`*model.Step` of the workflow
engine): its `ID` and the value of its `String()` method. -/
structure StepInfo where
  ID : String := ""
  display : GoString := []
  deriving DecidableEq, Repr

/-- The loop `for i := 0; i < len(steps); i++` of lines 1723-1726, entered at index
`i` with the steps from `i` on still to add: each step appends a record and
then sets the `Order` of `wrap.Value[i+2]`. `uuid k` is the UUID drawn for the
step of index `k`. -/
def appendStepRecords (jobId : String) (uuid : Nat → String) :
    List StepInfo → Nat → List TimelineRecord → List TimelineRecord
  | [], _, value => value
  | st :: rest, i, value =>
    let value := value ++ [CreateTimelineEntry (uuid i) jobId st.ID st.display]
    let value := modifyAt (fun r => { r with Order := toInt32 ((i : Int) + 2) }) (i + 2) value
    appendStepRecords jobId uuid rest (i + 1) value

/-- The timeline after step translation (lines 1723-1728), as sent by the
`UpdateTimeLine` call of line 1729. -/
def timelineWithSteps (jobId : String) (uuid : Nat → String) (steps : List StepInfo)
    (wrap : TimelineRecordWrapper) : TimelineRecordWrapper :=
  let value := appendStepRecords jobId uuid steps 0 wrap.Value
  { Count := (value.length : Int), Value := value }

/-! ## The log formatter -/

/-- What `Format` reads of the job request: `MaskHints` and `Variables`. The
variables are listed in the order in which the `range` over the map visits
them, which Go leaves unspecified. -/
structure MaskingData where
  MaskHints : Option (List MaskHint) := none
  Variables : Option (List (String × VariableValue)) := none
  deriving DecidableEq, Repr

/-- What `Format` reads of a `*logrus.Entry`: the message and whether
`entry.Data["raw_output"]` is `true`. -/
structure LogEntry where
  Message : GoString := []
  rawOutput : Bool := false
  deriving DecidableEq, Repr

/-- What the runner reads of the executor's `*runner.RunContext` at a given moment:
`CurrentStep` and the `Success` flag of each entry of `StepResults`, in the
order in which a `range` over the map visits them. -/
structure RunContext where
  CurrentStep : String := ""
  StepResults : List (String × Bool) := []
  deriving DecidableEq, Repr

/-- The expression `rc.StepResults[name].Success`, false for a name without an
entry. -/
def RunContext.success (rc : RunContext) (name : String) : Bool :=
  (rc.StepResults.lookup name).getD false

/-- The struct `ghaFormatter`. The pointer `current` into `wrap.Value` is the index of
the record it points to; the callbacks are the effects listed in `Effect`. -/
structure ghaFormatter where
  rqt : MaskingData := {}
  wrap : TimelineRecordWrapper := {}
  current : Option Nat := none
  startLine : Int := 0
  stepBuffer : GoString := []
  deriving DecidableEq, Repr

/-- The calls a formatter makes through its callbacks. -/
inductive Effect where
  | uploadLogFile (log : GoString)
  | updateTimeLine (wrap : TimelineRecordWrapper)
  | logline (startLine : Int) (recordId : String) (line : GoString)
  deriving DecidableEq, Repr

/-- One call of `Format` as the formatter sees it: the entry, the executor's state at
that moment, and the log id the server returns if the call uploads a step log. -/
structure FormatCall where
  entry : LogEntry := {}
  rc : RunContext := {}
  logId : Int := 0
  deriving DecidableEq, Repr

/-- The index of the first record whose `RefName` is `name`: the search loop
`for i := range f.wrap.Value` of lines 796-804. -/
def findRefName (name : String) : List TimelineRecord → Option Nat
  | [] => none
  | r :: rs => if r.RefName = name then some 0 else (findRefName name rs).map (· + 1)

/-- The `RefName` of the record `current` points to (a pointer into `wrap.Value` always
points to a record of the slice). -/
def ghaFormatter.currentRefName (f : ghaFormatter) : Option String :=
  match f.current with
  | none => none
  | some c => some (f.wrap.Value[c]?.getD {}).RefName

/-- The block of lines 785-794 and 1837-1850: the current record is completed with
result `res` and, when the step buffer is not empty, the buffer is uploaded
and the returned id stored in the record. -/
def ghaFormatter.completeCurrent (f : ghaFormatter) (c : Nat) (res : String) (logId : Int) :
    ghaFormatter × List Effect :=
  let value := modifyAt (fun r => r.Complete res) c f.wrap.Value
  if 0 < f.stepBuffer.length then
    ({ f with wrap := { f.wrap with Value := modifyAt (fun r => { r with Log := some logId }) c value } },
      [Effect.uploadLogFile f.stepBuffer])
  else ({ f with wrap := { f.wrap with Value := value } }, [])

/-- The block `if f.current != nil` of lines 785-794: the record the formatter leaves
is completed, as succeeded or failed after the executor's result for its
step, and its buffer uploaded. -/
def ghaFormatter.leaveCurrent (f : ghaFormatter) (call : FormatCall) :
    ghaFormatter × List Effect :=
  match f.current with
  | none => (f, [])
  | some c =>
    if call.rc.success (f.wrap.Value[c]?.getD {}).RefName then
      f.completeCurrent c "Succeeded" call.logId
    else f.completeCurrent c "Failed" call.logId

/-- The search loop of lines 796-804: the first record whose `RefName` is `name`
becomes the current one and is started; its name and a blank are written to
`b`. When no record has that `RefName` nothing changes. -/
def ghaFormatter.enterStep (f : ghaFormatter) (name : String) : ghaFormatter × GoString :=
  match findRefName name f.wrap.Value with
  | none => (f, [])
  | some i =>
    ({ f with current := some i,
              wrap := { f.wrap with Value := modifyAt TimelineRecord.Start i f.wrap.Value } },
      (f.wrap.Value[i]?.getD {}).Name ++ [32])

/-- The body of `if f.current == nil || f.current.RefName != f.rc.CurrentStep`
(lines 784-805). Returns the formatter, the calls made and the bytes written
to `b` (the name of the record entered and a blank). -/
def ghaFormatter.switchStep (f : ghaFormatter) (call : FormatCall) :
    ghaFormatter × List Effect × GoString :=
  let left := ({ f with startLine := 1 }).leaveCurrent call
  let entered := ({ left.1 with stepBuffer := [] }).enterStep call.rc.CurrentStep
  (entered.1, left.2 ++ [Effect.updateTimeLine entered.1.wrap], entered.2)

/-- The loop over `f.rqt.MaskHints` (lines 810-817). `re pattern` is the function
`fun s => r.ReplaceAllString(s, "***")` for the compiled `pattern`, and `none`
when the pattern does not compile, in which case the call on the `nil`
regexp panics. -/
def maskRegex (re : GoString → Option (GoString → GoString)) : List MaskHint → GoString → Option GoString
  | [], msg => some msg
  | h :: hs, msg =>
    if lower h.Typ = "regex" then
      match re h.Value with
      | none => none
      | some r => maskRegex re hs (r msg)
    else maskRegex re hs msg

/-- The loop over `f.rqt.Variables` (lines 818-824). -/
def maskSecrets : List (String × VariableValue) → GoString → GoString
  | [], msg => msg
  | (_, v) :: vs, msg =>
    if v.IsSecret && 0 < v.Value.length then maskSecrets vs (replaceAll msg v.Value (ascii "***"))
    else maskSecrets vs msg

/-- The value of `entry.Message` after lines 810-824, `none` for a panic. -/
def maskMessage (re : GoString → Option (GoString → GoString)) (rqt : MaskingData)
    (msg : GoString) : Option GoString :=
  match (match rqt.MaskHints with
         | none => some msg
         | some hints => maskRegex re hints msg) with
  | none => none
  | some msg =>
    match rqt.Variables with
    | none => some msg
    | some vars => some (maskSecrets vars msg)

/-- The first part of `Format` (lines 781-806): the switch of steps when the
condition of line 783 holds, nothing otherwise. -/
def ghaFormatter.beginFormat (f : ghaFormatter) (call : FormatCall) :
    ghaFormatter × List Effect × GoString :=
  if f.current = none ∨ f.currentRefName ≠ some call.rc.CurrentStep then f.switchStep call
  else (f, [], [])

/-- The second part of `Format` (lines 810-834), from the formatter `f` and the bytes
`b` the first part left. -/
def ghaFormatter.endFormat (re : GoString → Option (GoString → GoString)) (f : ghaFormatter)
    (b : GoString) (call : FormatCall) : ghaFormatter × List Effect × Option GoString :=
  match maskMessage re f.rqt call.entry.Message with
  | none => (f, [], none)
  | some msg =>
    match f.current with
    | none => (f, [], none)
    | some c =>
      ({ f with startLine := f.startLine + 1,
                stepBuffer := f.stepBuffer ++
                  (if call.entry.rawOutput then b ++ msg else b ++ msg ++ [10]) },
        [Effect.logline f.startLine (f.wrap.Value[c]?.getD {}).Id (trimCRLF (b ++ msg))],
        some (if call.entry.rawOutput then b ++ msg else b ++ msg ++ [10]))

/-- The method `ghaFormatter.Format`. Returns the formatter after the call, the calls
made through the callbacks in order, and the bytes returned; the last
component is `none` when the call panics (a mask pattern that does not
compile, or `f.current.Id` on a `nil` record), the first two then hold what
had happened before the panic. -/
def ghaFormatter.Format (re : GoString → Option (GoString → GoString)) (f : ghaFormatter)
    (call : FormatCall) : ghaFormatter × List Effect × Option GoString :=
  let first := f.beginFormat call
  let second := first.1.endFormat re first.2.2 call
  (second.1, first.2.1 ++ second.2.1, second.2.2)

/-- The formatter the orchestrator builds before it runs the executor (lines
1711-1728 and 1813): a zero `ghaFormatter` with the request, an empty step
buffer, the timeline and `current = &wrap.Value[1]`. -/
def newFormatter (rqt : MaskingData) (wrap : TimelineRecordWrapper) : ghaFormatter :=
  { rqt := rqt, wrap := wrap, current := some 1, startLine := 0, stepBuffer := [] }

/-- The formatter run over the log entries of an executor, in order, up to the first
call that panics. Returns the final formatter, all calls made through the
callbacks, and whether a call panicked. -/
def runFormat (re : GoString → Option (GoString → GoString)) :
    ghaFormatter → List FormatCall → ghaFormatter × List Effect × Bool
  | f, [] => (f, [], false)
  | f, call :: calls =>
    match f.Format re call with
    | (f1, effs, none) => (f1, effs, true)
    | (f1, effs, some _) =>
      let (f2, effs2, panicked) := runFormat re f1 calls
      (f2, effs ++ effs2, panicked)

/-! ## Finalization of a job -/

/-- The block of lines 1827-1833: `jobStatus` is `"success"` unless some entry of
`rc.StepResults` has `Success` false. -/
def jobStatusOf : List (String × Bool) → String
  | [] => "success"
  | (_, ok) :: rest => if !ok then "failure" else jobStatusOf rest

/-- The loop of lines 1852-1856 over the records of index 2 and above. -/
def skipUnfinished (value : List TimelineRecord) : List TimelineRecord :=
  value.take 2 ++ (value.drop 2).map
    (fun r => if r.State ≠ RecordState.Completed then r.Complete "Skipped" else r)

/-- The struct `JobEvent` as `finishJob2` fills it, without the ids of the request. -/
structure JobEvent where
  Name : String := "JobCompleted"
  Result : String := ""
  Outputs : Option (List (String × VariableValue)) := none
  deriving DecidableEq, Repr

/-- What the orchestrator sends once the formatter is done. -/
structure JobEnd where
  wrap : TimelineRecordWrapper := {}
  effects : List Effect := []
  event : JobEvent := {}
  deriving DecidableEq, Repr

/-- The finalization after the executor returns (lines 1817-1869). `rc` is the
executor's state at that moment, `logId` the id returned if the buffer of
the current step is uploaded, `declared` whether `rqt.JobOutputs` is not
`nil`, and `outputs` the output map of the current job in the executor. -/
def finalizeJob (f : ghaFormatter) (rc : RunContext) (logId : Int) (declared : Bool)
    (outputs : List (String × GoString)) : JobEnd :=
  let outputMap : Option (List (String × VariableValue)) :=
    if declared then some (outputs.map (fun kv => (kv.1, { Value := kv.2 })))
    else none
  let jobStatus := jobStatusOf rc.StepResults
  let f := { f with startLine := 1 }
  let (f, ups, jobStatus) :=
    match f.current with
    | none => (f, [], jobStatus)
    | some c =>
      if c = 1 then
        let (f1, e) := f.completeCurrent c "Failed" logId
        (f1, e, "failure")
      else if rc.success (f.wrap.Value[c]?.getD {}).RefName then
        let (f1, e) := f.completeCurrent c "Succeeded" logId
        (f1, e, jobStatus)
      else
        let (f1, e) := f.completeCurrent c "Failed" logId
        (f1, e, jobStatus)
  let value := skipUnfinished f.wrap.Value
  let value :=
    if jobStatus = "success" then modifyAt (fun r => r.Complete "Succeeded") 0 value
    else modifyAt (fun r => r.Complete "Failed") 0 value
  let wrap := { f.wrap with Value := value }
  let result := if jobStatus = "success" then "Succeeded" else "Failed"
  { wrap := wrap, effects := ups ++ [Effect.updateTimeLine wrap],
    event := { Result := result, Outputs := outputMap } }

/-- The closure `failInitJob` (lines 1275-1282): the message is uploaded as the log
of `__setup`, `__setup` and the Job record are completed as failed, the
timeline is sent and `JobCompleted` is emitted with result `Failed`. -/
def failInitJob (wrap : TimelineRecordWrapper) (logId : Int) (message : GoString) : JobEnd :=
  let value := modifyAt (fun r => { r with Log := some logId }) 1 wrap.Value
  let value := modifyAt (fun r => r.Complete "Failed") 1 value
  let value := modifyAt (fun r => r.Complete "Failed") 0 value
  let wrap := { wrap with Value := value }
  { wrap := wrap, effects := [Effect.uploadLogFile message, Effect.updateTimeLine wrap],
    event := { Result := "Failed", Outputs := none } }

/-- The values of `wrap.Value` during the execution of a job, from the formatter the
orchestrator built: after each call of `Format`, and at the end after the
finalization, or, when a call of `Format` panics, after the `failInitJob` of
the recovery handler (lines 1283-1287, with `panicMessage` the rendered panic). -/
def timelineTrace (re : GoString → Option (GoString → GoString)) (rcEnd : RunContext)
    (logId : Int) (panicMessage : GoString) :
    ghaFormatter → List FormatCall → List (List TimelineRecord)
  | f, [] => [(finalizeJob f rcEnd logId false []).wrap.Value]
  | f, call :: calls =>
    match f.Format re call with
    | (f1, _, none) => [f1.wrap.Value, (failInitJob f1.wrap logId panicMessage).wrap.Value]
    | (f1, _, some _) => f1.wrap.Value :: timelineTrace re rcEnd logId panicMessage f1 calls

/-- The values of `wrap.Value` over the whole life of a job that reaches the
executor: the two records as created, the two records started, the timeline
with the step records, then the execution. -/
def jobTimelineTrace (re : GoString → Option (GoString → GoString)) (rqt : MaskingData)
    (jobId jobName : String) (jobDisplayName : GoString) (setupId : String)
    (uuid : Nat → String) (steps : List StepInfo) (calls : List FormatCall)
    (rcEnd : RunContext) (logId : Int) (panicMessage : GoString) : List (List TimelineRecord) :=
  let created := [{ CreateTimelineEntry jobId "" jobName jobDisplayName with
                      Id := jobId, Typ := "Job", Order := 0 },
                  { CreateTimelineEntry setupId jobId "__setup" (ascii "Setup Job") with Order := 1 }]
  let wrap0 := initialTimeline jobId jobName jobDisplayName setupId
  let wrap := timelineWithSteps jobId uuid steps wrap0
  created :: wrap0.Value :: wrap.Value ::
    timelineTrace re rcEnd logId panicMessage (newFormatter rqt wrap) calls

/-- The states a record of index `i` takes along a trace of timelines. -/
def stateHistory (i : Nat) (trace : List (List TimelineRecord)) : List RecordState :=
  trace.filterMap (fun value => (value[i]?).map (fun r => r.State))

/-- The lines handed to `logline` among the calls made: start line, record id, text. -/
def loglines : List Effect → List (Int × String × GoString)
  | [] => []
  | Effect.logline n id line :: effs => (n, id, line) :: loglines effs
  | _ :: effs => loglines effs

/-- The start lines carried by the lines emitted for the record `id`, in order. -/
def startLinesOf (id : String) (effs : List Effect) : List Int :=
  ((loglines effs).filter (fun l => l.2.1 = id)).map (fun l => l.1)

/-! ## The message pump (`RunRunner.Run`, lines 1087-1195) -/

/-- The outcome of `c.Do` for the long-poll `GET` of the message queue. -/
inductive GetOutcome where
  | canceled
  | error
  | noResponse
  | status (code : Nat) (message : TaskAgentMessage)
  deriving DecidableEq, Repr

/-- What the outside answers to the next call the pump makes: to a `GET` (for a
response, its status code and the message `dec.Decode` reads from its body),
to a `DELETE` (the status code, `none` when there is no response) and to
`taskAgent.Authorize` (whether it succeeds). -/
inductive PumpEvent where
  | get (outcome : GetOutcome)
  | delete (code : Option Nat)
  | authorize (ok : Bool)
  deriving DecidableEq, Repr

/-- What the pump does, as seen from outside. -/
inductive PumpAction where
  | get
  | delete (messageId : Int)
  | authorize
  | startJob (message : TaskAgentMessage)
  | ignore (messageType : String)
  | abortSecondJob
  | giveUp
  | panic
  deriving DecidableEq, Repr

/-- Where the pump stands: in the inner loop `for !success` of an iteration of the
outer loop, with the variable `message` of that iteration; in the loop that
deletes the message just decoded; or in the call of `taskAgent.Authorize`
that follows a status 401 in one of the two. -/
inductive PumpPhase where
  | poll (message : TaskAgentMessage)
  | ack (message : TaskAgentMessage)
  | authorizePoll (message : TaskAgentMessage)
  | authorizeAck (message : TaskAgentMessage)
  deriving DecidableEq, Repr

/-- The message loop of `RunRunner.Run` (lines 1087-1195 and 1872-1878) with
`run.Once = once`, from the value `first` of `firstJobReceived`, against the
answers `events`. The result lists what the pump does until it returns or
has used up the answers. Each iteration of the outer loop starts from
`message := &TaskAgentMessage{}` (line 1089), which is `PumpPhase.poll {}`. -/
def messagePump (once : Bool) : Bool → PumpPhase → List PumpEvent → List PumpAction
  | _, _, [] => []
  | first, PumpPhase.poll message, PumpEvent.get outcome :: events =>
    PumpAction.get ::
    match outcome with
    | GetOutcome.canceled => [PumpAction.giveUp]
    | GetOutcome.error => messagePump once first (PumpPhase.poll message) events
    | GetOutcome.noResponse => messagePump once first (PumpPhase.poll message) events
    | GetOutcome.status code decoded =>
      if code ≠ 200 then
        if 200 ≤ code ∧ code < 300 then messagePump once first (PumpPhase.poll message) events
        else if code = 401 then messagePump once first (PumpPhase.authorizePoll message) events
        else [PumpAction.giveUp]
      else if first && equalFold message.MessageType "PipelineAgentJobRequest" then
        [PumpAction.abortSecondJob]
      else messagePump once first (PumpPhase.ack decoded) events
  | first, PumpPhase.authorizePoll message, PumpEvent.authorize ok :: events =>
    PumpAction.authorize ::
    if ok then messagePump once first (PumpPhase.poll message) events else [PumpAction.giveUp]
  | first, PumpPhase.ack message, PumpEvent.delete code :: events =>
    PumpAction.delete message.MessageId ::
    match code with
    | none => [PumpAction.panic]
    | some code =>
      if code ≠ 200 ∧ ¬ (200 ≤ code ∧ code < 300) then
        if code = 401 then messagePump once first (PumpPhase.authorizeAck message) events
        else [PumpAction.giveUp]
      else if equalFold message.MessageType "PipelineAgentJobRequest" then
        PumpAction.startJob message ::
          messagePump once (if once then true else first) (PumpPhase.poll {}) events
      else
        PumpAction.ignore message.MessageType :: messagePump once first (PumpPhase.poll {}) events
  | first, PumpPhase.authorizeAck message, PumpEvent.authorize ok :: events =>
    PumpAction.authorize ::
    if ok then messagePump once first (PumpPhase.ack message) events else [PumpAction.giveUp]
  | _, _, _ :: _ => []

/-- The records the loop of lines 1723-1726 adds for the steps from index `i` on, in
closed form: one record per step, the step of index `k` with `Order`
`int32(k + 2)`. -/
def stepRecords (jobId : String) (uuid : Nat → String) : List StepInfo → Nat → List TimelineRecord
  | [], _ => []
  | st :: rest, i =>
    { CreateTimelineEntry (uuid i) jobId st.ID st.display with Order := toInt32 ((i : Int) + 2) } ::
      stepRecords jobId uuid rest (i + 1)

/-! ## Template tokens (`TemplateToken`, lines 182-289) -/

/-- A Go `float64`, as its IEEE-754 bit pattern (a number below `2 ^ 64`). The runner
only stores and compares such values. -/
structure Float64 where
  bits : Nat
  deriving DecidableEq, Repr

/-- Whether a `float64` is a NaN: all exponent bits set and a non-zero fraction. -/
def Float64.isNaN (x : Float64) : Bool :=
  (x.bits / 2 ^ 52) % 2 ^ 11 == 2047 && x.bits % 2 ^ 52 != 0

/-- The Go comparison `x == y` of two `float64`: NaN equals nothing, the two zeros are
equal, other values are equal when their bits are. -/
def Float64.goEq (x y : Float64) : Bool :=
  !x.isNaN && !y.isNaN && (x.bits == y.bits || (x.bits % 2 ^ 63 == 0 && y.bits % 2 ^ 63 == 0))

/-- The values of type `interface{}` the runner builds with `ToRawObject` and
`ToStringMap`: `nil`, a `string`, a `[]interface{}`, a
`map[interface{}]interface{}`, a `map[string]interface{}`, a `bool` and a
`float64`. A map is the list of its entries, no two with equal keys. -/
inductive RawObject where
  | null
  | str (s : String)
  | seq (a : List RawObject)
  | imap (m : List (RawObject × RawObject))
  | smap (m : List (String × RawObject))
  | bool (b : Bool)
  | num (f : Float64)

/-- The struct `TemplateToken`, its fields in the order of the source: `FileId`, `Line`,
`Column`, `Type`, `Bool`, `Num`, `Lit`, `Expr`, `Directive`, `Seq`, `Map`. A
`MapEntry` is the pair of its `Key` and its `Value`, two pointers. -/
inductive TemplateToken where
  | mk (FileId Line Column : Option Int) (Typ : Int) (Bool : Option Bool)
      (Num : Option Float64) (Lit Expr Directive : Option String)
      (Seq : Option (List TemplateToken))
      (Map : Option (List (Option TemplateToken × Option TemplateToken)))

/-- The struct `MapEntry`. -/
abbrev MapEntry := Option TemplateToken × Option TemplateToken

/-- The zero value `TemplateToken{}`. -/
def TemplateToken.zero : TemplateToken :=
  TemplateToken.mk none none none 0 none none none none none none none

/-- The field `Type` of a token. -/
def TemplateToken.Typ : TemplateToken → Int
  | TemplateToken.mk _ _ _ ty _ _ _ _ _ _ _ => ty

/-- Whether a raw value may be the key of a Go map: a slice or a map as key panics
(`hash of unhashable type`). -/
def RawObject.hashable : RawObject → Bool
  | RawObject.seq _ => false
  | RawObject.imap _ => false
  | RawObject.smap _ => false
  | _ => true

/-- The Go comparison `a == b` of two hashable `interface{}` values, as a map uses it
for its keys: equal dynamic types and equal values. -/
def rawKeyEq : RawObject → RawObject → Bool
  | RawObject.null, RawObject.null => true
  | RawObject.str a, RawObject.str b => a == b
  | RawObject.bool a, RawObject.bool b => a == b
  | RawObject.num a, RawObject.num b => a.goEq b
  | _, _ => false

/-- The assignment `m[k] = v` on a `map[interface{}]interface{}`: the entry with a key
equal to `k` is replaced, otherwise an entry is added. -/
def mapAssign : List (RawObject × RawObject) → RawObject → RawObject →
    List (RawObject × RawObject)
  | [], k, v => [(k, v)]
  | (k1, v1) :: rest, k, v =>
    if rawKeyEq k1 k then (k, v) :: rest else (k1, v1) :: mapAssign rest k v

/-- The expression `m[k]` with its `ok` flag on a `map[interface{}]interface{}`. -/
def mapLookup : List (RawObject × RawObject) → RawObject → Option RawObject
  | [], _ => none
  | (k1, v1) :: rest, k => if rawKeyEq k1 k then some v1 else mapLookup rest k

mutual
/-- The method `TemplateToken.ToRawObject`. `none` is a panic: a `nil` payload pointer
dereferenced, or a map key that cannot be hashed. -/
def TemplateToken.ToRawObject : TemplateToken → Option RawObject
  | TemplateToken.mk _ _ _ ty b n lit expr dir seq map =>
    if ty = 0 then lit.map RawObject.str
    else if ty = 1 then
      match seq with
      | none => none
      | some l => (seqToRaw l).map RawObject.seq
    else if ty = 2 then
      match map with
      | none => none
      | some es => (mapToRaw es []).map RawObject.imap
    else if ty = 3 then expr.map (fun e => RawObject.str ("$\x7b\x7b" ++ e ++ "\x7d\x7d"))
    else if ty = 4 then dir.map RawObject.str
    else if ty = 5 then b.map RawObject.bool
    else if ty = 6 then n.map RawObject.num
    else some RawObject.null
/-- The loop `for _, v := range *token.Seq` of `ToRawObject`. -/
def seqToRaw : List TemplateToken → Option (List RawObject)
  | [] => some []
  | t :: ts =>
    match t.ToRawObject with
    | none => none
    | some r => (seqToRaw ts).map (fun rs => r :: rs)
/-- The loop `for _, v := range *token.Map` of `ToRawObject`, with the map built so
far. -/
def mapToRaw : List (Option TemplateToken × Option TemplateToken) →
    List (RawObject × RawObject) → Option (List (RawObject × RawObject))
  | [], m => some m
  | (some k, some v) :: es, m =>
    match k.ToRawObject, v.ToRawObject with
    | some rk, some rv => if rk.hashable then mapToRaw es (mapAssign m rk rv) else none
    | _, _ => none
  | _ :: _, _ => none
end

mutual
/-- The method `TemplateToken.FromRawObject`, called on `token` with `value`. The
entries of a map are visited in an order Go leaves unspecified: `order`
stands for it, applied to the entries in the order of the list. -/
def TemplateToken.FromRawObject (order : List MapEntry → List MapEntry) :
    TemplateToken → RawObject → TemplateToken
  | TemplateToken.mk fi li co ty b n lit ex di sq mp, value =>
    match value with
    | RawObject.str val => TemplateToken.mk fi li co 0 b n (some val) ex di sq mp
    | RawObject.seq a => TemplateToken.mk fi li co 1 b n lit ex di (some (seqFromRaw order a)) mp
    | RawObject.imap m =>
      TemplateToken.mk fi li co 2 b n lit ex di sq (some (order (mapFromRaw order m)))
    | RawObject.bool val => TemplateToken.mk fi li co 5 (some val) n lit ex di sq mp
    | RawObject.num val => TemplateToken.mk fi li co 6 b (some val) lit ex di sq mp
    | RawObject.null => TemplateToken.mk fi li co ty b n lit ex di sq mp
    | RawObject.smap _ => TemplateToken.mk fi li co ty b n lit ex di sq mp
/-- The loop `for i, v := range a` of `FromRawObject`. -/
def seqFromRaw (order : List MapEntry → List MapEntry) : List RawObject → List TemplateToken
  | [] => []
  | v :: vs => TemplateToken.FromRawObject order TemplateToken.zero v :: seqFromRaw order vs
/-- The loop `for k, v := range val` of `FromRawObject`. -/
def mapFromRaw (order : List MapEntry → List MapEntry) :
    List (RawObject × RawObject) → List MapEntry
  | [] => []
  | (k, v) :: es =>
    (some (TemplateToken.FromRawObject order TemplateToken.zero k),
      some (TemplateToken.FromRawObject order TemplateToken.zero v)) :: mapFromRaw order es
end

/-! ## Translation of the steps (`RunRunner.Run`, lines 1435-1582) -/

/-- The struct `ActionStepDefinitionReference`. -/
structure ActionStepDefinitionReference where
  Typ : String := ""
  Image : String := ""
  Name : String := ""
  Ref : String := ""
  RepositoryType : String := ""
  Path : String := ""
  deriving DecidableEq, Repr

/-- The struct `ActionStep`. -/
structure ActionStep where
  Typ : String := ""
  Reference : ActionStepDefinitionReference := {}
  DisplayNameToken : Option TemplateToken := none
  ContextName : String := ""
  Environment : Option TemplateToken := none
  Inputs : Option TemplateToken := none
  Condition : String := ""
  ContinueOnError : Option TemplateToken := none
  TimeoutInMinutes : Option TemplateToken := none

/-- The fields of the workflow engine's `model.Step` that the translation fills; `If`
is the value of the scalar node. -/
structure Step where
  ID : String := ""
  If : String := ""
  Name : String := ""
  Run : String := ""
  Uses : String := ""
  WorkingDirectory : String := ""
  Shell : String := ""
  With : List (String × String) := []
  ContinueOnError : Bool := false
  TimeoutMinutes : Int := 0
  Env : List (String × String) := []
  deriving DecidableEq, Repr

/-- How a part of the job translation ends: with a value; with `failInitJob(message)`
followed by `return`; with a bare `return` after printing `printed`, which
reports nothing to the server; or with a panic. -/
inductive Translated (α : Type) where
  | ok (value : α)
  | failInit (message : String)
  | silentReturn (printed : String)
  | panic
  deriving DecidableEq, Repr

/-- Sequencing of two parts of the translation: the second runs on the value of the
first, any other ending of the first ends the whole. -/
def Translated.bind {α β : Type} (x : Translated α) (g : α → Translated β) : Translated β :=
  match x with
  | Translated.ok a => g a
  | Translated.failInit m => Translated.failInit m
  | Translated.silentReturn p => Translated.silentReturn p
  | Translated.panic => Translated.panic

/-- The assignment `m[key] = value` on a `map[string]string`. -/
def strMapAssign : List (String × String) → String → String → List (String × String)
  | [], k, v => [(k, v)]
  | (k1, v1) :: rest, k, v =>
    if k1 = k then (k, v) :: rest else (k1, v1) :: strMapAssign rest k v

/-- A loop `for k, v := range m` that copies a raw map into a `map[string]string`,
over the entries still to visit: `onKey` is what the loop body does for a
key that is not a string, `onValue` for a value that is not a string. -/
def rangeStringMap (onKey onValue : Translated (List (String × String))) :
    List (RawObject × RawObject) → List (String × String) → Translated (List (String × String))
  | [], acc => Translated.ok acc
  | (RawObject.str key, RawObject.str value) :: rest, acc =>
    rangeStringMap onKey onValue rest (strMapAssign acc key value)
  | (RawObject.str _, _) :: _, _ => onValue
  | _ :: _, _ => onKey

/-- The type assertion `tok.ToRawObject().(map[interface{}]interface{})` with the
failure message used when it does not hold. -/
def tokenAsMap (tok : TemplateToken) (message : String) : Translated (List (RawObject × RawObject)) :=
  match tok.ToRawObject with
  | none => Translated.panic
  | some (RawObject.imap m) => Translated.ok m
  | some _ => Translated.failInit message

/-- The part of the loop body that depends on the step type (the `switch st` of lines
1512-1581). `none` is a step of another type, for which nothing is added. -/
def translateStepKind (order : List (RawObject × RawObject) → List (RawObject × RawObject))
    (step : ActionStep) (st : String) (inputs : List (RawObject × RawObject))
    (env : List (String × String)) (wd : String) (continueOnError : Bool) (timeoutMinutes : Int)
    (displayName contextName : String) : Translated (Option Step) :=
  if st = "script" then
    (match mapLookup inputs (RawObject.str "shell") with
      | none => Translated.ok ""
      | some (RawObject.str sshell) => Translated.ok sshell
      | some _ => Translated.failInit "shell is not a script").bind fun shell =>
    match mapLookup inputs (RawObject.str "script") with
    | some (RawObject.str scriptContent) =>
      Translated.ok (some
        { ID := contextName, If := step.Condition, Name := displayName,
          Run := scriptContent, WorkingDirectory := wd, Shell := shell,
          ContinueOnError := continueOnError, TimeoutMinutes := timeoutMinutes, Env := env })
    | _ => Translated.failInit "Missing script"
  else if st = "containerregistry" ∨ st = "repository" then
    let uses :=
      if st = "containerregistry" then "docker://" ++ step.Reference.Image
      else if lower step.Reference.RepositoryType = "self" then step.Reference.Path
      else
        (if 0 < step.Reference.Path.length then
            step.Reference.Name ++ "/" ++ step.Reference.Path
          else step.Reference.Name) ++ "@" ++ step.Reference.Ref
    (rangeStringMap (Translated.failInit "with input key is not a string")
        (Translated.silentReturn "with input value is not a string") (order inputs) []).bind
      fun withMap =>
    Translated.ok (some
      { ID := contextName, If := step.Condition, Name := displayName,
        Uses := uses, WorkingDirectory := "", With := withMap,
        ContinueOnError := continueOnError, TimeoutMinutes := timeoutMinutes, Env := env })
  else Translated.ok none

/-- One iteration of the loop `for _, step := range rqt.Steps` (lines 1436-1582).
`order` is the order in which a `range` visits the entries of a map,
`toInt64` the conversion `int64(x)` of a `float64`, and `fresh` the UUID drawn
when the step has no context name. -/
def translateStep (order : List (RawObject × RawObject) → List (RawObject × RawObject))
    (toInt64 : Float64 → Int) (fresh : String) (step : ActionStep) : Translated (Option Step) :=
  let st := lower step.Reference.Typ
  (match step.Inputs with
    | none => Translated.ok []
    | some tok => tokenAsMap tok "step.Inputs: not a map").bind fun inputs =>
  (match step.Environment with
    | none => Translated.ok []
    | some tok =>
      (tokenAsMap tok "step.Inputs: not a map").bind fun tmpenvs =>
        rangeStringMap (Translated.failInit "env key: act doesn't support non strings")
          (Translated.failInit "env value: act doesn't support non strings")
          (order tmpenvs) []).bind fun env =>
  (match mapLookup inputs (RawObject.str "workingDirectory") with
    | none => Translated.ok ""
    | some (RawObject.str tmpwd) => Translated.ok tmpwd
    | some _ =>
      Translated.failInit "workingDirectory: act doesn't support non strings").bind fun wd =>
  (match step.ContinueOnError with
    | none => Translated.ok false
    | some tok =>
      match tok.ToRawObject with
      | none => Translated.panic
      | some (RawObject.bool b) => Translated.ok b
      | some _ =>
        Translated.failInit
          "ContinueOnError: act doesn't support expressions here").bind fun continueOnError =>
  (match step.TimeoutInMinutes with
    | none => Translated.ok 0
    | some tok =>
      match tok.ToRawObject with
      | none => Translated.panic
      | some (RawObject.num x) => Translated.ok (toInt64 x)
      | some _ =>
        Translated.failInit
          "TimeoutInMinutes: act doesn't support expressions here").bind fun timeoutMinutes =>
  (match step.DisplayNameToken with
    | none => Translated.ok ""
    | some tok =>
      match tok.ToRawObject with
      | none => Translated.panic
      | some (RawObject.str s) => Translated.ok s
      | some _ =>
        Translated.failInit "DisplayNameToken: act doesn't support no strings").bind
    fun displayName =>
  let contextName := if step.ContextName = "" then "___" ++ fresh else step.ContextName
  translateStepKind order step st inputs env wd continueOnError timeoutMinutes displayName
    contextName

/-- The loop `for _, step := range rqt.Steps` (lines 1435-1582), over the steps still
to translate, with the list `steps` built so far. `uuid k` is the UUID drawn
for the wire step of index `k`. -/
def translateSteps (order : List (RawObject × RawObject) → List (RawObject × RawObject))
    (toInt64 : Float64 → Int) (uuid : Nat → String) :
    List ActionStep → Nat → List Step → Translated (List Step)
  | [], _, steps => Translated.ok steps
  | step :: rest, k, steps =>
    match translateStep order toInt64 (uuid k) step with
    | Translated.ok (some s) => translateSteps order toInt64 uuid rest (k + 1) (steps ++ [s])
    | Translated.ok none => translateSteps order toInt64 uuid rest (k + 1) steps
    | Translated.failInit m => Translated.failInit m
    | Translated.silentReturn p => Translated.silentReturn p
    | Translated.panic => Translated.panic

/-! ## Round trip of a token through its raw value -/

mutual
/-- Equality of two tokens up to the order of the entries of their mappings: all
fields agree, sequences agree element by element, and the entries of a
mapping agree with those of the other in some order. -/
def TokenEquiv : TemplateToken → TemplateToken → Prop
  | TemplateToken.mk fi li co ty b n lit ex di sq mp, t2 =>
    match t2 with
    | TemplateToken.mk fi2 li2 co2 ty2 b2 n2 lit2 ex2 di2 sq2 mp2 =>
      fi = fi2 ∧ li = li2 ∧ co = co2 ∧ ty = ty2 ∧ b = b2 ∧ n = n2 ∧ lit = lit2 ∧ ex = ex2 ∧
      di = di2 ∧
      (match sq with
        | none => sq2 = none
        | some l => ∃ l2, sq2 = some l2 ∧ SeqEquiv l l2) ∧
      (match mp with
        | none => mp2 = none
        | some es => ∃ es2 es3, mp2 = some es2 ∧ es3.Perm es2 ∧ EntriesEquiv es es3)
/-- Element-wise `TokenEquiv` of two sequences. -/
def SeqEquiv : List TemplateToken → List TemplateToken → Prop
  | [], l2 => l2 = []
  | t :: ts, l2 => ∃ t2 ts2, l2 = t2 :: ts2 ∧ TokenEquiv t t2 ∧ SeqEquiv ts ts2
/-- Entry-wise `TokenEquiv` of two lists of map entries. -/
def EntriesEquiv : List (Option TemplateToken × Option TemplateToken) →
    List (Option TemplateToken × Option TemplateToken) → Prop
  | [], es2 => es2 = []
  | (some k, some v) :: es, es2 =>
    ∃ k2 v2 es3, es2 = (some k2, some v2) :: es3 ∧ TokenEquiv k k2 ∧ TokenEquiv v v2 ∧
      EntriesEquiv es es3
  | (none, some v) :: es, es2 =>
    ∃ v2 es3, es2 = (none, some v2) :: es3 ∧ TokenEquiv v v2 ∧ EntriesEquiv es es3
  | (some k, none) :: es, es2 =>
    ∃ k2 es3, es2 = (some k2, none) :: es3 ∧ TokenEquiv k k2 ∧ EntriesEquiv es es3
  | (none, none) :: es, es2 => ∃ es3, es2 = (none, none) :: es3 ∧ EntriesEquiv es es3
end

/-- The raw value of the key of a map entry. -/
def keyRaw (e : MapEntry) : Option RawObject :=
  match e.1 with
  | none => none
  | some k => k.ToRawObject

/-- Whether the keys of the entries are pairwise different as keys of a Go map. -/
def distinctKeys : List MapEntry → Bool
  | [] => true
  | e :: es =>
    es.all (fun e2 =>
      match keyRaw e, keyRaw e2 with
      | some a, some b => !rawKeyEq a b
      | _, _ => false) && distinctKeys es

mutual
/-- The tokens on which the round trip through `ToRawObject` and `FromRawObject` is
considered: at every level the tag is 0 (string), 1 (sequence), 2 (mapping),
5 (bool) or 6 (number); exactly the payload field of the tag is set; the
position fields `FileId`, `Line` and `Column` are not set; and the entries of
a mapping have a key and a value, the keys being scalars (tag 0, 5 or 6)
that are pairwise different as keys of a Go map. -/
def TemplateToken.roundTrips : TemplateToken → Bool
  | TemplateToken.mk fi li co ty b n lit ex di sq mp =>
    fi.isNone && li.isNone && co.isNone && ex.isNone && di.isNone &&
    (if ty = 0 then lit.isSome && b.isNone && n.isNone && sq.isNone && mp.isNone
     else if ty = 1 then
       b.isNone && n.isNone && lit.isNone && mp.isNone &&
       (match sq with
        | none => false
        | some l => seqRoundTrips l)
     else if ty = 2 then
       b.isNone && n.isNone && lit.isNone && sq.isNone &&
       (match mp with
        | none => false
        | some es => entriesRoundTrip es && distinctKeys es)
     else if ty = 5 then b.isSome && n.isNone && lit.isNone && sq.isNone && mp.isNone
     else if ty = 6 then n.isSome && b.isNone && lit.isNone && sq.isNone && mp.isNone
     else false)
/-- The condition `roundTrips` on every element of a sequence. -/
def seqRoundTrips : List TemplateToken → Bool
  | [] => true
  | t :: ts => t.roundTrips && seqRoundTrips ts
/-- The condition `roundTrips` on the key and the value of every entry, with a scalar
key. -/
def entriesRoundTrip : List (Option TemplateToken × Option TemplateToken) → Bool
  | [] => true
  | (some k, some v) :: es =>
    k.roundTrips && (k.Typ = 0 || k.Typ = 5 || k.Typ = 6) && v.roundTrips && entriesRoundTrip es
  | _ :: _ => false
end

/-- The raw entry a map entry contributes to the map `ToRawObject` builds: the raw
values of its key and of its value, the key being hashable. -/
def EntryRaw (e : MapEntry) (r : RawObject × RawObject) : Prop :=
  ∃ k v, e = (some k, some v) ∧ k.ToRawObject = some r.1 ∧ v.ToRawObject = some r.2 ∧
    r.1.hashable = true

/-- The round-trip property of a token `t`: `t.ToRawObject()` returns a value, and
`FromRawObject` called with it on a fresh token yields a token equal to `t` up
to the order of map entries. -/
def RoundTrip (order : List MapEntry → List MapEntry) (t : TemplateToken) : Prop :=
  ∃ r, t.ToRawObject = some r ∧
    TokenEquiv t (TemplateToken.FromRawObject order TemplateToken.zero r)

/-- A string token (tag 0) without position. -/
def strToken (s : String) : TemplateToken :=
  TemplateToken.mk none none none 0 none none (some s) none none none none

/-- A null token (tag 7) without position. -/
def nullToken : TemplateToken :=
  TemplateToken.mk none none none 7 none none none none none none none

/-- A sequence token (tag 1) without position. -/
def seqToken (l : List TemplateToken) : TemplateToken :=
  TemplateToken.mk none none none 1 none none none none none (some l) none

/-- A mapping token (tag 2) without position. -/
def mapToken (es : List MapEntry) : TemplateToken :=
  TemplateToken.mk none none none 2 none none none none none none (some es)

/-! ## Secrets in the log lines -/

/-- The bytes `"***"` that replace a masked value. -/
def stars : GoString := ascii "***"

/-- The values the secret masking looks for: those of the variables with
`IsSecret = true` and a value of length at least 1. -/
def secretValues (rqt : MaskingData) : List GoString :=
  match rqt.Variables with
  | none => []
  | some vars =>
    (vars.filter (fun kv => kv.2.IsSecret && decide (0 < kv.2.Value.length))).map
      (fun kv => kv.2.Value)

/-- Whether a call of `Format` switches steps: the condition of line 783. -/
def ghaFormatter.switches (f : ghaFormatter) (call : FormatCall) : Prop :=
  f.current = none ∨ f.currentRefName ≠ some call.rc.CurrentStep

/-- What identifies a record and never changes once the record is created: its `Id`,
its `RefName` and its `Name`. -/
def TimelineRecord.ident (r : TimelineRecord) : String × String × GoString :=
  (r.Id, r.RefName, r.Name)

/-! ## Order of the record states -/

/-- The position of a state in the progression `Pending`, `InProgress`, `Completed`. -/
def RecordState.rank : RecordState → Nat
  | RecordState.Pending => 0
  | RecordState.InProgress => 1
  | RecordState.Completed => 2

/-- From the timeline `v` to the timeline `w` no record is lost and no record moves to
an earlier state. -/
def StatesAdvance (v w : List TimelineRecord) : Prop :=
  v.length ≤ w.length ∧
    ∀ (j : Nat) (r s : TimelineRecord), v[j]? = some r → w[j]? = some s →
      r.State.rank ≤ s.State.rank

/-- The executor never returns to a step it has left: in the list of the values of
`CurrentStep`, a value that has been followed by a different one does not
occur again. -/
def noReturn : List String → Bool
  | [] => true
  | x :: rest => (rest.dropWhile (fun y => y == x)).all (fun y => y != x) && noReturn rest

/-- The invariant of the formatter along the log entries of an executor that never
returns to a step it has left: `prev` is the value of `CurrentStep` at the
last entry (`__setup` before the first), `future` lists its values at the
entries to come. No completed record has a `RefName` that is still to come,
and the current record is the one of `prev` unless it is already completed. -/
def ghaFormatter.Inv (f : ghaFormatter) (prev : String) (future : List String) : Prop :=
  noReturn (prev :: future) = true ∧
  (∀ (j : Nat) (r : TimelineRecord), f.wrap.Value[j]? = some r →
      r.State = RecordState.Completed → r.RefName ∉ prev :: future) ∧
  (∀ (c : Nat) (r : TimelineRecord), f.current = some c → f.wrap.Value[c]? = some r →
      r.RefName = prev ∨ r.State = RecordState.Completed)

/-- What the progress of a record is stated on: its identity and its state. -/
def TimelineRecord.view (r : TimelineRecord) : (String × String × GoString) × RecordState :=
  (r.ident, r.State)

/-- The states the record of index `i` takes over the life of a job that reaches the
executor. -/
def jobStateHistory (re : GoString → Option (GoString → GoString)) (rqt : MaskingData)
    (jobId jobName : String) (jobDisplayName : GoString) (setupId : String)
    (uuid : Nat → String) (steps : List StepInfo) (calls : List FormatCall)
    (rcEnd : RunContext) (logId : Int) (panicMessage : GoString) (i : Nat) : List RecordState :=
  stateHistory i (jobTimelineTrace re rqt jobId jobName jobDisplayName setupId uuid steps calls
    rcEnd logId panicMessage)

/-- The states from `a` on in the progression `Pending`, `InProgress`, `Completed`. -/
def RecordState.onward : RecordState → List RecordState
  | RecordState.Pending =>
    [RecordState.Pending, RecordState.InProgress, RecordState.Completed]
  | RecordState.InProgress => [RecordState.InProgress, RecordState.Completed]
  | RecordState.Completed => [RecordState.Completed]
/-! ## Secrets, matrix and environment of a job -/

/-- The assignment `m[k] = v` on a Go map with `string` keys: the entry of key `k` is
replaced, otherwise an entry is added. -/
def goMapAssign {β : Type} : List (String × β) → String → β → List (String × β)
  | [], k, v => [(k, v)]
  | (k1, v1) :: rest, k, v =>
    if k1 = k then (k, v) :: rest else (k1, v1) :: goMapAssign rest k v

/-- The loop `for k, v := range rqt.Variables` of lines 1374-1378, over the variables
still to visit. -/
def secretsLoop : List (String × VariableValue) → List (String × GoString) →
    List (String × GoString)
  | [], secrets => secrets
  | (k, v) :: rest, secrets =>
    if v.IsSecret = true ∧ k ≠ "system.github.token" then
      secretsLoop rest (goMapAssign secrets k v.Value)
    else secretsLoop rest secrets

/-- The secrets map handed to the executor (lines 1372-1382). `variables` is
`rqt.Variables`, `none` for a `nil` map, its entries in the order the `range`
visits them. -/
def jobSecrets (vars0 : Option (List (String × VariableValue))) : List (String × GoString) :=
  match vars0 with
  | none => []
  | some vars =>
    let secrets := secretsLoop vars []
    match vars.lookup "system.github.token" with
    | some rawGithubToken => goMapAssign secrets "GITHUB_TOKEN" rawGithubToken.Value
    | none => secrets

/-- The struct `PipelineContextData`, its fields in the order of the source: `Type`,
`BoolValue`, `NumberValue`, `StringValue`, `ArrayValue`, `DictionaryValue`. A
`DictionaryContextDataPair` is the pair of its `Key` and its `Value`. -/
inductive PipelineContextData where
  | mk (Typ : Option Int) (BoolValue : Option Bool) (NumberValue : Option Float64)
      (StringValue : Option String) (ArrayValue : Option (List PipelineContextData))
      (DictionaryValue : Option (List (String × PipelineContextData)))

/-- The zero value of `PipelineContextData`. -/
def PipelineContextData.zero : PipelineContextData :=
  PipelineContextData.mk none none none none none none

/-- The field `Type`. -/
def PipelineContextData.Typ : PipelineContextData → Option Int
  | PipelineContextData.mk ty _ _ _ _ _ => ty

mutual
/-- The method `PipelineContextData.ToRawObject` (lines 385-414). `none` is a panic: a
`nil` payload pointer dereferenced. -/
def PipelineContextData.ToRawObject : PipelineContextData → Option RawObject
  | PipelineContextData.mk ty b n s a d =>
    match ty with
    | none => some RawObject.null
    | some t =>
      if t = 0 then s.map RawObject.str
      else if t = 1 then
        match a with
        | none => some (RawObject.seq [])
        | some vs => (PipelineContextData.arrayToRaw vs).map RawObject.seq
      else if t = 2 then
        match d with
        | none => some (RawObject.smap [])
        | some ps => (PipelineContextData.dictToRaw ps []).map RawObject.smap
      else if t = 3 then b.map RawObject.bool
      else if t = 4 then n.map RawObject.num
      else some RawObject.null
/-- The loop `for _, v := range *ctx.ArrayValue`. -/
def PipelineContextData.arrayToRaw : List PipelineContextData → Option (List RawObject)
  | [] => some []
  | v :: vs =>
    match v.ToRawObject with
    | none => none
    | some r =>
      match PipelineContextData.arrayToRaw vs with
      | none => none
      | some rs => some (r :: rs)
/-- The loop `for _, v := range *ctx.DictionaryValue`, with the map `m` built so far. -/
def PipelineContextData.dictToRaw : List (String × PipelineContextData) →
    List (String × RawObject) → Option (List (String × RawObject))
  | [], m => some m
  | (k, v) :: ps, m =>
    match v.ToRawObject with
    | none => none
    | some r => PipelineContextData.dictToRaw ps (goMapAssign m k r)
end

/-- The matrix handed to the executor (lines 1383-1392). `contextData` is
`rqt.ContextData`. -/
def jobMatrix (contextData : List (String × PipelineContextData)) :
    Translated (List (String × RawObject)) :=
  match contextData.lookup "matrix" with
  | none => Translated.ok []
  | some rawMatrix =>
    match rawMatrix.ToRawObject with
    | none => Translated.panic
    | some (RawObject.smap tmpmatrix) => Translated.ok tmpmatrix
    | some RawObject.null => Translated.ok []
    | some _ => Translated.failInit "matrix: not a map"

/-- The loop `for _, rawenv := range rqt.EnvironmentVariables` of lines 1395-1415, over
the entries still to visit, with the map `env` built so far. -/
def envLoop (order : List (RawObject × RawObject) → List (RawObject × RawObject)) :
    List TemplateToken → List (String × String) → Translated (List (String × String))
  | [], env => Translated.ok env
  | rawenv :: rest, env =>
    ((tokenAsMap rawenv "env: not a map").bind fun tmpenv =>
      rangeStringMap (Translated.failInit "env key: act doesn't support non strings")
        (Translated.failInit "env value: act doesn't support non strings")
        (order tmpenv) env).bind fun env1 => envLoop order rest env1

/-- The job environment handed to the executor (lines 1393-1420).
`environmentVariables` is `rqt.EnvironmentVariables`, `none` for a `nil`
slice; `jobTenant`, `jobToken` and `cacheUrl` are what the endpoint loop
of lines 1298-1317 left. -/
def jobEnv (order : List (RawObject × RawObject) → List (RawObject × RawObject))
    (environmentVariables : Option (List TemplateToken)) (jobTenant jobToken cacheUrl : String) :
    Translated (List (String × String)) :=
  (match environmentVariables with
    | none => Translated.ok []
    | some entries => envLoop order entries []).bind fun env =>
  let env := strMapAssign env "ACTIONS_RUNTIME_URL" jobTenant
  let env := strMapAssign env "ACTIONS_RUNTIME_TOKEN" jobToken
  let env := if 0 < cacheUrl.length then strMapAssign env "ACTIONS_CACHE_URL" cacheUrl else env
  Translated.ok env

/-! ## The public exponent of the registration -/

/-- The four bytes `binary.BigEndian.PutUint32(bs, ui)` writes. -/
def putUint32 (ui : Nat) : List Nat :=
  [ui / 16777216 % 256, ui / 65536 % 256, ui / 256 % 256, ui % 256]

/-- The loop `for ; expof < 3 && bs[expof] == 0; expof++ {}` of line 917, from the
value `expof`, with the number of tests still allowed: the test fails at
`expof = 3`, so three rounds from `0` are all the loop can do. -/
def expofLoop (bs : List Nat) : Nat → Nat → Nat
  | 0, expof => expof
  | n + 1, expof =>
    if expof < 3 ∧ bs[expof]?.getD 0 = 0 then expofLoop bs n (expof + 1) else expof

/-- The bytes `bs[expof:]` the registrar encodes for the exponent `key.E` (lines
913-919): `uint32(key.E)` keeps the low 32 bits. -/
def exponentBytes (E : Int) : List Nat :=
  let bs := putUint32 (E % 4294967296).toNat
  bs.drop (expofLoop bs 3 0)

/-- The number a byte string stands for, most significant byte first. -/
def bigEndianValue (bs : List Nat) : Nat :=
  bs.foldl (fun acc b => acc * 256 + b) 0

/-- The alphabet of `base64.StdEncoding`. -/
def encodeStd : List Char :=
  "ABCDEFGHIJKLMNOPQRSTUVWXYZabcdefghijklmnopqrstuvwxyz0123456789+/".toList

/-- The character of a six-bit value in the alphabet of `base64.StdEncoding`. -/
def base64Char (v : Nat) : Char :=
  encodeStd[v % 64]?.getD 'A'

/-- The characters of `base64.StdEncoding.EncodeToString`: four for each group of three
bytes, and a last group of one or two bytes padded with `=`. -/
def base64Chars : List Nat → List Char
  | b0 :: b1 :: b2 :: rest =>
    let val := b0 * 65536 + b1 * 256 + b2
    base64Char (val / 262144) :: base64Char (val / 4096) :: base64Char (val / 64) ::
      base64Char val :: base64Chars rest
  | [b0, b1] =>
    let val := b0 * 65536 + b1 * 256
    [base64Char (val / 262144), base64Char (val / 4096), base64Char (val / 64), '=']
  | [b0] =>
    let val := b0 * 65536
    [base64Char (val / 262144), base64Char (val / 4096), '=', '=']
  | [] => []

/-- The function `base64.StdEncoding.EncodeToString`. -/
def EncodeToString (src : List Nat) : String :=
  String.mk (base64Chars src)

/-- The field `Exponent` of the `TaskAgentPublicKey` the registrar sends (line 919). -/
def exponentString (E : Int) : String :=
  EncodeToString (exponentBytes E)

/-! ## YAML nodes of a template token -/

/-- The kinds of `yaml.Node` the program builds. -/
inductive YamlKind where
  | ScalarNode
  | SequenceNode
  | MappingNode
  deriving DecidableEq, Repr

/-- The styles of `yaml.Node` the program uses; `plain` is the zero value. -/
inductive YamlStyle where
  | plain
  | DoubleQuotedStyle
  | FlowStyle
  deriving DecidableEq, Repr

/-- The fields of a `yaml.Node` the program sets. `Content` is a slice of pointers,
`none` a `nil` one. -/
inductive YamlNode where
  | mk (Kind : YamlKind) (Style : YamlStyle) (Value : String) (Content : List (Option YamlNode))

/-- The field `Value`. -/
def YamlNode.Value : YamlNode → String
  | YamlNode.mk _ _ v _ => v

/-- The field `Kind`. -/
def YamlNode.Kind : YamlNode → YamlKind
  | YamlNode.mk k _ _ _ => k

/-- The field `Style`. -/
def YamlNode.Style : YamlNode → YamlStyle
  | YamlNode.mk _ s _ _ => s

mutual
/-- The method `TemplateToken.ToYamlNode` (lines 290-322). The outer `none` is a panic (a
`nil` payload pointer dereferenced), the inner one the `nil` returned for
an unknown tag. `formatFloat` is the text `yaml.Marshal` writes for a
`float64`, without its line end. -/
def TemplateToken.ToYamlNode (formatFloat : Float64 → String) :
    TemplateToken → Option (Option YamlNode)
  | TemplateToken.mk _ _ _ ty b n lit expr dir seq map =>
    if ty = 0 then
      lit.map fun s => some (YamlNode.mk YamlKind.ScalarNode YamlStyle.DoubleQuotedStyle s [])
    else if ty = 1 then
      match seq with
      | none => none
      | some vs =>
        (seqToYaml formatFloat vs).map fun a =>
          some (YamlNode.mk YamlKind.SequenceNode YamlStyle.plain "" a)
    else if ty = 2 then
      match map with
      | none => none
      | some es =>
        (mapToYaml formatFloat es).map fun a =>
          some (YamlNode.mk YamlKind.MappingNode YamlStyle.plain "" a)
    else if ty = 3 then
      expr.map fun e =>
        some (YamlNode.mk YamlKind.ScalarNode YamlStyle.DoubleQuotedStyle
          ("$\x7b\x7b" ++ e ++ "\x7d\x7d") [])
    else if ty = 4 then
      dir.map fun s => some (YamlNode.mk YamlKind.ScalarNode YamlStyle.DoubleQuotedStyle s [])
    else if ty = 5 then
      some (some (YamlNode.mk YamlKind.ScalarNode YamlStyle.FlowStyle
        (match b with
          | none => "null"
          | some true => "true"
          | some false => "false") []))
    else if ty = 6 then
      some (some (YamlNode.mk YamlKind.ScalarNode YamlStyle.FlowStyle
        (match n with
          | none => "null"
          | some x => formatFloat x) []))
    else if ty = 7 then
      some (some (YamlNode.mk YamlKind.ScalarNode YamlStyle.FlowStyle "null" []))
    else some none
/-- The loop `for _, v := range *token.Seq` of `ToYamlNode`. -/
def seqToYaml (formatFloat : Float64 → String) :
    List TemplateToken → Option (List (Option YamlNode))
  | [] => some []
  | v :: vs =>
    match v.ToYamlNode formatFloat with
    | none => none
    | some y =>
      match seqToYaml formatFloat vs with
      | none => none
      | some ys => some (y :: ys)
/-- The loop `for _, v := range *token.Map` of `ToYamlNode`. -/
def mapToYaml (formatFloat : Float64 → String) :
    List (Option TemplateToken × Option TemplateToken) → Option (List (Option YamlNode))
  | [] => some []
  | (some k, some v) :: es =>
    match k.ToYamlNode formatFloat, v.ToYamlNode formatFloat with
    | some yk, some yv =>
      match mapToYaml formatFloat es with
      | none => none
      | some ys => some (yk :: yv :: ys)
    | _, _ => none
  | _ :: _ => none
end

/-! ## Decoding of JSON scalars -/

/-- A JSON scalar: `null`, `true` or `false`, a number (as the `float64` it decodes to)
or a string. -/
inductive JsonScalar where
  | null
  | bool (b : Bool)
  | num (f : Float64)
  | str (s : String)
  deriving DecidableEq, Repr

/-- The call `json.Unmarshal(data, &p)` for a `p` of type `*bool` on a scalar: `some` is
the new `p` when the error is `nil` (`null` sets the pointer to `nil`), `none`
an error. -/
def unmarshalBoolPtr : JsonScalar → Option (Option Bool)
  | JsonScalar.null => some none
  | JsonScalar.bool b => some (some b)
  | _ => none

/-- The call `json.Unmarshal(data, &p)` for a `p` of type `*float64` on a scalar. -/
def unmarshalNumPtr : JsonScalar → Option (Option Float64)
  | JsonScalar.null => some none
  | JsonScalar.num f => some (some f)
  | _ => none

/-- The call `json.Unmarshal(data, &p)` for a `p` of type `*string` on a scalar. -/
def unmarshalStrPtr : JsonScalar → Option (Option String)
  | JsonScalar.null => some none
  | JsonScalar.str s => some (some s)
  | _ => none

/-- The method `TemplateToken.UnmarshalJSON` (lines 201-221) on a JSON scalar. `none` is
the error of the last branch, which decodes an object. -/
def TemplateToken.UnmarshalJSON : TemplateToken → JsonScalar → Option TemplateToken
  | TemplateToken.mk fi li co _ _ n lit ex di sq mp, data =>
    match unmarshalBoolPtr data with
    | some b => some (TemplateToken.mk fi li co 5 b n lit ex di sq mp)
    | none =>
      match unmarshalNumPtr data with
      | some n1 => some (TemplateToken.mk fi li co 6 none n1 lit ex di sq mp)
      | none =>
        match unmarshalStrPtr data with
        | some lit1 => some (TemplateToken.mk fi li co 0 none none lit1 ex di sq mp)
        | none => none

/-- The method `PipelineContextData.UnmarshalJSON` (lines 356-383) on a JSON scalar.
The assignment `ctx = nil` of the first branch changes the local pointer
only. -/
def PipelineContextData.UnmarshalJSON :
    PipelineContextData → JsonScalar → Option PipelineContextData
  | PipelineContextData.mk ty _ n s a d, data =>
    match unmarshalBoolPtr data with
    | some none => some (PipelineContextData.mk ty none n s a d)
    | some (some b) => some (PipelineContextData.mk (some 3) (some b) n s a d)
    | none =>
      match unmarshalNumPtr data with
      | some n1 => some (PipelineContextData.mk (some 4) none n1 s a d)
      | none =>
        match unmarshalStrPtr data with
        | some s1 => some (PipelineContextData.mk (some 0) none none s1 a d)
        | none => none

/-- The tags whose payload field is populated in a token, in the order `Lit`, `Seq`,
`Map`, `Expr`, `Directive`, `Bool`, `Num` of the tags 0 to 6. -/
def TemplateToken.populated : TemplateToken → List Int
  | TemplateToken.mk _ _ _ _ b n lit ex di sq mp =>
    (if lit.isSome then [0] else []) ++ (if sq.isSome then [1] else []) ++
    (if mp.isSome then [2] else []) ++ (if ex.isSome then [3] else []) ++
    (if di.isSome then [4] else []) ++ (if b.isSome then [5] else []) ++
    (if n.isSome then [6] else [])

/-! ## The job environment in the words of the specification -/

/-- The string a raw value is, when it is one. -/
def strKey : RawObject → Option String
  | RawObject.str s => some s
  | _ => none

/-- The keys of a raw map that are strings. -/
def strKeys (m : List (RawObject × RawObject)) : List String :=
  m.filterMap fun e => strKey e.1

/-- Whether every key and every value of a raw map is a string. -/
def allStrings : List (RawObject × RawObject) → Bool
  | [] => true
  | (RawObject.str _, RawObject.str _) :: rest => allStrings rest
  | _ :: _ => false

/-- The raw map of an entry of `environmentVariables` that is a map with string keys
and string values, `none` for any other entry. -/
def envEntryMap (e : TemplateToken) : Option (List (RawObject × RawObject)) :=
  match e.ToRawObject with
  | some (RawObject.imap m) => if allStrings m then some m else none
  | _ => none

/-- The string a raw map has under the string `key`. -/
def strLookup (m : List (RawObject × RawObject)) (key : String) : Option String :=
  match mapLookup m (RawObject.str key) with
  | some (RawObject.str v) => some v
  | _ => none

/-- The value of the last of the maps `ms` that defines `key`. -/
def lastDefined : List (List (RawObject × RawObject)) → String → Option String
  | [], _ => none
  | m :: rest, key =>
    match lastDefined rest key with
    | some v => some v
    | none => strLookup m key

/-- The job environment as the specification words it, for the raw maps `ms` of the
entries of `environmentVariables`: `ACTIONS_RUNTIME_URL` is the job tenant URL,
`ACTIONS_RUNTIME_TOKEN` the job token, `ACTIONS_CACHE_URL` the cache URL when it
is not empty, and any other key has the value of the last entry that defines it. -/
def envSpec (ms : List (List (RawObject × RawObject))) (jobTenant jobToken cacheUrl : String)
    (key : String) : Option String :=
  if key = "ACTIONS_RUNTIME_URL" then some jobTenant
  else if key = "ACTIONS_RUNTIME_TOKEN" then some jobToken
  else if key = "ACTIONS_CACHE_URL" ∧ cacheUrl ≠ "" then some cacheUrl
  else lastDefined ms key

/-! ## Parts of the step translation -/

/-- The inputs of a wire step (lines 1438-1446): the raw map of `step.Inputs`, empty
for a `nil` token. -/
def stepInputs (step : ActionStep) : Translated (List (RawObject × RawObject)) :=
  match step.Inputs with
  | none => Translated.ok []
  | some tok => tokenAsMap tok "step.Inputs: not a map"

/-- The environment of a wire step (lines 1447-1466). -/
def stepEnv (order : List (RawObject × RawObject) → List (RawObject × RawObject))
    (step : ActionStep) : Translated (List (String × String)) :=
  match step.Environment with
  | none => Translated.ok []
  | some tok =>
    (tokenAsMap tok "step.Inputs: not a map").bind fun tmpenvs =>
      rangeStringMap (Translated.failInit "env key: act doesn't support non strings")
        (Translated.failInit "env value: act doesn't support non strings")
        (order tmpenvs) []

/-- The working directory of a wire step (lines 1468-1479). -/
def stepWorkingDirectory (inputs : List (RawObject × RawObject)) : Translated String :=
  match mapLookup inputs (RawObject.str "workingDirectory") with
  | none => Translated.ok ""
  | some (RawObject.str tmpwd) => Translated.ok tmpwd
  | some _ => Translated.failInit "workingDirectory: act doesn't support non strings"

/-- The boolean a token is the literal of: the payload `Bool` of a token of tag 5. -/
def TemplateToken.boolLiteral : TemplateToken → Option Bool
  | TemplateToken.mk _ _ _ ty b _ _ _ _ _ _ => if ty = 5 then b else none

/-- Whether the step loop adds a step for a wire step: its reference type, in lower
case, is one of the three cases of the `switch st` of line 1512. -/
def ActionStep.translatable (step : ActionStep) : Bool :=
  lower step.Reference.Typ = "script" ∨ lower step.Reference.Typ = "containerregistry" ∨
    lower step.Reference.Typ = "repository"

/-- What the timeline takes of a translated step. `display` is the value of the
`String()` method of the workflow engine's `model.Step`. -/
def Step.info (display : Step → GoString) (s : Step) : StepInfo :=
  { ID := s.ID, display := display s }

/-! ## The start of a job -/

/-- The run of a job from the creation of the timeline to the lookup of the `github`
context (lines 1262-1370), for the ends reached there: `failInitJob` when the
request has no resources or no endpoints, and `finishJob("Failed")` when the
context data has no entry `github`. `none` when the run goes on. The timeline
update of line 1274 is not listed among the effects. -/
def startJob (jobId jobName : String) (jobDisplayName : GoString) (setupId : String)
    (hasResources hasEndpoints : Bool) (contextData : List (String × PipelineContextData))
    (logId : Int) : Option JobEnd :=
  let wrap := initialTimeline jobId jobName jobDisplayName setupId
  if hasResources = false then some (failInitJob wrap logId (ascii "Missing Job Resources"))
  else if hasEndpoints = false then
    some (failInitJob wrap logId (ascii "Missing Job Resources Endpoints"))
  else
    match contextData.lookup "github" with
    | none => some { wrap := wrap, effects := [], event := { Result := "Failed", Outputs := none } }
    | some _ => none

/-! ## The log streamer -/

/-- The struct `TimelineRecordFeedLinesWrapper`. -/
structure TimelineRecordFeedLinesWrapper where
  Count : Int := 0
  Value : List GoString := []
  StepId : String := ""
  StartLine : Option Int := none
  deriving DecidableEq, Repr

/-- What the streamer goroutine sees next: a batch received from `logchan`, built by
`formatter.logline` from its three arguments, or the end of the wait of the inner
loop (the timer of `time.After`, or more than a second spent). -/
inductive StreamEvent where
  | line (startLine : Int) (recordId : String) (line : GoString)
  | timeout
  deriving DecidableEq, Repr

/-- The batch `formatter.logline` sends on `logchan` (lines 1742-1749). -/
def loglineBatch (startLine : Int) (recordId : String) (line : GoString) :
    TimelineRecordFeedLinesWrapper :=
  { Count := 1, StartLine := some startLine, StepId := recordId, Value := [line] }

/-- The streamer goroutine (lines 1777-1810) over what it sees, with the batch `lines`
it holds (`none` in the outer `select`): the batches it posts with `sendLog`, in
order. In the outer `select` no timer runs. When nothing more is received the
timer of the inner loop ends the wait and the batch held is posted. -/
def logStreamer : Option TimelineRecordFeedLinesWrapper → List StreamEvent →
    List TimelineRecordFeedLinesWrapper
  | none, [] => []
  | some lines, [] => [lines]
  | none, StreamEvent.line startLine recordId l :: rest =>
    logStreamer (some (loglineBatch startLine recordId l)) rest
  | none, StreamEvent.timeout :: rest => logStreamer none rest
  | some lines, StreamEvent.line startLine recordId l :: rest =>
    if (loglineBatch startLine recordId l).StepId = lines.StepId then
      logStreamer (some { lines with Count := lines.Count + 1,
                                     Value := lines.Value ++ [l] }) rest
    else lines :: logStreamer (some (loglineBatch startLine recordId l)) rest
  | some lines, StreamEvent.timeout :: rest => lines :: logStreamer none rest

/-- The lines received, each with the id of its step, in the order received. -/
def receivedLines : List StreamEvent → List (String × GoString)
  | [] => []
  | StreamEvent.line _ recordId l :: rest => (recordId, l) :: receivedLines rest
  | StreamEvent.timeout :: rest => receivedLines rest

/-- The lines of the batches posted, each with the step id of its batch, in the order
posted. -/
def postedLines (batches : List TimelineRecordFeedLinesWrapper) : List (String × GoString) :=
  batches.flatMap fun b => b.Value.map fun l => (b.StepId, l)

/-! ## Maps with string keys for the JSON encoder -/

mutual
/-- The function `ToStringMap` (lines 1019-1029). `none` is the panic of `k.(string)` on a
key that is not a string. The entries are visited in the order of the list; the
map built is the same for every order. -/
def ToStringMap : RawObject → Option RawObject
  | RawObject.imap bi => (toStringMapEntries bi []).map RawObject.smap
  | RawObject.null => some RawObject.null
  | RawObject.str s => some (RawObject.str s)
  | RawObject.seq a => some (RawObject.seq a)
  | RawObject.smap m => some (RawObject.smap m)
  | RawObject.bool b => some (RawObject.bool b)
  | RawObject.num f => some (RawObject.num f)
/-- The loop `for k, v := range bi` of `ToStringMap`, with the map `res` built so far. -/
def toStringMapEntries : List (RawObject × RawObject) → List (String × RawObject) →
    Option (List (String × RawObject))
  | [], res => some res
  | (RawObject.str k, v) :: rest, res =>
    match ToStringMap v with
    | none => none
    | some v1 => toStringMapEntries rest (goMapAssign res k v1)
  | _ :: _, _ => none
end

mutual
/-- Whether a raw object has a `map[interface{}]interface{}` at some depth. -/
def RawObject.hasInterfaceMap : RawObject → Bool
  | RawObject.imap _ => true
  | RawObject.seq a => anyHasInterfaceMap a
  | RawObject.smap m => anyValueHasInterfaceMap m
  | _ => false
/-- Whether an element of a sequence has a `map[interface{}]interface{}` at some depth. -/
def anyHasInterfaceMap : List RawObject → Bool
  | [] => false
  | r :: rs => r.hasInterfaceMap || anyHasInterfaceMap rs
/-- Whether a value of a map has a `map[interface{}]interface{}` at some depth. -/
def anyValueHasInterfaceMap : List (String × RawObject) → Bool
  | [] => false
  | (_, r) :: rs => r.hasInterfaceMap || anyValueHasInterfaceMap rs
end

mutual
/-- Whether a raw object has no map at any depth: a scalar, or a sequence of such
objects. -/
def RawObject.mapFree : RawObject → Bool
  | RawObject.imap _ => false
  | RawObject.smap _ => false
  | RawObject.seq a => allMapFree a
  | _ => true
/-- Whether no element of a sequence has a map at any depth. -/
def allMapFree : List RawObject → Bool
  | [] => true
  | r :: rs => r.mapFree && allMapFree rs
end

mutual
/-- The raw objects built from maps `map[interface{}]interface{}` with string keys,
sequences and scalars, in which no sequence holds a map at any depth. -/
def RawObject.mapsOutsideSequences : RawObject → Bool
  | RawObject.imap m => entriesMapsOutsideSequences m
  | RawObject.seq a => allMapFree a
  | RawObject.smap _ => false
  | _ => true
/-- The entries of such a map: string keys, values of the same kind. -/
def entriesMapsOutsideSequences : List (RawObject × RawObject) → Bool
  | [] => true
  | (RawObject.str _, v) :: rest => v.mapsOutsideSequences && entriesMapsOutsideSequences rest
  | _ :: _ => false
end

/-! ## The URL builder -/

/-- The loop `for p, v := range ppath` of `BuildUrl` (lines 581-583), over the
parameters still to visit: every `{p}` of the text is replaced by `v`. -/
def substituteParams : List (GoString × GoString) → GoString → GoString
  | [], url => url
  | (p, v) :: rest, url => substituteParams rest (replaceAll url ([123] ++ p ++ [125]) v)

/-- A match of `\{[^\}]+\}` at the start of a text: what follows the match, or `none`
when there is no match. The class `[^\}]+` takes every byte up to the next `}`,
which has to be there, and at least one. -/
def matchBraces : GoString → Option GoString
  | [] => none
  | c :: t =>
    if c = 123 then
      match t.dropWhile (fun x => x != 125) with
      | [] => none
      | _ :: rest => if t.takeWhile (fun x => x != 125) ≠ [] then some rest else none
    else none

/-- A match of the pattern `/*\{[^\}]+\}` of line 584 at the start of a text: the
slashes, as many as there are, then the braces. -/
def matchPlaceholder (s : GoString) : Option GoString :=
  matchBraces (s.dropWhile (fun x => x == 47))

/-- The call `re.ReplaceAllString(url, "")` of line 585, run with `fuel` steps: scanning
from the left, a match that starts at the current position is dropped and the
scan resumes after it; any other byte is copied. -/
def removePlaceholdersAux : Nat → GoString → GoString
  | 0, s => s
  | _ + 1, [] => []
  | n + 1, c :: cs =>
    match matchPlaceholder (c :: cs) with
    | some rest => removePlaceholdersAux n rest
    | none => c :: removePlaceholdersAux n cs

/-- The call `re.ReplaceAllString(url, "")` of line 585. A match is not empty, so as
many steps as the text has bytes are enough. -/
def removePlaceholders (s : GoString) : GoString := removePlaceholdersAux s.length s

/-- The path `BuildUrl` joins onto the path of the tenant URL (lines 580-585). `order`
is the order in which the `range` visits the parameters. -/
def urlPath (order : List (GoString × GoString) → List (GoString × GoString))
    (relativePath : GoString) (ppath : List (GoString × GoString)) : GoString :=
  removePlaceholders (substituteParams (order ppath) relativePath)

/-- A piece of a path template: a text, or a placeholder `{name}`. -/
inductive Seg where
  | lit (s : GoString)
  | ph (name : GoString)
  deriving DecidableEq, Repr

/-- The text of a piece. -/
def Seg.render : Seg → GoString
  | Seg.lit s => s
  | Seg.ph name => [123] ++ name ++ [125]

/-- The template made of the pieces `segs`. -/
def renderSegs : List Seg → GoString
  | [] => []
  | seg :: rest => seg.render ++ renderSegs rest

/-- Whether a piece has no brace in its text or in its name. -/
def Seg.braceFree : Seg → Prop
  | Seg.lit s => 123 ∉ s ∧ 125 ∉ s
  | Seg.ph name => 123 ∉ name ∧ 125 ∉ name

/-- A piece after the substitution the specification describes: a placeholder whose
name is a key of the map becomes the value of the key. -/
def Seg.subst (ppath : List (GoString × GoString)) : Seg → Seg
  | Seg.lit s => Seg.lit s
  | Seg.ph name =>
    match ppath.lookup name with
    | some v => Seg.lit v
    | none => Seg.ph name

/-- A piece after the replacement of `{p}` by `v`. -/
def Seg.substOne (p v : GoString) : Seg → Seg
  | Seg.lit s => Seg.lit s
  | Seg.ph name => if name = p then Seg.lit v else Seg.ph name

/-- The replacements for the parameters, one after the other, on one piece. -/
def Seg.substAll : List (GoString × GoString) → Seg → Seg
  | [], seg => seg
  | (p, v) :: rest, seg => Seg.substAll rest (seg.substOne p v)

/-- Whether a text has a placeholder left: an opening brace, one byte or more other
than `}`, and a closing brace. -/
def hasPlaceholder (s : GoString) : Prop :=
  ∃ u x w, s = u ++ 123 :: (x ++ 125 :: w) ∧ x ≠ [] ∧ 125 ∉ x

/-- A text without the slashes at its end. -/
def stripSlashes (out : GoString) : GoString :=
  (out.reverse.dropWhile (fun x => x == 47)).reverse

/-- The removal of the placeholders as the specification words it, on the pieces of a
template, with the text `out` kept so far: a text piece is kept, a placeholder
is removed with the slashes immediately before it. -/
def removeSegs : List Seg → GoString → GoString
  | [], out => out
  | Seg.lit s :: rest, out => removeSegs rest (out ++ s)
  | Seg.ph _ :: rest, out => removeSegs rest (stripSlashes out)

/-- The path as the specification words it, for the pieces of a template and a
parameter map: each placeholder whose name is a key of the map is replaced by the
value of the key, every other placeholder is removed with the slashes
immediately before it. -/
def specPath (ppath : List (GoString × GoString)) (segs : List Seg) : GoString :=
  removeSegs (segs.map (Seg.subst ppath)) []

/-- Whether a piece is a text without braces or a placeholder whose name is not empty
and has no brace. -/
def Seg.wellFormed : Seg → Prop
  | Seg.lit s => 123 ∉ s ∧ 125 ∉ s
  | Seg.ph name => name ≠ [] ∧ 123 ∉ name ∧ 125 ∉ name

/-! ## Overlapping secret values -/

/-- Whether an occurrence of `b` can start at a byte of an occurrence of `a`: some
non-empty end of `a` begins with `b` or is a beginning of `b`. -/
def startsInside (b a : GoString) : Bool :=
  a.tails.any fun x => !x.isEmpty && (b.isPrefixOf x || x.isPrefixOf b)

/-- Whether an occurrence of `a` and an occurrence of `b` can share a byte of a text:
one occurs inside the other, or a non-empty end of one is a beginning of
the other. -/
def overlap (a b : GoString) : Bool := startsInside b a || startsInside a b

/-! # Theorems -/

/-! ### Lemmas on the padding loop -/

theorem padLoop_eq_decide (src : GoString) (last : Nat) (hle : last ≤ src.length) :
    ∀ (n i : Nat), i + n = last + 1 →
      padLoop src last n i
        = some (decide (∀ j, i ≤ j → j ≤ last → src.getD (src.length - j) 0 = last)) := by
  intro n
  induction n with
  | zero =>
    intro i hi
    have : ∀ j, i ≤ j → j ≤ last → src.getD (src.length - j) 0 = last := by
      intro j h1 h2; omega
    simp only [padLoop]
    congr 1
    exact (decide_eq_true this).symm
  | succ n ih =>
    intro i hi
    have hlen : ¬ src.length < i := by omega
    by_cases hne : src.getD (src.length - i) 0 = last
    · rw [padLoop, if_neg hlen, if_neg (by simpa using hne), ih (i + 1) (by omega)]
      congr 1
      apply decide_eq_decide.mpr
      constructor
      · intro h j h1 h2
        rcases Nat.eq_or_lt_of_le h1 with h3 | h3
        · subst h3; exact hne
        · exact h j h3 h2
      · intro h j h1 h2
        exact h j (by omega) h2
    · rw [padLoop, if_neg hlen, if_pos (by simpa using hne)]
      congr 1
      symm
      apply decide_eq_false
      intro h
      exact hne (h i (le_refl _) (by omega))

theorem getD_last_of_getLast? (src : GoString) (b : Nat) (h : src.getLast? = some b) :
    src.getD (src.length - 1) 0 = b := by
  rw [List.getLast?_eq_getElem?] at h
  simp [List.getD_eq_getElem?_getD, h]

theorem drop_eq_replicate_of_tail (src : GoString) (b : Nat) (hle : b ≤ src.length)
    (h : ∀ j, 1 ≤ j → j ≤ b → src.getD (src.length - j) 0 = b) :
    src.drop (src.length - b) = List.replicate b b := by
  apply List.ext_getElem
  · simp; omega
  · intro k h1 h2
    simp only [List.length_replicate] at h2
    have hk := h (b - k) (by omega) (by omega)
    have hidx : src.length - (b - k) = src.length - b + k := by omega
    have hlt : src.length - b + k < src.length := by omega
    rw [hidx, List.getD_eq_getElem?_getD, List.getElem?_eq_getElem hlt] at hk
    simpa using hk

/-! ### The depadding leaves an invalid pad alone -/

/-- C4. A decrypted buffer whose final byte `b` is at least the block size, or
whose last `b` bytes are not all equal to `b`, is not shortened by the
depadding step: `validlen` is the full length of the buffer. -/
theorem validLen_invalid_pad (src : GoString) (b : Nat)
    (hlast : src.getLast? = some b)
    (hbad : blockSize ≤ b ∨
      (b ≤ src.length ∧ src.drop (src.length - b) ≠ List.replicate b b)) :
    validLen blockSize src = some src.length := by
  unfold validLen
  rw [hlast]
  by_cases hb : b < blockSize
  · have hbad2 : b ≤ src.length ∧ src.drop (src.length - b) ≠ List.replicate b b := by
      rcases hbad with h | h
      · omega
      · exact h
    obtain ⟨hle, hne⟩ := hbad2
    have hpos : 1 ≤ b := by
      rcases Nat.eq_zero_or_pos b with h0 | h0
      · subst h0; simp at hne
      · exact h0
    simp only [if_pos hb]
    rw [padLoop_eq_decide src b hle (b - 1) 2 (by omega)]
    have hfalse : ¬ (∀ j, 2 ≤ j → j ≤ b → src.getD (src.length - j) 0 = b) := by
      intro hall
      apply hne
      apply drop_eq_replicate_of_tail src b hle
      intro j h1 h2
      rcases Nat.eq_or_lt_of_le h1 with h3 | h3
      · subst h3; exact getD_last_of_getLast? src b hlast
      · exact hall j h3 h2
    rw [decide_eq_false hfalse]
  · simp only [if_neg hb]

/-- Witness for C4: a 16-byte buffer ending in `3, 7, 3`, whose last three bytes are
not all `3`, keeps its full length. -/
theorem validLen_invalid_pad_witness :
    validLen blockSize [1, 2, 3, 4, 5, 6, 7, 8, 9, 10, 11, 12, 13, 3, 7, 3] = some 16 :=
  validLen_invalid_pad [1, 2, 3, 4, 5, 6, 7, 8, 9, 10, 11, 12, 13, 3, 7, 3] 3
    (by decide) (Or.inr (by decide))

/-! ### Where the round trip fails -/

/-- C3 as stated fails. (1) The 16-byte payload `{"jobId":"abcd"}` (braces written as
hex escapes) fills its block, so PKCS#7 adds a whole block of padding
(sixteen bytes `0x10`); the depadding accepts a pad count below the block
size only, the post-decryption step keeps all 32 bytes, and what it yields is
not the payload. (2) The payload `EF BB BF 7B 7D`, sent without a byte-order
mark in front, loses its own first three bytes to the BOM strip. -/
theorem jobRequestBytes_roundtrip_fails :
    (jobRequestBytes (pkcs7Pad blockSize (ascii "\x7b\"jobId\":\"abcd\"\x7d"))
        = some (ascii "\x7b\"jobId\":\"abcd\"\x7d" ++ List.replicate 16 16)
      ∧ jobRequestBytes (pkcs7Pad blockSize (ascii "\x7b\"jobId\":\"abcd\"\x7d"))
        ≠ some (ascii "\x7b\"jobId\":\"abcd\"\x7d"))
    ∧ (jobRequestBytes (pkcs7Pad blockSize [239, 187, 191, 123, 125]) = some [123, 125]
      ∧ jobRequestBytes (pkcs7Pad blockSize [239, 187, 191, 123, 125])
        ≠ some [239, 187, 191, 123, 125]) := by
  decide

/-! ### Where the round trip does hold: a last block that is not full -/

theorem pkcs7Pad_getElem?_tail (data : GoString) (n i : Nat) (h1 : data.length ≤ i)
    (h2 : i < data.length + n) : (data ++ List.replicate n n)[i]? = some n := by
  rw [List.getElem?_append_right h1, List.getElem?_replicate]
  simp only [ite_eq_left_iff, not_lt]
  intro h
  omega

theorem validLen_pkcs7Pad (data : GoString) (h : data.length % 16 ≠ 0) :
    validLen blockSize (pkcs7Pad blockSize data) = some data.length := by
  have hn1 : 1 ≤ 16 - data.length % 16 := by omega
  have hn2 : 16 - data.length % 16 < 16 := by omega
  unfold pkcs7Pad blockSize
  generalize 16 - data.length % 16 = n at hn1 hn2
  have hlen : (data ++ List.replicate n n).length = data.length + n := by simp
  have hlast : (data ++ List.replicate n n).getLast? = some n := by
    rw [List.getLast?_eq_getElem?, hlen]
    exact pkcs7Pad_getElem?_tail data n _ (by omega) (by omega)
  unfold validLen
  rw [hlast]
  simp only [if_pos hn2]
  rw [padLoop_eq_decide _ n (by rw [hlen]; omega) (n - 1) 2 (by omega)]
  have hall : ∀ j, 2 ≤ j → j ≤ n →
      (data ++ List.replicate n n).getD ((data ++ List.replicate n n).length - j) 0 = n := by
    intro j h1 h2
    rw [List.getD_eq_getElem?_getD, hlen,
      pkcs7Pad_getElem?_tail data n _ (by omega) (by omega)]
    rfl
  rw [decide_eq_true hall]
  simp only [hlen, Nat.add_sub_cancel]

theorem bomOffset_of_not_bom (p : GoString) (m : Nat) (hm : m + 1 < 16)
    (hb : ¬ utf8Bom <+: p) :
    bomOffset (p ++ List.replicate (m + 1) (m + 1)) = some 0 := by
  have h239 : m + 1 ≠ 239 := by omega
  have h187 : m + 1 ≠ 187 := by omega
  have h191 : m + 1 ≠ 191 := by omega
  match p, hb with
  | [], _ => simp [bomOffset, List.replicate_succ, h239]
  | [a], _ =>
    by_cases ha : a = 239
    · simp [bomOffset, List.replicate_succ, ha, h187]
    · simp [bomOffset, ha]
  | [a, b], _ =>
    by_cases ha : a = 239
    · by_cases hb2 : b = 187
      · simp [bomOffset, List.replicate_succ, ha, hb2, h191]
      · simp [bomOffset, ha, hb2]
    · simp [bomOffset, ha]
  | a :: b :: c :: rest, hb =>
    by_cases ha : a = 239
    · by_cases hb2 : b = 187
      · by_cases hc : c = 191
        · exfalso
          apply hb
          subst ha hb2 hc
          exact ⟨rest, rfl⟩
        · simp [bomOffset, ha, hb2, hc]
      · simp [bomOffset, ha, hb2]
    · simp [bomOffset, ha]

/-- C3, amended. For every payload `p`, sent with or without a UTF-8 byte-order mark in
front, whose length together with the mark is not a multiple of 16 (the data
does not fill its last block) and which, when no mark is sent, does not
itself begin with the three bytes `EF BB BF` of the mark: the
post-decryption step (PKCS#7 depad, then BOM strip) applied to the data
followed by its PKCS#7 padding for a 16-byte block yields exactly `p`. -/
theorem jobRequestBytes_roundtrip_of_partial_block (p : GoString) (bom : Bool)
    (h16 : ((if bom then utf8Bom else []) ++ p).length % 16 ≠ 0)
    (hb : bom = false → ¬ utf8Bom <+: p) :
    jobRequestBytes (pkcs7Pad blockSize ((if bom then utf8Bom else []) ++ p)) = some p := by
  unfold jobRequestBytes
  rw [validLen_pkcs7Pad _ h16]
  simp only
  have hn1 : 1 ≤ 16 - ((if bom then utf8Bom else []) ++ p).length % 16 := by omega
  have hn2 : 16 - ((if bom then utf8Bom else []) ++ p).length % 16 < 16 := by omega
  unfold pkcs7Pad blockSize
  generalize 16 - ((if bom then utf8Bom else []) ++ p).length % 16 = n at hn1 hn2
  obtain ⟨m, rfl⟩ : ∃ m, n = m + 1 := ⟨n - 1, by omega⟩
  cases bom with
  | true =>
    simp only [if_true, utf8Bom]
    have hoff : bomOffset ([239, 187, 191] ++ p ++ List.replicate (m + 1) (m + 1)) = some 3 := by
      simp [bomOffset]
    rw [hoff]
    simp only
    rw [if_pos (by simp)]
    rw [List.take_left' rfl]
    simp
  | false =>
    simp only [Bool.false_eq_true, if_false, List.nil_append]
    rw [bomOffset_of_not_bom p m hn2 (hb rfl)]
    simp only
    rw [if_pos (Nat.zero_le _), List.take_left' rfl]
    simp

/-- Witness for C3: the 14-byte payload `{"jobId":"ab"}` (braces written as hex
escapes), sent with the byte-order mark in front (17 bytes), comes back as it
was sent. -/
theorem jobRequestBytes_roundtrip_of_partial_block_witness :
    ((if true then utf8Bom else []) ++ ascii "\x7b\"jobId\":\"ab\"\x7d").length % 16 ≠ 0
    ∧ jobRequestBytes (pkcs7Pad blockSize
        ((if true then utf8Bom else []) ++ ascii "\x7b\"jobId\":\"ab\"\x7d"))
      = some (ascii "\x7b\"jobId\":\"ab\"\x7d") :=
  ⟨by decide,
    jobRequestBytes_roundtrip_of_partial_block (ascii "\x7b\"jobId\":\"ab\"\x7d") true
      (by decide) (by intro h; cases h)⟩

/-! ## Run-once mode of the message pump -/

/-- C2, at a failing input. In run-once mode two `PipelineAgentJobRequest` messages
arrive one after the other, before any cancellation. The test of line 1136
reads the `MessageType` of the message of the new iteration, which is still
empty, so the pump deletes (acknowledges) the second message as well and
starts a second job. -/
theorem messagePump_once_second_job_started :
    messagePump true false (PumpPhase.poll {})
      [PumpEvent.get (GetOutcome.status 200
          { MessageId := 1, MessageType := "PipelineAgentJobRequest" }),
       PumpEvent.delete (some 200),
       PumpEvent.get (GetOutcome.status 200
          { MessageId := 2, MessageType := "PipelineAgentJobRequest" }),
       PumpEvent.delete (some 200)]
    = [PumpAction.get, PumpAction.delete 1,
       PumpAction.startJob { MessageId := 1, MessageType := "PipelineAgentJobRequest" },
       PumpAction.get, PumpAction.delete 2,
       PumpAction.startJob { MessageId := 2, MessageType := "PipelineAgentJobRequest" }] := by
  decide

/-- The guard of line 1136 never fires on the message of a new iteration: whatever
`firstJobReceived` is, a `GET` answered with status 200 is followed by the
deletion of the decoded message. -/
theorem messagePump_poll_200_acks (once first : Bool) (decoded : TaskAgentMessage)
    (events : List PumpEvent) :
    messagePump once first (PumpPhase.poll {}) (PumpEvent.get (GetOutcome.status 200 decoded) :: events)
      = PumpAction.get :: messagePump once first (PumpPhase.ack decoded) events := by
  have h : equalFold ({} : TaskAgentMessage).MessageType "PipelineAgentJobRequest" = false := by
    decide
  cases first
  · rw [messagePump]; simp
  · rw [messagePump]; simp [h]

/-! ## Orders of the timeline records -/

theorem modifyAt_nil (g : TimelineRecord → TimelineRecord) (i : Nat) : modifyAt g i [] = [] := by
  cases i <;> rfl

theorem modifyAt_length (g : TimelineRecord → TimelineRecord) :
    ∀ (i : Nat) (l : List TimelineRecord), (modifyAt g i l).length = l.length
  | i, [] => by rw [modifyAt_nil]
  | 0, _ :: _ => rfl
  | i + 1, _ :: rs => by simp [modifyAt, modifyAt_length g i rs]

theorem modifyAt_append_length (g : TimelineRecord → TimelineRecord) (e : TimelineRecord) :
    ∀ (l : List TimelineRecord), modifyAt g l.length (l ++ [e]) = l ++ [g e]
  | [] => rfl
  | r :: rs => by simp [modifyAt, modifyAt_append_length g e rs]

theorem modifyAt_get? (g : TimelineRecord → TimelineRecord) :
    ∀ (i j : Nat) (l : List TimelineRecord),
      (modifyAt g i l)[j]? = if j = i then (l[j]?).map g else l[j]?
  | i, _, [] => by simp [modifyAt_nil]
  | 0, 0, _ :: _ => by simp [modifyAt]
  | 0, j + 1, _ :: _ => by simp [modifyAt]
  | i + 1, 0, _ :: _ => by simp [modifyAt]
  | i + 1, j + 1, _ :: rs => by
    simp only [modifyAt, List.getElem?_cons_succ, modifyAt_get? g i j rs]
    simp

theorem appendStepRecords_eq (jobId : String) (uuid : Nat → String) :
    ∀ (steps : List StepInfo) (i : Nat) (value : List TimelineRecord),
      value.length = i + 2 →
      appendStepRecords jobId uuid steps i value = value ++ stepRecords jobId uuid steps i
  | [], _, value, _ => by simp [appendStepRecords, stepRecords]
  | st :: rest, i, value, h => by
    have hm := modifyAt_append_length
      (fun r => { r with Order := toInt32 ((i : Int) + 2) })
      (CreateTimelineEntry (uuid i) jobId st.ID st.display) value
    rw [h] at hm
    simp only [appendStepRecords, stepRecords]
    rw [hm, appendStepRecords_eq jobId uuid rest (i + 1) _ (by simp [h])]
    simp

theorem stepRecords_length (jobId : String) (uuid : Nat → String) :
    ∀ (steps : List StepInfo) (i : Nat), (stepRecords jobId uuid steps i).length = steps.length
  | [], _ => rfl
  | _ :: rest, i => by simp [stepRecords, stepRecords_length jobId uuid rest (i + 1)]

theorem stepRecords_get? (jobId : String) (uuid : Nat → String) :
    ∀ (steps : List StepInfo) (i k : Nat) (st : StepInfo), steps[k]? = some st →
      (stepRecords jobId uuid steps i)[k]?
        = some { CreateTimelineEntry (uuid (i + k)) jobId st.ID st.display with
                   Order := toInt32 ((i : Int) + k + 2) }
  | [], _, _, _, h => by simp at h
  | s :: rest, i, 0, st, h => by
    simp at h
    subst h
    simp [stepRecords]
  | s :: rest, i, k + 1, st, h => by
    simp at h
    have ih := stepRecords_get? jobId uuid rest (i + 1) k st (by simpa using h)
    simp only [stepRecords, List.getElem?_cons_succ, ih]
    have e1 : i + 1 + k = i + (k + 1) := by omega
    have e2 : ((i + 1 : Nat) : Int) + (k : Int) + 2 = (i : Int) + ((k + 1 : Nat) : Int) + 2 := by
      push_cast; ring
    rw [e1, e2]

theorem toInt32_of_lt (n : Int) (h0 : 0 ≤ n) (h1 : n < 2 ^ 31) : toInt32 n = n := by
  unfold toInt32
  omega

/-- C7. After step translation of a job with `N` steps (with `N + 2` within the range
of `int32`), the timeline has `N + 2` records and `Count = N + 2`, the record at
index `i` has `Order = i` for every `i` in `0..N+1`, record 0 is the Job record,
record 1 is `__setup`, and record `k + 2` is the record of the step of index `k`. -/
theorem timelineWithSteps_orders (jobId jobName : String) (jobDisplayName : GoString)
    (setupId : String) (uuid : Nat → String) (steps : List StepInfo)
    (hN : steps.length + 2 < 2 ^ 31) :
    (timelineWithSteps jobId uuid steps
        (initialTimeline jobId jobName jobDisplayName setupId)).Value.length = steps.length + 2
    ∧ (timelineWithSteps jobId uuid steps
        (initialTimeline jobId jobName jobDisplayName setupId)).Count = (steps.length : Int) + 2
    ∧ (∀ i, i < steps.length + 2 →
        ((timelineWithSteps jobId uuid steps
          (initialTimeline jobId jobName jobDisplayName setupId)).Value[i]?).map
            (fun r => r.Order) = some (i : Int))
    ∧ ((timelineWithSteps jobId uuid steps
          (initialTimeline jobId jobName jobDisplayName setupId)).Value[0]?).map
            (fun r => (r.Id, r.Typ)) = some (jobId, "Job")
    ∧ ((timelineWithSteps jobId uuid steps
          (initialTimeline jobId jobName jobDisplayName setupId)).Value[1]?).map
            (fun r => r.RefName) = some "__setup"
    ∧ (∀ k st, steps[k]? = some st →
        ((timelineWithSteps jobId uuid steps
          (initialTimeline jobId jobName jobDisplayName setupId)).Value[k + 2]?).map
            (fun r => r.RefName) = some st.ID) := by
  have hval : (timelineWithSteps jobId uuid steps
        (initialTimeline jobId jobName jobDisplayName setupId)).Value
      = (initialTimeline jobId jobName jobDisplayName setupId).Value
          ++ stepRecords jobId uuid steps 0 := by
    simp only [timelineWithSteps]
    exact appendStepRecords_eq jobId uuid steps 0 _ (by simp [initialTimeline])
  have hlen : (timelineWithSteps jobId uuid steps
        (initialTimeline jobId jobName jobDisplayName setupId)).Value.length
      = steps.length + 2 := by
    rw [hval]
    simp [initialTimeline, stepRecords_length]
  have hstep : ∀ k st, steps[k]? = some st →
      (timelineWithSteps jobId uuid steps
        (initialTimeline jobId jobName jobDisplayName setupId)).Value[k + 2]?
        = some { CreateTimelineEntry (uuid k) jobId st.ID st.display with
                   Order := toInt32 ((k : Int) + 2) } := by
    intro k st hk
    rw [hval]
    have := stepRecords_get? jobId uuid steps 0 k st hk
    simp only [initialTimeline] at this ⊢
    rw [List.getElem?_append_right (by simp)]
    simpa using this
  refine ⟨hlen, ?_, ?_, ?_, ?_, ?_⟩
  · simp only [timelineWithSteps]
    simp only [timelineWithSteps] at hlen
    rw [hlen]
    push_cast
    ring
  · intro i hi
    match i, hi with
    | 0, _ => rw [hval]; simp [initialTimeline, TimelineRecord.Start, CreateTimelineEntry]
    | 1, _ => rw [hval]; simp [initialTimeline, TimelineRecord.Start, CreateTimelineEntry]
    | k + 2, hk =>
      have hk2 : k < steps.length := by omega
      obtain ⟨st, hst⟩ : ∃ st, steps[k]? = some st := by
        exact ⟨steps[k], List.getElem?_eq_getElem hk2⟩
      rw [hstep k st hst]
      simp only [Option.map_some']
      rw [toInt32_of_lt _ (by omega) (by
        have : ((k : Int) + 2) < 2 ^ 31 := by
          have h3 : k + 2 < 2 ^ 31 := by omega
          exact_mod_cast h3
        exact this)]
      push_cast
      rfl
  · rw [hval]; simp [initialTimeline, TimelineRecord.Start, CreateTimelineEntry]
  · rw [hval]; simp [initialTimeline, TimelineRecord.Start, CreateTimelineEntry]
  · intro k st hk
    rw [hstep k st hk]
    simp [CreateTimelineEntry]

/-- Witness for C7: a job with two steps. -/
theorem timelineWithSteps_orders_witness :
    (timelineWithSteps "job" (fun _ => "u") [{ ID := "a" }, { ID := "b" }]
        (initialTimeline "job" "build" [] "s")).Value.length = 2 + 2 :=
  (timelineWithSteps_orders "job" "build" [] "s" (fun _ => "u") [{ ID := "a" }, { ID := "b" }]
    (by decide)).1

/-! ## Result of the Job record -/

theorem jobStatusOf_eq_success (results : List (String × Bool)) :
    jobStatusOf results = "success" ↔ ∀ e ∈ results, e.2 = true := by
  induction results with
  | nil => simp [jobStatusOf]
  | cons e rest ih =>
    obtain ⟨name, ok⟩ := e
    cases ok
    · simp [jobStatusOf]
    · simp [jobStatusOf, ih]

theorem modifyAt_zero_head? (g : TimelineRecord → TimelineRecord) (l : List TimelineRecord) :
    (modifyAt g 0 l)[0]? = (l[0]?).map g := by
  cases l <;> simp [modifyAt]

theorem skipUnfinished_length (value : List TimelineRecord) :
    (skipUnfinished value).length = value.length := by
  simp only [skipUnfinished, List.length_append, List.length_take, List.length_map,
    List.length_drop]
  omega

theorem completeCurrent_length (f : ghaFormatter) (c : Nat) (res : String) (logId : Int) :
    (f.completeCurrent c res logId).1.wrap.Value.length = f.wrap.Value.length := by
  unfold ghaFormatter.completeCurrent
  split <;> simp [modifyAt_length]

theorem completeCurrent_current (f : ghaFormatter) (c : Nat) (res : String) (logId : Int) :
    (f.completeCurrent c res logId).1.current = f.current := by
  unfold ghaFormatter.completeCurrent
  split <;> rfl

/-- The timeline after the finalization: the Job record is completed last, with the
result the final value of `jobStatus` gives. -/
theorem finalizeJob_value (f : ghaFormatter) (rc : RunContext) (logId : Int)
    (declared : Bool) (outputs : List (String × GoString)) :
    ∃ v, v.length = f.wrap.Value.length ∧
      (finalizeJob f rc logId declared outputs).wrap.Value
        = modifyAt (fun r => r.Complete
            (if jobStatusOf rc.StepResults = "success" ∧ f.current ≠ some 1
             then "Succeeded" else "Failed")) 0 (skipUnfinished v) := by
  obtain ⟨rqt, wrap, current, startLine, stepBuffer⟩ := f
  unfold finalizeJob
  cases current with
  | none =>
    refine ⟨wrap.Value, rfl, ?_⟩
    by_cases hs : jobStatusOf rc.StepResults = "success" <;> simp [hs]
  | some c =>
    by_cases hc1 : c = 1
    · subst hc1
      refine ⟨_, completeCurrent_length
        { rqt := rqt, wrap := wrap, current := some 1, startLine := 1, stepBuffer := stepBuffer }
        1 "Failed" logId, ?_⟩
      simp
    · cases hsucc : rc.success (wrap.Value[c]?.getD {}).RefName
      · refine ⟨_, completeCurrent_length
          { rqt := rqt, wrap := wrap, current := some c, startLine := 1, stepBuffer := stepBuffer }
          c "Failed" logId, ?_⟩
        by_cases hs : jobStatusOf rc.StepResults = "success" <;> simp [hc1, hsucc, hs]
      · refine ⟨_, completeCurrent_length
          { rqt := rqt, wrap := wrap, current := some c, startLine := 1, stepBuffer := stepBuffer }
          c "Succeeded" logId, ?_⟩
        by_cases hs : jobStatusOf rc.StepResults = "success" <;> simp [hc1, hsucc, hs]

/-- C9 as stated fails: the executor reports success for every entry of its step-result
map, no log entry moved the formatter off `__setup`, and the Job record is
completed with result `Failed`. -/
theorem finalizeJob_failed_though_all_succeeded :
    (∀ e ∈ ({ CurrentStep := "a", StepResults := [("__setup", true), ("a", true)] } :
        RunContext).StepResults, e.2 = true)
    ∧ ((finalizeJob
          (newFormatter {} (timelineWithSteps "job" (fun _ => "u") [{ ID := "a" }]
            (initialTimeline "job" "build" [] "s")))
          { CurrentStep := "a", StepResults := [("__setup", true), ("a", true)] }
          0 false []).wrap.Value[0]?).map (fun r => r.Result) = some (some "Failed") := by
  decide

/-- C9, amended. After the finalization the Job record (record 0) is completed, with
result `Succeeded` if and only if every entry of the executor's step-result
map reports success and the formatter's current record is not `__setup`
(record 1); otherwise its result is `Failed`. -/
theorem finalizeJob_job_result (f : ghaFormatter) (rc : RunContext) (logId : Int)
    (declared : Bool) (outputs : List (String × GoString)) (h : 0 < f.wrap.Value.length) :
    ∃ r, (finalizeJob f rc logId declared outputs).wrap.Value[0]? = some r
      ∧ r.State = RecordState.Completed
      ∧ (r.Result = some "Succeeded" ↔
          ((∀ e ∈ rc.StepResults, e.2 = true) ∧ f.current ≠ some 1))
      ∧ (r.Result ≠ some "Succeeded" → r.Result = some "Failed") := by
  obtain ⟨v, hv, hval⟩ := finalizeJob_value f rc logId declared outputs
  have hl : 0 < (skipUnfinished v).length := by rw [skipUnfinished_length, hv]; exact h
  obtain ⟨r0, hr0⟩ : ∃ r0, (skipUnfinished v)[0]? = some r0 :=
    ⟨_, List.getElem?_eq_getElem hl⟩
  refine ⟨r0.Complete (if jobStatusOf rc.StepResults = "success" ∧ f.current ≠ some 1
      then "Succeeded" else "Failed"), ?_, ?_, ?_, ?_⟩
  · rw [hval, modifyAt_zero_head?, hr0]
    rfl
  · rfl
  · rw [← jobStatusOf_eq_success]
    by_cases hcond : jobStatusOf rc.StepResults = "success" ∧ f.current ≠ some 1
    · simp [TimelineRecord.Complete, hcond]
    · simp only [TimelineRecord.Complete, if_neg hcond]
      constructor
      · intro habs; simp at habs
      · intro h2; exact absurd h2 hcond
  · intro hne
    by_cases hcond : jobStatusOf rc.StepResults = "success" ∧ f.current ≠ some 1
    · simp [TimelineRecord.Complete, hcond] at hne
    · simp [TimelineRecord.Complete, hcond]

/-- Witness for C9: a job whose formatter has moved on to its only step. -/
theorem finalizeJob_job_result_witness :
    ∃ r, (finalizeJob { wrap := initialTimeline "job" "build" [] "s", current := some 0 }
        { StepResults := [("a", true)] } 0 false []).wrap.Value[0]? = some r
      ∧ r.State = RecordState.Completed
      ∧ (r.Result = some "Succeeded" ↔
          ((∀ e ∈ ({ StepResults := [("a", true)] } : RunContext).StepResults, e.2 = true)
            ∧ ({ wrap := initialTimeline "job" "build" [] "s", current := some 0 } :
                ghaFormatter).current ≠ some 1))
      ∧ (r.Result ≠ some "Succeeded" → r.Result = some "Failed") :=
  finalizeJob_job_result { wrap := initialTimeline "job" "build" [] "s", current := some 0 }
    { StepResults := [("a", true)] } 0 false [] (by decide)

/-! ## A `with` value that is not a string -/

/-- The copy loop ends with `onValue` when every key visited is a string and some
value is not. -/
theorem rangeStringMap_value_not_string (onKey onValue : Translated (List (String × String))) :
    ∀ (m : List (RawObject × RawObject)) (acc : List (String × String)),
      (∀ e ∈ m, ∃ key, e.1 = RawObject.str key) →
      (∃ e ∈ m, ∀ value, e.2 ≠ RawObject.str value) →
      rangeStringMap onKey onValue m acc = onValue
  | [], _, _, h => by simp at h
  | (k, v) :: rest, acc, hk, hv => by
    obtain ⟨key, hkey⟩ := hk (k, v) (by simp)
    simp only at hkey
    subst hkey
    cases v with
    | str value =>
      have hv2 : ∃ e ∈ rest, ∀ value, e.2 ≠ RawObject.str value := by
        obtain ⟨e, he, hne⟩ := hv
        simp only [List.mem_cons] at he
        rcases he with he | he
        · subst he
          exact absurd rfl (hne value)
        · exact ⟨e, he, hne⟩
      simp only [rangeStringMap]
      exact rangeStringMap_value_not_string onKey onValue rest _
        (fun e he => hk e (List.mem_cons_of_mem _ he)) hv2
    | null => simp [rangeStringMap]
    | seq a => simp [rangeStringMap]
    | imap m => simp [rangeStringMap]
    | smap m => simp [rangeStringMap]
    | bool b => simp [rangeStringMap]
    | num f => simp [rangeStringMap]

/-- C10, at a failing input. A job whose only step is a `repository` step (a checkout
action) with the input `fetch-depth` bound to the number 0: the translation
prints a message and returns without calling `failInitJob`, so nothing is
completed and no `JobCompleted` event is sent. The same step with a key that
is not a string does end in `failInitJob`. -/
theorem translateSteps_with_value_silent :
    translateSteps id (fun _ => 0) (fun _ => "u")
      [{ Reference := { Typ := "repository", Name := "actions/checkout", Ref := "v2" },
         ContextName := "checkout",
         Inputs := some (TemplateToken.mk none none none 2 none none none none none none
           (some [(some (TemplateToken.mk none none none 0 none none (some "fetch-depth")
                          none none none none),
                   some (TemplateToken.mk none none none 6 none (some ⟨0⟩) none
                          none none none none))])) }] 0 []
      = Translated.silentReturn "with input value is not a string"
    ∧ translateSteps id (fun _ => 0) (fun _ => "u")
      [{ Reference := { Typ := "repository", Name := "actions/checkout", Ref := "v2" },
         ContextName := "checkout",
         Inputs := some (TemplateToken.mk none none none 2 none none none none none none
           (some [(some (TemplateToken.mk none none none 6 none (some ⟨0⟩) none
                          none none none none),
                   some (TemplateToken.mk none none none 0 none none (some "fetch-depth")
                          none none none none))])) }] 0 []
      = Translated.failInit "with input key is not a string" :=
  ⟨rfl, rfl⟩

/-! ## Round trip of a token through its raw value -/

theorem mapAssign_append_of_new (k v : RawObject) :
    ∀ (acc : List (RawObject × RawObject)), (∀ a ∈ acc, rawKeyEq a.1 k = false) →
      mapAssign acc k v = acc ++ [(k, v)]
  | [], _ => rfl
  | (k1, v1) :: rest, h => by
    have h1 : rawKeyEq k1 k = false := h (k1, v1) (by simp)
    have ih := mapAssign_append_of_new k v rest (fun a ha => h a (List.mem_cons_of_mem _ ha))
    simp [mapAssign, h1, ih]

theorem keyRaw_of_entryRaw {e : MapEntry} {r : RawObject × RawObject} (h : EntryRaw e r) :
    keyRaw e = some r.1 := by
  obtain ⟨k, v, he, hk, _, _⟩ := h
  subst he
  simpa [keyRaw] using hk

theorem mapToRaw_of_distinct :
    ∀ (es : List MapEntry) (rs acc : List (RawObject × RawObject)),
      List.Forall₂ EntryRaw es rs → distinctKeys es = true →
      (∀ a ∈ acc, ∀ r ∈ rs, rawKeyEq a.1 r.1 = false) →
      mapToRaw es acc = some (acc ++ rs)
  | [], rs, acc, hf, _, _ => by
    cases hf
    simp [mapToRaw]
  | e :: es, rs, acc, hf, hd, hacc => by
    cases hf with
    | cons hr hrest =>
      rename_i r rs1
      have hkr := keyRaw_of_entryRaw hr
      obtain ⟨k, v, he, hk, hv, hh⟩ := hr
      subst he
      have hnew : ∀ a ∈ acc, rawKeyEq a.1 r.1 = false := fun a ha => hacc a ha r (by simp)
      simp only [distinctKeys, Bool.and_eq_true, List.all_eq_true] at hd
      obtain ⟨hd1, hd2⟩ := hd
      have hacc2 : ∀ a ∈ acc ++ [(r.1, r.2)], ∀ r2 ∈ rs1, rawKeyEq a.1 r2.1 = false := by
        intro a ha r2 hr2
        simp only [List.mem_append, List.mem_singleton] at ha
        rcases ha with ha | ha
        · exact hacc a ha r2 (List.mem_cons_of_mem _ hr2)
        · subst ha
          obtain ⟨e2, he2, her2⟩ : ∃ e2 ∈ es, EntryRaw e2 r2 := by
            clear hd1 hd2 hacc hnew
            induction hrest with
            | nil => simp at hr2
            | cons h1 _ ih =>
              simp only [List.mem_cons] at hr2
              rcases hr2 with h2 | h2
              · subst h2; exact ⟨_, by simp, h1⟩
              · obtain ⟨e2, he2, h3⟩ := ih h2
                exact ⟨e2, List.mem_cons_of_mem _ he2, h3⟩
          have := hd1 e2 he2
          rw [hkr, keyRaw_of_entryRaw her2] at this
          simpa using this
      have ih := mapToRaw_of_distinct es rs1 (acc ++ [(r.1, r.2)]) hrest hd2 hacc2
      simp only [mapToRaw, hk, hv, hh, if_true, mapAssign_append_of_new r.1 r.2 acc hnew, ih]
      simp

mutual
theorem roundTrip_token (order : List MapEntry → List MapEntry)
    (horder : ∀ l, (order l).Perm l) :
    ∀ (t : TemplateToken), t.roundTrips = true →
      ∃ r, t.ToRawObject = some r
        ∧ TokenEquiv t (TemplateToken.FromRawObject order TemplateToken.zero r)
        ∧ ((t.Typ = 0 ∨ t.Typ = 5 ∨ t.Typ = 6) → r.hashable = true)
  | TemplateToken.mk fi li co ty b n lit ex di none none, h => by
    simp only [TemplateToken.roundTrips, Bool.and_eq_true, Option.isNone_iff_eq_none] at h
    obtain ⟨⟨⟨⟨⟨hfi, hli⟩, hco⟩, hex⟩, hdi⟩, h⟩ := h
    subst hfi hli hco hex hdi
    by_cases h0 : ty = 0
    · subst h0
      simp only [if_true, Bool.and_eq_true, Option.isNone_iff_eq_none,
        Option.isSome_iff_exists] at h
      obtain ⟨⟨⟨⟨⟨s, hs⟩, hb⟩, hn⟩, _⟩, _⟩ := h
      subst hs hb hn
      exact ⟨RawObject.str s, by simp [TemplateToken.ToRawObject],
        by simp [TemplateToken.FromRawObject, TemplateToken.zero, TokenEquiv],
        fun _ => rfl⟩
    · by_cases h1 : ty = 1
      · subst h1; simp at h
      · by_cases h2 : ty = 2
        · subst h2; simp at h
        · by_cases h5 : ty = 5
          · subst h5
            simp only [show ¬ ((5 : Int) = 0) by decide, show ¬ ((5 : Int) = 1) by decide,
              show ¬ ((5 : Int) = 2) by decide, if_false, if_true, Bool.and_eq_true,
              Option.isNone_iff_eq_none, Option.isSome_iff_exists] at h
            obtain ⟨⟨⟨⟨⟨v, hv⟩, hn⟩, hl⟩, _⟩, _⟩ := h
            subst hv hn hl
            exact ⟨RawObject.bool v, by simp [TemplateToken.ToRawObject],
              by simp [TemplateToken.FromRawObject, TemplateToken.zero, TokenEquiv],
              fun _ => rfl⟩
          · by_cases h6 : ty = 6
            · subst h6
              simp only [show ¬ ((6 : Int) = 0) by decide, show ¬ ((6 : Int) = 1) by decide,
                show ¬ ((6 : Int) = 2) by decide, show ¬ ((6 : Int) = 5) by decide,
                if_false, if_true, Bool.and_eq_true, Option.isNone_iff_eq_none,
                Option.isSome_iff_exists] at h
              obtain ⟨⟨⟨⟨⟨v, hv⟩, hb⟩, hl⟩, _⟩, _⟩ := h
              subst hv hb hl
              exact ⟨RawObject.num v, by simp [TemplateToken.ToRawObject],
                by simp [TemplateToken.FromRawObject, TemplateToken.zero, TokenEquiv],
                fun _ => rfl⟩
            · simp [h0, h1, h2, h5, h6] at h
  | TemplateToken.mk fi li co ty b n lit ex di (some l) none, h => by
    simp only [TemplateToken.roundTrips, Bool.and_eq_true, Option.isNone_iff_eq_none] at h
    obtain ⟨⟨⟨⟨⟨hfi, hli⟩, hco⟩, hex⟩, hdi⟩, h⟩ := h
    subst hfi hli hco hex hdi
    by_cases h1 : ty = 1
    · subst h1
      simp only [show ¬ ((1 : Int) = 0) by decide, if_false, if_true, Bool.and_eq_true,
        Option.isNone_iff_eq_none] at h
      obtain ⟨⟨⟨⟨hb, hn⟩, hl⟩, _⟩, hseq⟩ := h
      subst hb hn hl
      obtain ⟨rs, hrs, heq⟩ := roundTrip_seq order horder l hseq
      refine ⟨RawObject.seq rs, by simp [TemplateToken.ToRawObject, hrs], ?_, ?_⟩
      · simp only [TemplateToken.FromRawObject, TemplateToken.zero, TokenEquiv, true_and,
          and_true]
        exact ⟨_, rfl, heq⟩
      · intro hty
        simp [TemplateToken.Typ] at hty
    · by_cases h0 : ty = 0
      · subst h0; simp at h
      · by_cases h2 : ty = 2
        · subst h2; simp at h
        · by_cases h5 : ty = 5
          · subst h5; simp at h
          · by_cases h6 : ty = 6
            · subst h6; simp at h
            · simp [h0, h1, h2, h5, h6] at h
  | TemplateToken.mk fi li co ty b n lit ex di none (some es), h => by
    simp only [TemplateToken.roundTrips, Bool.and_eq_true, Option.isNone_iff_eq_none] at h
    obtain ⟨⟨⟨⟨⟨hfi, hli⟩, hco⟩, hex⟩, hdi⟩, h⟩ := h
    subst hfi hli hco hex hdi
    by_cases h2 : ty = 2
    · subst h2
      simp only [show ¬ ((2 : Int) = 0) by decide, show ¬ ((2 : Int) = 1) by decide,
        if_false, if_true, Bool.and_eq_true, Option.isNone_iff_eq_none] at h
      obtain ⟨⟨⟨⟨hb, hn⟩, hl⟩, _⟩, hent, hdist⟩ := h
      subst hb hn hl
      obtain ⟨rs, hrs, heq⟩ := roundTrip_entries order horder es hent
      have hmap := mapToRaw_of_distinct es rs [] hrs hdist (by simp)
      refine ⟨RawObject.imap rs, by simp [TemplateToken.ToRawObject, hmap], ?_, ?_⟩
      · simp only [TemplateToken.FromRawObject, TemplateToken.zero, TokenEquiv, true_and,
          and_true]
        exact ⟨_, _, rfl, (horder _).symm, heq⟩
      · intro hty
        simp [TemplateToken.Typ] at hty
    · by_cases h0 : ty = 0
      · subst h0; simp at h
      · by_cases h1 : ty = 1
        · subst h1; simp at h
        · by_cases h5 : ty = 5
          · subst h5; simp at h
          · by_cases h6 : ty = 6
            · subst h6; simp at h
            · simp [h0, h1, h2, h5, h6] at h
  | TemplateToken.mk fi li co ty b n lit ex di (some l) (some es), h => by
    simp only [TemplateToken.roundTrips, Bool.and_eq_true, Option.isNone_iff_eq_none] at h
    obtain ⟨_, h⟩ := h
    by_cases h0 : ty = 0
    · subst h0; simp at h
    · by_cases h1 : ty = 1
      · subst h1; simp at h
      · by_cases h2 : ty = 2
        · subst h2; simp at h
        · by_cases h5 : ty = 5
          · subst h5; simp at h
          · by_cases h6 : ty = 6
            · subst h6; simp at h
            · simp [h0, h1, h2, h5, h6] at h
theorem roundTrip_seq (order : List MapEntry → List MapEntry)
    (horder : ∀ l, (order l).Perm l) :
    ∀ (l : List TemplateToken), seqRoundTrips l = true →
      ∃ rs, seqToRaw l = some rs ∧ SeqEquiv l (seqFromRaw order rs)
  | [], _ => ⟨[], by simp [seqToRaw], by simp [seqFromRaw, SeqEquiv]⟩
  | t :: ts, h => by
    simp only [seqRoundTrips, Bool.and_eq_true] at h
    obtain ⟨r, hr, heq, _⟩ := roundTrip_token order horder t h.1
    obtain ⟨rs, hrs, heqs⟩ := roundTrip_seq order horder ts h.2
    refine ⟨r :: rs, by simp [seqToRaw, hr, hrs], ?_⟩
    simp only [seqFromRaw, SeqEquiv]
    exact ⟨_, _, rfl, heq, heqs⟩
theorem roundTrip_entries (order : List MapEntry → List MapEntry)
    (horder : ∀ l, (order l).Perm l) :
    ∀ (es : List (Option TemplateToken × Option TemplateToken)), entriesRoundTrip es = true →
      ∃ rs, List.Forall₂ EntryRaw es rs ∧ EntriesEquiv es (mapFromRaw order rs)
  | [], _ => ⟨[], List.Forall₂.nil, by simp [mapFromRaw, EntriesEquiv]⟩
  | (some k, some v) :: es, h => by
    simp only [entriesRoundTrip, Bool.and_eq_true, Bool.or_eq_true, decide_eq_true_eq] at h
    obtain ⟨⟨⟨hk, hkt⟩, hv⟩, hes⟩ := h
    obtain ⟨rk, hrk, heqk, hhash⟩ := roundTrip_token order horder k hk
    obtain ⟨rv, hrv, heqv, _⟩ := roundTrip_token order horder v hv
    obtain ⟨rs, hrs, heqs⟩ := roundTrip_entries order horder es hes
    refine ⟨(rk, rv) :: rs, List.Forall₂.cons ⟨k, v, rfl, hrk, hrv, hhash ?_⟩ hrs, ?_⟩
    · rcases hkt with (h0 | h5) | h6
      · exact Or.inl h0
      · exact Or.inr (Or.inl h5)
      · exact Or.inr (Or.inr h6)
    · simp only [mapFromRaw, EntriesEquiv]
      exact ⟨_, _, _, rfl, heqk, heqv, heqs⟩
  | (none, _) :: es, h => by simp [entriesRoundTrip] at h
  | (some _, none) :: es, h => by simp [entriesRoundTrip] at h
end

/-- C5 as stated fails, for the identity visiting order: (1) a null token (tag 7) comes
back as a token of tag 0 without payload; (2) a mapping with two entries under
the same key comes back with one entry; (3) a string token that carries a line
number comes back without it; (4) on a mapping whose key is a sequence,
`ToRawObject` panics. -/
theorem roundTrip_fails :
    ¬ RoundTrip id nullToken
    ∧ ¬ RoundTrip id (mapToken [(some (strToken "a"), some (strToken "x")),
                                 (some (strToken "a"), some (strToken "y"))])
    ∧ ¬ RoundTrip id
          (TemplateToken.mk none (some 3) none 0 none none (some "a") none none none none)
    ∧ ¬ RoundTrip id (mapToken [(some (seqToken []), some (strToken "x"))]) := by
  refine ⟨?_, ?_, ?_, ?_⟩
  · rintro ⟨r, hr, he⟩
    have hr2 : r = RawObject.null := by
      simpa [nullToken, TemplateToken.ToRawObject] using hr.symm
    subst hr2
    simp [nullToken, TemplateToken.FromRawObject, TemplateToken.zero, TokenEquiv] at he
  · rintro ⟨r, hr, he⟩
    have hr2 : r = RawObject.imap [(RawObject.str "a", RawObject.str "y")] := by
      simpa [mapToken, strToken, TemplateToken.ToRawObject, mapToRaw, RawObject.hashable,
        mapAssign, rawKeyEq] using hr.symm
    subst hr2
    simp [mapToken, strToken, TemplateToken.FromRawObject, TemplateToken.zero, TokenEquiv,
      mapFromRaw, EntriesEquiv] at he
    obtain ⟨_, _, es3, ⟨_, hes3⟩, _, _, _, _, _, h4, _⟩ := he
    rw [hes3] at h4
    exact absurd h4 (by simp)
  · rintro ⟨r, hr, he⟩
    have hr2 : r = RawObject.str "a" := by
      simpa [TemplateToken.ToRawObject] using hr.symm
    subst hr2
    simp [TemplateToken.FromRawObject, TemplateToken.zero, TokenEquiv] at he
  · rintro ⟨r, hr, _⟩
    simp [mapToken, seqToken, strToken, TemplateToken.ToRawObject, mapToRaw, seqToRaw,
      RawObject.hashable] at hr

/-- C5, amended. For every token `t` whose tag, and the tag of every token nested in it,
is 0, 1, 2, 5 or 6, that carries exactly the payload of its tag and no
position, and whose mappings have scalar keys that are pairwise different as
keys of a Go map (`t.roundTrips`): whatever the order in which the entries of a
map are visited, `t.ToRawObject()` returns a value and `FromRawObject` called
with it on a fresh token yields a token equal to `t` up to the order of map
entries. -/
theorem fromRawObject_toRawObject (order : List MapEntry → List MapEntry)
    (horder : ∀ l, (order l).Perm l) (t : TemplateToken) (ht : t.roundTrips = true) :
    RoundTrip order t := by
  obtain ⟨r, hr, he, _⟩ := roundTrip_token order horder t ht
  exact ⟨r, hr, he⟩

/-- Witness for C5: the mapping `{a: [x, true], b: y}`, its entries visited in reverse
order. -/
theorem fromRawObject_toRawObject_witness :
    RoundTrip List.reverse
      (mapToken
        [(some (strToken "a"),
            some (seqToken [strToken "x",
              TemplateToken.mk none none none 5 (some true) none none none none none none])),
         (some (strToken "b"), some (strToken "y"))]) :=
  fromRawObject_toRawObject List.reverse (fun l => List.reverse_perm l) _ (by rfl)

/-! ## Secrets in the log lines -/

theorem prefix_of_prefix_append_cons {t x y : GoString} {c : Nat} (hc : c ∉ t)
    (h : t <+: x ++ c :: y) : t <+: x := by
  rcases List.prefix_or_prefix_of_prefix h (List.prefix_append x (c :: y)) with h1 | h1
  · exact h1
  · obtain ⟨r, hr⟩ := h1
    subst hr
    rw [List.prefix_append_right_inj] at h
    rcases List.prefix_cons_iff.mp h with h2 | ⟨r2, h2, _⟩
    · subst h2; simp
    · subst h2
      exact absurd (by simp) hc

theorem infix_of_infix_append_cons {t : GoString} {c : Nat} (hc : c ∉ t) :
    ∀ (x y : GoString), t <:+: x ++ c :: y → t <:+: x ∨ t <:+: y
  | [], y, h => by
    rcases List.infix_cons_iff.mp h with h1 | h1
    · rcases List.prefix_cons_iff.mp h1 with h2 | ⟨r, h2, _⟩
      · subst h2; exact Or.inl (List.nil_infix)
      · subst h2; exact absurd (by simp) hc
    · exact Or.inr h1
  | a :: x, y, h => by
    rcases List.infix_cons_iff.mp h with h1 | h1
    · have : t <+: (a :: x) ++ c :: y := h1
      exact Or.inl (prefix_of_prefix_append_cons hc this).isInfix
    · rcases infix_of_infix_append_cons hc x y h1 with h2 | h2
      · exact Or.inl (h2.trans (List.suffix_cons a x).isInfix)
      · exact Or.inr h2

theorem not_infix_stars_append {t R : GoString} (hc : 42 ∉ t) (ht : t ≠ [])
    (h : ¬ t <:+: R) : ¬ t <:+: stars ++ R := by
  intro hin
  have e : stars ++ R = [] ++ 42 :: ([42] ++ 42 :: R) := by
    simp [stars, ascii]
  rw [e] at hin
  rcases infix_of_infix_append_cons hc _ _ hin with h1 | h1
  · exact ht (List.infix_nil.mp h1)
  · rcases infix_of_infix_append_cons hc _ _ h1 with h2 | h2
    · rcases List.infix_cons_iff.mp h2 with h3 | h3
      · rcases List.prefix_cons_iff.mp h3 with h4 | ⟨r, h4, _⟩
        · exact ht h4
        · subst h4; exact hc (by simp)
      · exact ht (List.infix_nil.mp h3)
    · exact h h2

/-- The shape of a replacement by `"***"`: a part of the input copied unchanged, then
either the end or `"***"`. -/
theorem replaceAllAux_shape (old : GoString) :
    ∀ (n : Nat) (s : GoString), ∃ u, u <+: s ∧
      (replaceAllAux old stars n s = u ∨ ∃ R, replaceAllAux old stars n s = u ++ 42 :: R)
  | 0, s => ⟨s, List.prefix_refl s, Or.inl rfl⟩
  | _ + 1, [] => ⟨[], List.prefix_refl _, Or.inl rfl⟩
  | n + 1, c :: cs => by
    by_cases hp : old.isPrefixOf (c :: cs) = true
    · refine ⟨[], List.nil_prefix, Or.inr ⟨[42, 42] ++
        replaceAllAux old stars n ((c :: cs).drop old.length), ?_⟩⟩
      simp [replaceAllAux, hp, stars, ascii]
    · obtain ⟨u, hu, hshape⟩ := replaceAllAux_shape old n cs
      refine ⟨c :: u, (List.prefix_cons_inj c).mpr hu, ?_⟩
      rcases hshape with h1 | ⟨R, h1⟩
      · exact Or.inl (by simp [replaceAllAux, hp, h1])
      · exact Or.inr ⟨R, by simp [replaceAllAux, hp, h1]⟩

theorem not_prefix_cons_replaceAllAux (old t : GoString) (hc : 42 ∉ t) (n : Nat) (c : Nat)
    (cs : GoString) (h : ¬ t <+: c :: cs) : ¬ t <+: c :: replaceAllAux old stars n cs := by
  intro hin
  obtain ⟨u, hu, hshape⟩ := replaceAllAux_shape old n cs
  apply h
  rcases hshape with h1 | ⟨R, h1⟩
  · rw [h1] at hin
    exact hin.trans ((List.prefix_cons_inj c).mpr hu)
  · rw [h1] at hin
    have : t <+: (c :: u) ++ 42 :: R := hin
    exact (prefix_of_prefix_append_cons hc this).trans ((List.prefix_cons_inj c).mpr hu)

/-- A value without `*` that does not occur in a text does not occur in it after any
replacement by `"***"`. -/
theorem replaceAllAux_preserves (old t : GoString) (hc : 42 ∉ t) :
    ∀ (n : Nat) (s : GoString), ¬ t <:+: s → ¬ t <:+: replaceAllAux old stars n s
  | 0, s, h => h
  | _ + 1, [], h => h
  | n + 1, c :: cs, h => by
    have ht : t ≠ [] := fun e => h (e ▸ List.nil_infix)
    by_cases hp : old.isPrefixOf (c :: cs) = true
    · simp only [replaceAllAux, hp, if_true]
      apply not_infix_stars_append hc ht
      apply replaceAllAux_preserves old t hc n
      intro hin
      exact h (hin.trans (List.drop_suffix _ _).isInfix)
    · simp only [replaceAllAux, hp]
      intro hin
      rcases List.infix_cons_iff.mp hin with h1 | h1
      · exact not_prefix_cons_replaceAllAux old t hc n c cs (fun hpre => h hpre.isInfix) h1
      · exact replaceAllAux_preserves old t hc n cs
          (fun h2 => h (h2.trans (List.suffix_cons c cs).isInfix)) h1

/-- A non-empty value without `*` does not occur in a text after its own replacement
by `"***"`. -/
theorem replaceAllAux_removes (old : GoString) (hc : 42 ∉ old) (hne : old ≠ []) :
    ∀ (n : Nat) (s : GoString), s.length ≤ n → ¬ old <:+: replaceAllAux old stars n s
  | 0, s, h => by
    have : s = [] := List.length_eq_zero.mp (Nat.le_zero.mp h)
    subst this
    simpa [replaceAllAux] using hne
  | _ + 1, [], _ => by simpa [replaceAllAux] using hne
  | n + 1, c :: cs, h => by
    have hpos : 0 < old.length := List.length_pos.mpr hne
    by_cases hp : old.isPrefixOf (c :: cs) = true
    · simp only [replaceAllAux, hp, if_true]
      apply not_infix_stars_append hc hne
      apply replaceAllAux_removes old hc hne n
      simp only [List.length_drop, List.length_cons] at h ⊢
      omega
    · simp only [replaceAllAux, hp]
      intro hin
      rcases List.infix_cons_iff.mp hin with h1 | h1
      · refine not_prefix_cons_replaceAllAux old old hc n c cs ?_ h1
        intro hpre
        exact hp (List.isPrefixOf_iff_prefix.mpr hpre)
      · exact replaceAllAux_removes old hc hne n cs
          (by simp only [List.length_cons] at h; omega) h1

theorem maskSecrets_preserves (t : GoString) (hc : 42 ∉ t) :
    ∀ (vars : List (String × VariableValue)) (msg : GoString),
      ¬ t <:+: msg → ¬ t <:+: maskSecrets vars msg
  | [], _, h => h
  | (_, v) :: vs, msg, h => by
    simp only [maskSecrets]
    split
    · exact maskSecrets_preserves t hc vs _ (replaceAllAux_preserves _ t hc _ _ h)
    · exact maskSecrets_preserves t hc vs _ h

/-- The masked message contains no secret value that is free of `*`. -/
theorem maskSecrets_removes :
    ∀ (vars : List (String × VariableValue)) (msg : GoString) (kv : String × VariableValue),
      kv ∈ vars → kv.2.IsSecret = true → kv.2.Value ≠ [] → 42 ∉ kv.2.Value →
      ¬ kv.2.Value <:+: maskSecrets vars msg
  | [], _, _, h, _, _, _ => by simp at h
  | (k, v) :: vs, msg, kv, hmem, hsec, hne, hc => by
    simp only [List.mem_cons] at hmem
    rcases hmem with h1 | h1
    · subst h1
      simp only at hsec hne hc
      have hpos : 0 < v.Value.length := List.length_pos.mpr hne
      simp only [maskSecrets, hsec, hpos, decide_True, Bool.and_self, if_true]
      apply maskSecrets_preserves _ hc
      exact replaceAllAux_removes v.Value hc hne _ _ (le_refl _)
    · simp only [maskSecrets]
      split
      · exact maskSecrets_removes vs _ kv h1 hsec hne hc
      · exact maskSecrets_removes vs _ kv h1 hsec hne hc

theorem trimCRLF_isInfix (s : GoString) : trimCRLF s <:+: s := by
  unfold trimCRLF
  have h1 : ((s.dropWhile isCRLF).reverse.dropWhile isCRLF).reverse <+: s.dropWhile isCRLF := by
    rw [← List.reverse_suffix, List.reverse_reverse]
    exact List.dropWhile_suffix _
  exact h1.isInfix.trans (List.dropWhile_suffix _).isInfix

/-! ## Facts on the formatter -/

theorem modifyAt_map_ident (g : TimelineRecord → TimelineRecord)
    (hg : ∀ r, (g r).ident = r.ident) :
    ∀ (i : Nat) (l : List TimelineRecord),
      (modifyAt g i l).map TimelineRecord.ident = l.map TimelineRecord.ident
  | i, [] => by rw [modifyAt_nil]
  | 0, r :: rs => by simp [modifyAt, hg]
  | i + 1, r :: rs => by simp [modifyAt, modifyAt_map_ident g hg i rs]

theorem ident_Complete (r : TimelineRecord) (res : String) : (r.Complete res).ident = r.ident :=
  rfl

theorem ident_Start (r : TimelineRecord) : r.Start.ident = r.ident := rfl

theorem findRefName_congr (name : String) :
    ∀ (l1 l2 : List TimelineRecord),
      l1.map TimelineRecord.ident = l2.map TimelineRecord.ident →
      findRefName name l1 = findRefName name l2
  | [], [], _ => rfl
  | [], _ :: _, h => by simp at h
  | _ :: _, [], h => by simp at h
  | r1 :: rs1, r2 :: rs2, h => by
    simp only [List.map_cons, List.cons.injEq] at h
    have hr : r1.RefName = r2.RefName := by
      have := congrArg (fun p => p.2.1) h.1
      simpa [TimelineRecord.ident] using this
    simp only [findRefName, hr, findRefName_congr name rs1 rs2 h.2]

theorem findRefName_some (name : String) :
    ∀ (l : List TimelineRecord) (i : Nat), findRefName name l = some i →
      ∃ r, l[i]? = some r ∧ r.RefName = name
  | [], _, h => by simp [findRefName] at h
  | r :: rs, i, h => by
    by_cases hr : r.RefName = name
    · simp only [findRefName, hr, if_true, Option.some.injEq] at h
      subst h
      exact ⟨r, by simp, hr⟩
    · simp only [findRefName, hr, if_false, Option.map_eq_some'] at h
      obtain ⟨j, hj, hij⟩ := h
      subst hij
      obtain ⟨r2, h2, h3⟩ := findRefName_some name rs j hj
      exact ⟨r2, by simpa using h2, h3⟩

theorem findRefName_none (name : String) :
    ∀ (l : List TimelineRecord), findRefName name l = none → ∀ r ∈ l, r.RefName ≠ name
  | [], _, _, hr => by simp at hr
  | r :: rs, h, r2, hr2 => by
    by_cases hr : r.RefName = name
    · simp [findRefName, hr] at h
    · simp only [findRefName, hr, if_false, Option.map_eq_none'] at h
      simp only [List.mem_cons] at hr2
      rcases hr2 with h2 | h2
      · subst h2; exact hr
      · exact findRefName_none name rs h r2 h2

theorem getElem?_ident_of_map_eq {l1 l2 : List TimelineRecord}
    (h : l1.map TimelineRecord.ident = l2.map TimelineRecord.ident) (i : Nat) :
    (l1[i]?).map TimelineRecord.ident = (l2[i]?).map TimelineRecord.ident := by
  rw [← List.getElem?_map, ← List.getElem?_map, h]

theorem getD_ident_of_map_eq {l1 l2 : List TimelineRecord}
    (h : l1.map TimelineRecord.ident = l2.map TimelineRecord.ident) (i : Nat) :
    (l1[i]?.getD {}).ident = (l2[i]?.getD {}).ident := by
  have h1 := getElem?_ident_of_map_eq h i
  cases h2 : l1[i]? <;> cases h3 : l2[i]? <;> simp_all

/-! ### Leaving and entering a record -/

theorem completeCurrent_rqt (f : ghaFormatter) (c : Nat) (res : String) (logId : Int) :
    (f.completeCurrent c res logId).1.rqt = f.rqt := by
  unfold ghaFormatter.completeCurrent
  split <;> rfl

theorem completeCurrent_startLine (f : ghaFormatter) (c : Nat) (res : String) (logId : Int) :
    (f.completeCurrent c res logId).1.startLine = f.startLine := by
  unfold ghaFormatter.completeCurrent
  split <;> rfl

theorem completeCurrent_ident (f : ghaFormatter) (c : Nat) (res : String) (logId : Int) :
    (f.completeCurrent c res logId).1.wrap.Value.map TimelineRecord.ident
      = f.wrap.Value.map TimelineRecord.ident := by
  unfold ghaFormatter.completeCurrent
  split
  · simp only
    rw [modifyAt_map_ident (fun r => { r with Log := some logId }) (fun _ => rfl),
      modifyAt_map_ident (fun r => r.Complete res) (fun _ => rfl)]
  · simp only
    rw [modifyAt_map_ident (fun r => r.Complete res) (fun _ => rfl)]

theorem completeCurrent_loglines (f : ghaFormatter) (c : Nat) (res : String) (logId : Int) :
    loglines (f.completeCurrent c res logId).2 = [] := by
  unfold ghaFormatter.completeCurrent
  split <;> rfl

theorem leaveCurrent_rqt (f : ghaFormatter) (call : FormatCall) :
    (f.leaveCurrent call).1.rqt = f.rqt := by
  unfold ghaFormatter.leaveCurrent
  split
  · rfl
  · split <;> exact completeCurrent_rqt _ _ _ _

theorem leaveCurrent_startLine (f : ghaFormatter) (call : FormatCall) :
    (f.leaveCurrent call).1.startLine = f.startLine := by
  unfold ghaFormatter.leaveCurrent
  split
  · rfl
  · split <;> exact completeCurrent_startLine _ _ _ _

theorem leaveCurrent_current (f : ghaFormatter) (call : FormatCall) :
    (f.leaveCurrent call).1.current = f.current := by
  unfold ghaFormatter.leaveCurrent
  split
  · rfl
  · split <;> exact completeCurrent_current _ _ _ _

theorem leaveCurrent_ident (f : ghaFormatter) (call : FormatCall) :
    (f.leaveCurrent call).1.wrap.Value.map TimelineRecord.ident
      = f.wrap.Value.map TimelineRecord.ident := by
  unfold ghaFormatter.leaveCurrent
  split
  · rfl
  · split <;> exact completeCurrent_ident _ _ _ _

theorem leaveCurrent_loglines (f : ghaFormatter) (call : FormatCall) :
    loglines (f.leaveCurrent call).2 = [] := by
  unfold ghaFormatter.leaveCurrent
  split
  · rfl
  · split <;> exact completeCurrent_loglines _ _ _ _

theorem enterStep_rqt (f : ghaFormatter) (name : String) : (f.enterStep name).1.rqt = f.rqt := by
  unfold ghaFormatter.enterStep
  split <;> rfl

theorem enterStep_startLine (f : ghaFormatter) (name : String) :
    (f.enterStep name).1.startLine = f.startLine := by
  unfold ghaFormatter.enterStep
  split <;> rfl

theorem enterStep_ident (f : ghaFormatter) (name : String) :
    (f.enterStep name).1.wrap.Value.map TimelineRecord.ident
      = f.wrap.Value.map TimelineRecord.ident := by
  unfold ghaFormatter.enterStep
  split
  · rfl
  · simp only
    rw [modifyAt_map_ident TimelineRecord.Start (fun _ => rfl)]

theorem enterStep_current (f : ghaFormatter) (name : String) :
    (f.enterStep name).1.current
      = match findRefName name f.wrap.Value with
        | none => f.current
        | some i => some i := by
  unfold ghaFormatter.enterStep
  split <;> simp_all

theorem enterStep_bytes (f : ghaFormatter) (name : String) :
    (f.enterStep name).2
      = match findRefName name f.wrap.Value with
        | none => []
        | some i => (f.wrap.Value[i]?.getD {}).Name ++ [32] := by
  unfold ghaFormatter.enterStep
  split <;> simp_all

theorem loglines_append (a b : List Effect) : loglines (a ++ b) = loglines a ++ loglines b := by
  induction a with
  | nil => rfl
  | cons e rest ih => cases e <;> simp [loglines, ih]

/-! ### The first part of `Format` -/

theorem switchStep_rqt (f : ghaFormatter) (call : FormatCall) :
    (f.switchStep call).1.rqt = f.rqt := by
  simp only [ghaFormatter.switchStep, enterStep_rqt, leaveCurrent_rqt]

theorem switchStep_startLine (f : ghaFormatter) (call : FormatCall) :
    (f.switchStep call).1.startLine = 1 := by
  simp only [ghaFormatter.switchStep, enterStep_startLine, leaveCurrent_startLine]

theorem switchStep_ident (f : ghaFormatter) (call : FormatCall) :
    (f.switchStep call).1.wrap.Value.map TimelineRecord.ident
      = f.wrap.Value.map TimelineRecord.ident := by
  simp only [ghaFormatter.switchStep, enterStep_ident, leaveCurrent_ident]

theorem switchStep_loglines (f : ghaFormatter) (call : FormatCall) :
    loglines (f.switchStep call).2.1 = [] := by
  simp [ghaFormatter.switchStep, loglines_append, leaveCurrent_loglines, loglines]

theorem switchStep_current (f : ghaFormatter) (call : FormatCall) :
    (f.switchStep call).1.current
      = match findRefName call.rc.CurrentStep f.wrap.Value with
        | none => f.current
        | some i => some i := by
  simp only [ghaFormatter.switchStep, enterStep_current, leaveCurrent_current]
  rw [findRefName_congr _ _ f.wrap.Value (leaveCurrent_ident { f with startLine := 1 } call)]

theorem switchStep_bytes (f : ghaFormatter) (call : FormatCall) :
    (f.switchStep call).2.2
      = match findRefName call.rc.CurrentStep f.wrap.Value with
        | none => []
        | some i => (f.wrap.Value[i]?.getD {}).Name ++ [32] := by
  simp only [ghaFormatter.switchStep, enterStep_bytes]
  rw [findRefName_congr _ _ f.wrap.Value (leaveCurrent_ident { f with startLine := 1 } call)]
  split
  · rfl
  · rename_i i _
    have := getD_ident_of_map_eq (leaveCurrent_ident { f with startLine := 1 } call) i
    have h2 := congrArg (fun p => p.2.2) this
    simp only [TimelineRecord.ident] at h2
    simp only [h2]

theorem beginFormat_rqt (f : ghaFormatter) (call : FormatCall) :
    (f.beginFormat call).1.rqt = f.rqt := by
  unfold ghaFormatter.beginFormat
  split
  · exact switchStep_rqt f call
  · rfl

theorem beginFormat_ident (f : ghaFormatter) (call : FormatCall) :
    (f.beginFormat call).1.wrap.Value.map TimelineRecord.ident
      = f.wrap.Value.map TimelineRecord.ident := by
  unfold ghaFormatter.beginFormat
  split
  · exact switchStep_ident f call
  · rfl

theorem beginFormat_loglines (f : ghaFormatter) (call : FormatCall) :
    loglines (f.beginFormat call).2.1 = [] := by
  unfold ghaFormatter.beginFormat
  split
  · exact switchStep_loglines f call
  · rfl

/-! ## Masking completeness -/

theorem mem_loglines {n : Int} {id : String} {line : GoString} :
    ∀ {effs : List Effect}, Effect.logline n id line ∈ effs → (n, id, line) ∈ loglines effs
  | [], h => by simp at h
  | e :: rest, h => by
    simp only [List.mem_cons] at h
    rcases h with h1 | h1
    · subst h1; simp [loglines]
    · have := mem_loglines h1
      cases e <;> simp [loglines, this]

theorem maskMessage_no_secret (re : GoString → Option (GoString → GoString))
    (rqt : MaskingData) (secret : GoString) (hs : secret ∈ secretValues rqt)
    (hstar : 42 ∉ secret) (input msg : GoString) (h : maskMessage re rqt input = some msg) :
    ¬ secret <:+: msg := by
  unfold secretValues at hs
  unfold maskMessage at h
  cases hv : rqt.Variables with
  | none => rw [hv] at hs; simp at hs
  | some vars =>
    rw [hv] at hs h
    simp only [List.mem_map, List.mem_filter, Bool.and_eq_true, decide_eq_true_eq] at hs
    obtain ⟨kv, ⟨hmem, hsec, hlen⟩, hval⟩ := hs
    subst hval
    split at h
    · simp at h
    · simp only [Option.some.injEq] at h
      subst h
      exact maskSecrets_removes vars _ kv hmem hsec (List.length_pos.mp hlen) hstar

/-- C1 as stated fails. (1) With the secret value `*`, the entry `*` gives the line
`***`, which contains `*`. (2) With the secret value `abcd` and a step whose
record name is `echo abcd`, the first line of the step starts with that
name, which is not masked. -/
theorem format_line_contains_secret :
    (Effect.logline 0 "s" (ascii "***") ∈
        ((newFormatter { Variables := some [("k", { Value := ascii "*", IsSecret := true })] }
            (initialTimeline "job" "build" [] "s")).Format (fun _ => none)
          { entry := { Message := ascii "*" }, rc := { CurrentStep := "__setup" } }).2.1
      ∧ ascii "*" ∈ secretValues
          { Variables := some [("k", { Value := ascii "*", IsSecret := true })] }
      ∧ ascii "*" <:+: ascii "***")
    ∧ (Effect.logline 1 "u" (ascii "echo abcd hi") ∈
        ((newFormatter { Variables := some [("k", { Value := ascii "abcd", IsSecret := true })] }
            (timelineWithSteps "job" (fun _ => "u") [{ ID := "a", display := ascii "echo abcd" }]
              (initialTimeline "job" "build" [] "s"))).Format (fun _ => none)
          { entry := { Message := ascii "hi" }, rc := { CurrentStep := "a" } }).2.1
      ∧ ascii "abcd" ∈ secretValues
          { Variables := some [("k", { Value := ascii "abcd", IsSecret := true })] }
      ∧ ascii "abcd" <:+: ascii "echo abcd hi") := by
  refine ⟨⟨by decide, by decide, ⟨[42], [42], by decide⟩⟩,
    ⟨by decide, by decide, ⟨ascii "echo ", ascii " hi", by decide⟩⟩⟩

/-- C1, amended. Every line `Format` hands to `logline` is the trimmed concatenation of
a front part and the masked message, where the masked message contains no
secret value (a value of a variable with `IsSecret = true` and length at
least 1) that is free of the byte `*`; the front part is empty, or the name of
a record whose `RefName` is the executor's current step followed by a blank,
and it is empty in every call that does not switch steps, in which case the
whole line contains no such secret value. -/
theorem format_line_masked (re : GoString → Option (GoString → GoString)) (f : ghaFormatter)
    (call : FormatCall) (secret : GoString) (hs : secret ∈ secretValues f.rqt)
    (hstar : 42 ∉ secret) (n : Int) (id : String) (line : GoString)
    (hline : Effect.logline n id line ∈ (f.Format re call).2.1) :
    ∃ front msg, line = trimCRLF (front ++ msg)
      ∧ maskMessage re f.rqt call.entry.Message = some msg
      ∧ ¬ secret <:+: msg
      ∧ (front = [] ∨ ∃ (i : Nat) (r : TimelineRecord), f.wrap.Value[i]? = some r ∧ r.RefName = call.rc.CurrentStep
            ∧ front = r.Name ++ [32])
      ∧ (¬ f.switches call → front = [] ∧ ¬ secret <:+: line) := by
  have hmem := mem_loglines hline
  simp only [ghaFormatter.Format, loglines_append, beginFormat_loglines, List.nil_append] at hmem
  unfold ghaFormatter.endFormat at hmem
  rw [beginFormat_rqt] at hmem
  cases hm : maskMessage re f.rqt call.entry.Message with
  | none => rw [hm] at hmem; simp [loglines] at hmem
  | some msg =>
    rw [hm] at hmem
    simp only at hmem
    cases hcur : (f.beginFormat call).1.current with
    | none => rw [hcur] at hmem; simp [loglines] at hmem
    | some c =>
      rw [hcur] at hmem
      simp only [loglines, List.mem_singleton, Prod.mk.injEq] at hmem
      obtain ⟨_, _, hl⟩ := hmem
      have hno := maskMessage_no_secret re f.rqt secret hs hstar _ msg hm
      refine ⟨(f.beginFormat call).2.2, msg, hl, rfl, hno, ?_, ?_⟩
      · unfold ghaFormatter.beginFormat
        split
        · rw [switchStep_bytes]
          cases hfind : findRefName call.rc.CurrentStep f.wrap.Value with
          | none => exact Or.inl rfl
          | some i =>
            obtain ⟨r, hr, hname⟩ := findRefName_some _ _ _ hfind
            exact Or.inr ⟨i, r, hr, hname, by simp [hr]⟩
        · exact Or.inl rfl
      · intro hsw
        unfold ghaFormatter.switches at hsw
        have hfront : (f.beginFormat call).2.2 = [] := by
          unfold ghaFormatter.beginFormat
          rw [if_neg hsw]
        refine ⟨hfront, ?_⟩
        rw [hl, hfront, List.nil_append]
        exact fun hin => hno (hin.trans (trimCRLF_isInfix msg))

/-- Witness for C1: the secret `abcd` in a line of the `__setup` step. -/
theorem format_line_masked_witness :
    ∃ front msg, ascii "echo ***" = trimCRLF (front ++ msg)
      ∧ maskMessage (fun _ => none)
          { Variables := some [("k", { Value := ascii "abcd", IsSecret := true })] }
          (ascii "echo abcd") = some msg
      ∧ ¬ ascii "abcd" <:+: msg
      ∧ (front = [] ∨ ∃ (i : Nat) (r : TimelineRecord), (initialTimeline "job" "build" [] "s").Value[i]? = some r
            ∧ r.RefName = "__setup" ∧ front = r.Name ++ [32])
      ∧ (¬ (newFormatter { Variables := some [("k", { Value := ascii "abcd", IsSecret := true })] }
              (initialTimeline "job" "build" [] "s")).switches
            { entry := { Message := ascii "echo abcd" }, rc := { CurrentStep := "__setup" } }
          → front = [] ∧ ¬ ascii "abcd" <:+: ascii "echo ***") :=
  format_line_masked (fun _ => none)
    (newFormatter { Variables := some [("k", { Value := ascii "abcd", IsSecret := true })] }
      (initialTimeline "job" "build" [] "s"))
    { entry := { Message := ascii "echo abcd" }, rc := { CurrentStep := "__setup" } }
    (ascii "abcd") (by decide) (by decide) 0 "s" (ascii "echo ***") (by decide)

/-! ## Monotone progress of the record states -/

theorem statesAdvance_refl (v : List TimelineRecord) : StatesAdvance v v := by
  refine ⟨le_refl _, ?_⟩
  intro j r s h1 h2
  rw [h1] at h2
  simp only [Option.some.injEq] at h2
  subst h2
  exact le_refl _

theorem statesAdvance_trans {u v w : List TimelineRecord} (h1 : StatesAdvance u v)
    (h2 : StatesAdvance v w) : StatesAdvance u w := by
  refine ⟨le_trans h1.1 h2.1, ?_⟩
  intro j r s hr hs
  have hj : j < u.length := by
    rcases Nat.lt_or_ge j u.length with h | h
    · exact h
    · rw [List.getElem?_eq_none h] at hr; simp at hr
  have hjv : j < v.length := lt_of_lt_of_le hj h1.1
  exact le_trans (h1.2 j r v[j] hr (List.getElem?_eq_getElem hjv))
    (h2.2 j v[j] s (List.getElem?_eq_getElem hjv) hs)

theorem statesAdvance_modifyAt (g : TimelineRecord → TimelineRecord) (i : Nat)
    (v : List TimelineRecord)
    (h : ∀ r, v[i]? = some r → r.State.rank ≤ (g r).State.rank) :
    StatesAdvance v (modifyAt g i v) := by
  refine ⟨by rw [modifyAt_length], ?_⟩
  intro j r s hr hs
  rw [modifyAt_get?] at hs
  by_cases hji : j = i
  · subst hji
    simp only [if_true, hr, Option.map_some', Option.some.injEq] at hs
    subst hs
    exact h r hr
  · simp only [if_neg hji, hr, Option.some.injEq] at hs
    subst hs
    exact le_refl _

theorem rank_le_Completed (s : RecordState) : s.rank ≤ RecordState.Completed.rank := by
  cases s <;> decide

theorem statesAdvance_complete (res : String) (i : Nat) (v : List TimelineRecord) :
    StatesAdvance v (modifyAt (fun r => r.Complete res) i v) :=
  statesAdvance_modifyAt _ i v (fun r _ => rank_le_Completed r.State)

theorem statesAdvance_setLog (logId : Int) (i : Nat) (v : List TimelineRecord) :
    StatesAdvance v (modifyAt (fun r => { r with Log := some logId }) i v) :=
  statesAdvance_modifyAt _ i v (fun _ _ => le_refl _)

theorem skipUnfinished_getElem? (v : List TimelineRecord) (j : Nat) :
    (skipUnfinished v)[j]? =
      if j < 2 then v[j]?
      else (v[j]?).map
        (fun r => if r.State ≠ RecordState.Completed then r.Complete "Skipped" else r) := by
  unfold skipUnfinished
  by_cases hj : j < 2
  · rw [if_pos hj]
    by_cases hl : j < v.length
    · rw [List.getElem?_append_left (by simp; omega), List.getElem?_take_of_lt hj]
    · rw [List.getElem?_eq_none (by simp; omega), List.getElem?_eq_none (by omega)]
  · rw [if_neg hj]
    by_cases hl : 2 ≤ v.length
    · rw [List.getElem?_append_right (by simp; omega)]
      simp only [List.length_take, List.getElem?_map, List.getElem?_drop]
      congr 2
      omega
    · rw [List.getElem?_eq_none (by simp; omega), List.getElem?_eq_none (by omega)]
      rfl

theorem statesAdvance_skipUnfinished (v : List TimelineRecord) :
    StatesAdvance v (skipUnfinished v) := by
  refine ⟨by rw [skipUnfinished_length], ?_⟩
  intro j r s hr hs
  rw [skipUnfinished_getElem?, hr] at hs
  split at hs
  · simp only [Option.some.injEq] at hs
    subst hs
    exact le_refl _
  · simp only [Option.map_some', Option.some.injEq] at hs
    subst hs
    split
    · exact rank_le_Completed _
    · exact le_refl _

theorem statesAdvance_completeCurrent (f : ghaFormatter) (c : Nat) (res : String)
    (logId : Int) : StatesAdvance f.wrap.Value (f.completeCurrent c res logId).1.wrap.Value := by
  unfold ghaFormatter.completeCurrent
  split
  · exact statesAdvance_trans (statesAdvance_complete res c _) (statesAdvance_setLog logId c _)
  · exact statesAdvance_complete res c _

/-- The finalization never moves a record to an earlier state. -/
theorem statesAdvance_finalizeJob (f : ghaFormatter) (rc : RunContext) (logId : Int)
    (declared : Bool) (outputs : List (String × GoString)) :
    StatesAdvance f.wrap.Value (finalizeJob f rc logId declared outputs).wrap.Value := by
  obtain ⟨rqt, wrap, current, startLine, stepBuffer⟩ := f
  have key : ∀ (v : List TimelineRecord) (js : String), StatesAdvance wrap.Value v →
      StatesAdvance wrap.Value
        (if js = "success" then modifyAt (fun r => r.Complete "Succeeded") 0 (skipUnfinished v)
         else modifyAt (fun r => r.Complete "Failed") 0 (skipUnfinished v)) := by
    intro v js hv
    split
    · exact statesAdvance_trans (statesAdvance_trans hv (statesAdvance_skipUnfinished v)) (statesAdvance_complete _ 0 _)
    · exact statesAdvance_trans (statesAdvance_trans hv (statesAdvance_skipUnfinished v)) (statesAdvance_complete _ 0 _)
  unfold finalizeJob
  cases current with
  | none => exact key _ _ (statesAdvance_refl _)
  | some c =>
    by_cases hc1 : c = 1
    · subst hc1
      simp only [if_true]
      exact key _ _ (statesAdvance_completeCurrent
        { rqt := rqt, wrap := wrap, current := some 1, startLine := 1, stepBuffer := stepBuffer }
        1 "Failed" logId)
    · simp only [if_neg hc1]
      split
      · exact key _ _ (statesAdvance_completeCurrent
          { rqt := rqt, wrap := wrap, current := some c, startLine := 1,
            stepBuffer := stepBuffer } c "Succeeded" logId)
      · exact key _ _ (statesAdvance_completeCurrent
          { rqt := rqt, wrap := wrap, current := some c, startLine := 1,
            stepBuffer := stepBuffer } c "Failed" logId)

/-- `failInitJob` never moves a record to an earlier state. -/
theorem statesAdvance_failInitJob (wrap : TimelineRecordWrapper) (logId : Int)
    (message : GoString) :
    StatesAdvance wrap.Value (failInitJob wrap logId message).wrap.Value := by
  unfold failInitJob
  exact statesAdvance_trans
    (statesAdvance_trans (statesAdvance_setLog logId 1 _) (statesAdvance_complete _ 1 _))
    (statesAdvance_complete _ 0 _)

/-! ### The effect of a switch of steps on the states -/

theorem completeCurrent_view (f : ghaFormatter) (c : Nat) (res : String) (logId : Int)
    (j : Nat) :
    ((f.completeCurrent c res logId).1.wrap.Value[j]?).map TimelineRecord.view
      = (f.wrap.Value[j]?).map
          (fun r => (r.ident, if j = c then RecordState.Completed else r.State)) := by
  unfold ghaFormatter.completeCurrent
  split
  · simp only [modifyAt_get?]
    by_cases hj : j = c
    · simp only [hj, if_true]
      cases f.wrap.Value[c]? <;> rfl
    · simp only [if_neg hj]
      cases f.wrap.Value[j]? <;> rfl
  · simp only [modifyAt_get?]
    by_cases hj : j = c
    · simp only [hj, if_true]
      cases f.wrap.Value[c]? <;> rfl
    · simp only [if_neg hj]
      cases f.wrap.Value[j]? <;> rfl

theorem leaveCurrent_view (f : ghaFormatter) (call : FormatCall) (j : Nat) :
    ((f.leaveCurrent call).1.wrap.Value[j]?).map TimelineRecord.view
      = (f.wrap.Value[j]?).map
          (fun r => (r.ident, if f.current = some j then RecordState.Completed else r.State)) := by
  unfold ghaFormatter.leaveCurrent
  cases hc : f.current with
  | none =>
    simp only
    cases f.wrap.Value[j]? <;> simp [TimelineRecord.view]
  | some c =>
    have e : ∀ r : TimelineRecord,
        (if j = c then RecordState.Completed else r.State)
          = (if some c = some j then RecordState.Completed else r.State) := by
      intro r
      by_cases hj : j = c
      · simp [hj]
      · have : ¬ (some c = some j) := fun h => hj (Option.some.inj h).symm
        simp [hj, this]
    simp only
    split
    · rw [completeCurrent_view]; simp only [e]
    · rw [completeCurrent_view]; simp only [e]

theorem enterStep_view (f : ghaFormatter) (name : String) (j : Nat) :
    ((f.enterStep name).1.wrap.Value[j]?).map TimelineRecord.view
      = (f.wrap.Value[j]?).map
          (fun r => (r.ident,
            if findRefName name f.wrap.Value = some j then RecordState.InProgress
            else r.State)) := by
  unfold ghaFormatter.enterStep
  cases hfind : findRefName name f.wrap.Value with
  | none =>
    simp only
    cases f.wrap.Value[j]? <;> simp [TimelineRecord.view]
  | some i =>
    simp only [modifyAt_get?]
    by_cases hj : j = i
    · subst hj
      simp only [if_true]
      cases f.wrap.Value[j]? <;> rfl
    · have : ¬ (some i = some j) := fun h => hj (Option.some.inj h).symm
      simp only [if_neg hj, if_neg this]
      cases f.wrap.Value[j]? <;> rfl

theorem switchStep_view (f : ghaFormatter) (call : FormatCall) (j : Nat) :
    ((f.switchStep call).1.wrap.Value[j]?).map TimelineRecord.view
      = (f.wrap.Value[j]?).map
          (fun r => (r.ident,
            if findRefName call.rc.CurrentStep f.wrap.Value = some j then RecordState.InProgress
            else if f.current = some j then RecordState.Completed else r.State)) := by
  simp only [ghaFormatter.switchStep]
  rw [enterStep_view]
  simp only
  rw [findRefName_congr _ _ f.wrap.Value (leaveCurrent_ident { f with startLine := 1 } call)]
  have h := leaveCurrent_view { f with startLine := 1 } call j
  simp only at h
  cases hl : ({ f with startLine := 1 } : ghaFormatter).leaveCurrent call |>.1.wrap.Value[j]? with
  | none =>
    rw [hl] at h
    cases hv : f.wrap.Value[j]? with
    | none => rfl
    | some r => rw [hv] at h; simp at h
  | some s =>
    rw [hl] at h
    cases hv : f.wrap.Value[j]? with
    | none => rw [hv] at h; simp at h
    | some r =>
      rw [hv] at h
      simp only [Option.map_some', Option.some.injEq, TimelineRecord.view, Prod.mk.injEq] at h ⊢
      obtain ⟨h1, h2⟩ := h
      refine ⟨h1, ?_⟩
      split
      · rfl
      · exact h2

theorem endFormat_wrap (re : GoString → Option (GoString → GoString)) (f : ghaFormatter)
    (b : GoString) (call : FormatCall) : (f.endFormat re b call).1.wrap = f.wrap := by
  unfold ghaFormatter.endFormat
  split
  · rfl
  · split <;> rfl

theorem endFormat_current (re : GoString → Option (GoString → GoString)) (f : ghaFormatter)
    (b : GoString) (call : FormatCall) : (f.endFormat re b call).1.current = f.current := by
  unfold ghaFormatter.endFormat
  split
  · rfl
  · split <;> rfl

theorem Format_wrap (re : GoString → Option (GoString → GoString)) (f : ghaFormatter)
    (call : FormatCall) : (f.Format re call).1.wrap = (f.beginFormat call).1.wrap := by
  simp only [ghaFormatter.Format, endFormat_wrap]

theorem Format_current (re : GoString → Option (GoString → GoString)) (f : ghaFormatter)
    (call : FormatCall) : (f.Format re call).1.current = (f.beginFormat call).1.current := by
  simp only [ghaFormatter.Format, endFormat_current]

/-! ### The invariant along the log entries -/

theorem noReturn_tail {x : String} {rest : List String} (h : noReturn (x :: rest) = true) :
    noReturn rest = true := by
  simp only [noReturn, Bool.and_eq_true] at h
  exact h.2

theorem noReturn_not_mem {x y : String} {rest : List String}
    (h : noReturn (x :: y :: rest) = true) (hne : y ≠ x) : x ∉ y :: rest := by
  simp only [noReturn, Bool.and_eq_true, List.all_eq_true] at h
  have h1 := h.1
  have hyx : (y == x) = false := by simpa using hne
  have hd : (y :: rest).dropWhile (fun z => z == x) = y :: rest := by
    simp only [List.dropWhile, hyx]
  rw [hd] at h1
  intro hmem
  have := h1 x hmem
  simp at this

theorem currentRefName_eq (f : ghaFormatter) (c : Nat) (r : TimelineRecord)
    (hc : f.current = some c) (hr : f.wrap.Value[c]? = some r) :
    f.currentRefName = some r.RefName := by
  simp [ghaFormatter.currentRefName, hc, hr]

theorem view_eq_some {l : List TimelineRecord} {j : Nat} {s : TimelineRecord}
    {g : TimelineRecord → RecordState} {v : List TimelineRecord}
    (h : (l[j]?).map TimelineRecord.view = (v[j]?).map (fun r => (r.ident, g r)))
    (hs : l[j]? = some s) :
    ∃ r, v[j]? = some r ∧ s.ident = r.ident ∧ s.State = g r := by
  rw [hs] at h
  cases hv : v[j]? with
  | none => rw [hv] at h; simp at h
  | some r =>
    rw [hv] at h
    simp only [Option.map_some', Option.some.injEq, TimelineRecord.view, Prod.mk.injEq] at h
    exact ⟨r, rfl, h.1, h.2⟩

theorem refName_of_ident {r s : TimelineRecord} (h : s.ident = r.ident) :
    s.RefName = r.RefName := by
  have := congrArg (fun p => p.2.1) h
  simpa [TimelineRecord.ident] using this

/-- One call of `Format` never moves a record to an earlier state, when the executor
never returns to a step it has left. -/
theorem statesAdvance_beginFormat (f : ghaFormatter) (call : FormatCall) (prev : String)
    (future : List String) (hinv : f.Inv prev (call.rc.CurrentStep :: future)) :
    StatesAdvance f.wrap.Value (f.beginFormat call).1.wrap.Value := by
  unfold ghaFormatter.beginFormat
  split
  · refine ⟨?_, ?_⟩
    · have := congrArg List.length (switchStep_ident f call)
      simp only [List.length_map] at this
      omega
    · intro j r s hr hs
      obtain ⟨r2, hr2, _, hstate⟩ := view_eq_some (switchStep_view f call j) hs
      rw [hr] at hr2
      simp only [Option.some.injEq] at hr2
      subst hr2
      rw [hstate]
      split
      · rename_i hfind
        obtain ⟨r3, hr3, hname⟩ := findRefName_some _ _ _ hfind
        rw [hr] at hr3
        simp only [Option.some.injEq] at hr3
        subst hr3
        have hnc : r.State ≠ RecordState.Completed := by
          intro hcomp
          exact hinv.2.1 j r hr hcomp (by simp [hname])
        cases hst : r.State <;> simp_all [RecordState.rank]
      · split
        · exact rank_le_Completed _
        · exact le_refl _
  · exact statesAdvance_refl _

/-- The invariant is kept by a call of `Format`. -/
theorem inv_Format (re : GoString → Option (GoString → GoString)) (f : ghaFormatter)
    (call : FormatCall) (prev : String) (future : List String)
    (hinv : f.Inv prev (call.rc.CurrentStep :: future)) :
    (f.Format re call).1.Inv call.rc.CurrentStep future := by
  obtain ⟨hno, hcomp, hcur⟩ := hinv
  refine ⟨noReturn_tail hno, ?_, ?_⟩
  · intro j s hs hsc
    rw [Format_wrap] at hs
    unfold ghaFormatter.beginFormat at hs
    split at hs
    · rename_i hsw
      obtain ⟨r, hr, hid, hstate⟩ := view_eq_some (switchStep_view f call j) hs
      rw [refName_of_ident hid]
      rw [hsc] at hstate
      split at hstate
      · exact absurd hstate (by decide)
      · split at hstate
        · rename_i hcj
          rcases hcur j r hcj hr with h1 | h1
          · have hne : call.rc.CurrentStep ≠ prev := by
              rcases hsw with h2 | h2
              · rw [hcj] at h2; exact absurd h2 (by simp)
              · rw [currentRefName_eq f j r hcj hr, h1] at h2
                exact fun h3 => h2 (by rw [h3])
            rw [h1]
            exact noReturn_not_mem hno hne
          · exact fun hm => hcomp j r hr h1 (List.mem_cons_of_mem _ hm)
        · exact fun hm => hcomp j r hr hstate.symm (List.mem_cons_of_mem _ hm)
    · exact fun hm => hcomp j s hs hsc (List.mem_cons_of_mem _ hm)
  · intro c s hc hs
    rw [Format_wrap] at hs
    rw [Format_current] at hc
    unfold ghaFormatter.beginFormat at hs hc
    split at hs
    · rename_i hsw
      rw [if_pos hsw] at hc
      obtain ⟨r, hr, hid, hstate⟩ := view_eq_some (switchStep_view f call c) hs
      rw [switchStep_current] at hc
      cases hfind : findRefName call.rc.CurrentStep f.wrap.Value with
      | none =>
        rw [hfind] at hc hstate
        simp only at hc
        right
        rw [hstate]
        simp [hc]
      | some i =>
        rw [hfind] at hc
        simp only [Option.some.injEq] at hc
        subst hc
        obtain ⟨r3, hr3, hname⟩ := findRefName_some _ _ _ hfind
        rw [hr] at hr3
        simp only [Option.some.injEq] at hr3
        subst hr3
        left
        rw [refName_of_ident hid, hname]
    · rename_i hsw
      rw [if_neg hsw] at hc
      simp only [not_or, not_not] at hsw
      left
      have := currentRefName_eq f c s hc hs
      rw [hsw.2] at this
      exact (Option.some.inj this).symm

/-! ### The whole life of a job -/

theorem timelineTrace_chain (re : GoString → Option (GoString → GoString)) (rcEnd : RunContext)
    (logId : Int) (panicMessage : GoString) :
    ∀ (calls : List FormatCall) (f : ghaFormatter) (prev : String),
      f.Inv prev (calls.map (fun c => c.rc.CurrentStep)) →
      List.Chain StatesAdvance f.wrap.Value
        (timelineTrace re rcEnd logId panicMessage f calls)
  | [], f, _, _ => by
    simp only [timelineTrace, List.chain_cons, List.Chain.nil, and_true]
    exact statesAdvance_finalizeJob f rcEnd logId false []
  | call :: calls, f, prev, hinv => by
    simp only [List.map_cons] at hinv
    have hadv : StatesAdvance f.wrap.Value (f.Format re call).1.wrap.Value := by
      rw [Format_wrap]
      exact statesAdvance_beginFormat f call prev _ hinv
    have hinv2 := inv_Format re f call prev _ hinv
    unfold timelineTrace
    split
    · rename_i f1 effs heq
      have h1 : (f.Format re call).1 = f1 := by rw [heq]
      rw [h1] at hadv
      simp only [List.chain_cons, List.Chain.nil, and_true]
      exact ⟨hadv, statesAdvance_failInitJob f1.wrap logId panicMessage⟩
    · rename_i f1 effs out heq
      have h1 : (f.Format re call).1 = f1 := by rw [heq]
      rw [h1] at hadv hinv2
      simp only [List.chain_cons]
      exact ⟨hadv, timelineTrace_chain re rcEnd logId panicMessage calls f1 _ hinv2⟩

theorem stateHistory_cons (i : Nat) (v : List TimelineRecord)
    (rest : List (List TimelineRecord)) :
    stateHistory i (v :: rest)
      = match v[i]? with
        | none => stateHistory i rest
        | some r => r.State :: stateHistory i rest := by
  unfold stateHistory
  cases hv : v[i]? <;> simp [List.filterMap_cons, hv]

theorem stateHistory_chain (i : Nat) :
    ∀ (trace : List (List TimelineRecord)), List.Chain' StatesAdvance trace →
      List.Chain' (fun a b => RecordState.rank a ≤ RecordState.rank b) (stateHistory i trace)
  | [], _ => by simp [stateHistory]
  | v :: rest, h => by
    rw [List.chain'_cons'] at h
    have ih := stateHistory_chain i rest h.2
    rw [stateHistory_cons]
    cases hv : v[i]? with
    | none => exact ih
    | some r =>
      simp only
      rw [List.chain'_cons']
      refine ⟨?_, ih⟩
      intro y hy
      cases rest with
      | nil => simp [stateHistory] at hy
      | cons w rest2 =>
        have hvw : StatesAdvance v w := h.1 w (by simp)
        have hi : i < v.length := by
          rcases Nat.lt_or_ge i v.length with h1 | h1
          · exact h1
          · rw [List.getElem?_eq_none h1] at hv; simp at hv
        have hiw : i < w.length := lt_of_lt_of_le hi hvw.1
        have hw : w[i]? = some w[i] := List.getElem?_eq_getElem hiw
        rw [stateHistory_cons, hw] at hy
        simp only [List.head?_cons, Option.mem_def, Option.some.injEq] at hy
        subst hy
        exact hvw.2 i r _ hv hw

theorem onward_sublist (a : RecordState) :
    List.Sublist a.onward
      [RecordState.Pending, RecordState.InProgress, RecordState.Completed] := by
  cases a <;> decide

theorem destutter'_sublist_onward :
    ∀ (l : List RecordState) (a : RecordState),
      List.Chain (fun a b => RecordState.rank a ≤ RecordState.rank b) a l →
      List.Sublist (l.destutter' (fun a b => a ≠ b) a) a.onward
  | [], a, _ => by cases a <;> decide
  | b :: l, a, h => by
    rw [List.chain_cons] at h
    have ih := destutter'_sublist_onward l b h.2
    by_cases hab : a = b
    · subst hab
      rw [List.destutter'_cons_neg _ (by simp)]
      exact ih
    · rw [List.destutter'_cons_pos _ hab]
      have hlt : a.rank < b.rank := by
        rcases Nat.lt_or_ge a.rank b.rank with h1 | h1
        · exact h1
        · exfalso
          apply hab
          have := h.1
          cases a <;> cases b <;> simp_all [RecordState.rank]
      have hsub : List.Sublist b.onward a.onward.tail := by
        cases a <;> cases b <;> first | decide | (simp [RecordState.rank] at hlt)
      have ha : a.onward = a :: a.onward.tail := by cases a <;> rfl
      rw [ha]
      exact (ih.trans hsub).cons₂ a

theorem destutter_sublist_of_chain (l : List RecordState)
    (h : List.Chain' (fun a b => RecordState.rank a ≤ RecordState.rank b) l) :
    List.Sublist (l.destutter (fun a b => a ≠ b))
      [RecordState.Pending, RecordState.InProgress, RecordState.Completed] := by
  cases l with
  | nil => simp
  | cons a l => exact (destutter'_sublist_onward l a h).trans (onward_sublist a)

theorem timelineWithSteps_value (jobId jobName : String) (jobDisplayName : GoString)
    (setupId : String) (uuid : Nat → String) (steps : List StepInfo) :
    (timelineWithSteps jobId uuid steps
        (initialTimeline jobId jobName jobDisplayName setupId)).Value
      = (initialTimeline jobId jobName jobDisplayName setupId).Value
          ++ stepRecords jobId uuid steps 0 := by
  simp only [timelineWithSteps]
  exact appendStepRecords_eq jobId uuid steps 0 _ (by simp [initialTimeline])

theorem stepRecords_state (jobId : String) (uuid : Nat → String) :
    ∀ (steps : List StepInfo) (i : Nat), ∀ r ∈ stepRecords jobId uuid steps i,
      r.State = RecordState.Pending
  | [], _, _, h => by simp [stepRecords] at h
  | st :: rest, i, r, h => by
    simp only [stepRecords, List.mem_cons] at h
    rcases h with h1 | h1
    · subst h1; rfl
    · exact stepRecords_state jobId uuid rest (i + 1) r h1

theorem statesAdvance_append (v e : List TimelineRecord) : StatesAdvance v (v ++ e) := by
  refine ⟨by simp, ?_⟩
  intro j r s hr hs
  have hj : j < v.length := by
    rcases Nat.lt_or_ge j v.length with h1 | h1
    · exact h1
    · rw [List.getElem?_eq_none h1] at hr; simp at hr
  rw [List.getElem?_append_left hj, hr] at hs
  simp only [Option.some.injEq] at hs
  subst hs
  exact le_refl _

/-- The formatter the orchestrator builds satisfies the invariant. -/
theorem inv_newFormatter (rqt : MaskingData) (jobId jobName : String)
    (jobDisplayName : GoString) (setupId : String) (uuid : Nat → String)
    (steps : List StepInfo) (future : List String)
    (hno : noReturn ("__setup" :: future) = true) :
    (newFormatter rqt (timelineWithSteps jobId uuid steps
      (initialTimeline jobId jobName jobDisplayName setupId))).Inv "__setup" future := by
  refine ⟨hno, ?_, ?_⟩
  · intro j r hr hc
    exfalso
    simp only [newFormatter, timelineWithSteps_value] at hr
    have hmem := List.getElem?_mem hr
    simp only [List.mem_append] at hmem
    rcases hmem with h1 | h1
    · simp only [initialTimeline, List.mem_cons, List.mem_singleton, List.not_mem_nil,
        or_false] at h1
      rcases h1 with h2 | h2 <;>
        (subst h2; simp [TimelineRecord.Start] at hc)
    · rw [stepRecords_state jobId uuid steps 0 r h1] at hc
      exact absurd hc (by decide)
  · intro c r hc hr
    left
    simp only [newFormatter, Option.some.injEq] at hc
    subst hc
    simp only [newFormatter, timelineWithSteps_value] at hr
    rw [List.getElem?_append_left (by simp [initialTimeline])] at hr
    simp only [initialTimeline, List.getElem?_cons_succ, List.getElem?_cons_zero,
      Option.some.injEq] at hr
    subst hr
    rfl

theorem jobTimelineTrace_chain (re : GoString → Option (GoString → GoString))
    (rqt : MaskingData) (jobId jobName : String) (jobDisplayName : GoString)
    (setupId : String) (uuid : Nat → String) (steps : List StepInfo)
    (calls : List FormatCall) (rcEnd : RunContext) (logId : Int) (panicMessage : GoString)
    (hno : noReturn ("__setup" :: calls.map (fun c => c.rc.CurrentStep)) = true) :
    List.Chain' StatesAdvance
      (jobTimelineTrace re rqt jobId jobName jobDisplayName setupId uuid steps calls rcEnd
        logId panicMessage) := by
  unfold jobTimelineTrace
  simp only [List.chain'_cons, List.Chain', List.chain_cons]
  refine ⟨?_, ?_, ?_⟩
  · refine ⟨by simp [initialTimeline], ?_⟩
    intro j r s hr hs
    match j with
    | 0 =>
      simp only [List.getElem?_cons_zero, Option.some.injEq] at hr
      subst hr
      exact Nat.zero_le _
    | 1 =>
      simp only [List.getElem?_cons_succ, List.getElem?_cons_zero, Option.some.injEq] at hr
      subst hr
      exact Nat.zero_le _
    | k + 2 => simp at hr
  · rw [timelineWithSteps_value]
    exact statesAdvance_append _ _
  · exact timelineTrace_chain re rcEnd logId panicMessage calls
      (newFormatter rqt (timelineWithSteps jobId uuid steps
        (initialTimeline jobId jobName jobDisplayName setupId))) "__setup"
      (inv_newFormatter rqt jobId jobName jobDisplayName setupId uuid steps _ hno)

/-- C6 as stated fails. (1) With the steps `a` and `b`, an executor whose current step
goes `a`, `b`, `a` puts the completed record of `a` back into `InProgress`.
(2) With the steps `a` and `b`, an executor that only logs during `a` leaves
the record of `b` pending until the finalization completes it as skipped:
its states are `Pending`, `Completed`, not a beginning of `Pending`,
`InProgress`, `Completed`. -/
theorem jobStateHistory_not_a_prefix :
    ((jobStateHistory (fun _ => none) {} "job" "build" [] "s" (fun _ => "u")
        [{ ID := "a" }, { ID := "b" }]
        [{ rc := { CurrentStep := "a" } }, { rc := { CurrentStep := "b" } },
         { rc := { CurrentStep := "a" } }] {} 0 [] 2).destutter (fun x y => x ≠ y)
      = [RecordState.Pending, RecordState.InProgress, RecordState.Completed,
         RecordState.InProgress, RecordState.Completed]
      ∧ ¬ [RecordState.Pending, RecordState.InProgress, RecordState.Completed,
           RecordState.InProgress, RecordState.Completed]
          <+: [RecordState.Pending, RecordState.InProgress, RecordState.Completed])
    ∧ ((jobStateHistory (fun _ => none) {} "job" "build" [] "s" (fun _ => "u")
        [{ ID := "a" }, { ID := "b" }]
        [{ rc := { CurrentStep := "a" } }] {} 0 [] 3).destutter (fun x y => x ≠ y)
      = [RecordState.Pending, RecordState.Completed]
      ∧ ¬ [RecordState.Pending, RecordState.Completed]
          <+: [RecordState.Pending, RecordState.InProgress, RecordState.Completed]) := by
  refine ⟨⟨by decide, by decide⟩, ⟨by decide, by decide⟩⟩

/-- C6, amended. For every run of a job whose executor never returns to a step it has
left (every sequence of log entries whose current-step values, after
`__setup`, never come back to an earlier value, followed by the finalization
or, after a panic of the formatter, by `failInitJob`), no timeline record
ever moves to an earlier state: the sequence of distinct states it takes is
a subsequence of `Pending`, `InProgress`, `Completed` (a skipped step goes
from `Pending` straight to `Completed`), so a record that has reached
`Completed` is never put back into `InProgress` or `Pending`; and every
record starts in `Pending`. -/
theorem jobStateHistory_advances (re : GoString → Option (GoString → GoString))
    (rqt : MaskingData) (jobId jobName : String) (jobDisplayName : GoString)
    (setupId : String) (uuid : Nat → String) (steps : List StepInfo)
    (calls : List FormatCall) (rcEnd : RunContext) (logId : Int) (panicMessage : GoString)
    (hno : noReturn ("__setup" :: calls.map (fun c => c.rc.CurrentStep)) = true) (i : Nat) :
    List.Chain' (fun a b => RecordState.rank a ≤ RecordState.rank b)
        (jobStateHistory re rqt jobId jobName jobDisplayName setupId uuid steps calls rcEnd
          logId panicMessage i)
    ∧ List.Sublist
        ((jobStateHistory re rqt jobId jobName jobDisplayName setupId uuid steps calls rcEnd
          logId panicMessage i).destutter (fun a b => a ≠ b))
        [RecordState.Pending, RecordState.InProgress, RecordState.Completed]
    ∧ (i < steps.length + 2 →
        (jobStateHistory re rqt jobId jobName jobDisplayName setupId uuid steps calls rcEnd
          logId panicMessage i).head? = some RecordState.Pending) := by
  have hchain := stateHistory_chain i _
    (jobTimelineTrace_chain re rqt jobId jobName jobDisplayName setupId uuid steps calls rcEnd
      logId panicMessage hno)
  refine ⟨hchain, destutter_sublist_of_chain _ hchain, ?_⟩
  intro hi
  unfold jobStateHistory jobTimelineTrace
  match i, hi with
  | 0, _ => simp [stateHistory_cons, CreateTimelineEntry]
  | 1, _ => simp [stateHistory_cons, CreateTimelineEntry]
  | k + 2, hk =>
    have hk2 : k < (stepRecords jobId uuid steps 0).length := by
      rw [stepRecords_length]; omega
    have h3 : (timelineWithSteps jobId uuid steps
        (initialTimeline jobId jobName jobDisplayName setupId)).Value[k + 2]?
          = some (stepRecords jobId uuid steps 0)[k] := by
      rw [timelineWithSteps_value, List.getElem?_append_right (by simp [initialTimeline])]
      simp only [initialTimeline, List.length_cons, List.length_nil, Nat.add_sub_cancel]
      exact List.getElem?_eq_getElem hk2
    have h4 : (stepRecords jobId uuid steps 0)[k].State = RecordState.Pending :=
      stepRecords_state jobId uuid steps 0 _ (List.getElem_mem _)
    rw [stateHistory_cons, stateHistory_cons, stateHistory_cons, h3]
    simp [initialTimeline, h4]

/-- Witness for C6: two steps run in order. -/
theorem jobStateHistory_advances_witness :
    List.Sublist
      ((jobStateHistory (fun _ => none) {} "job" "build" [] "s" (fun _ => "u")
          [{ ID := "a" }, { ID := "b" }]
          [{ rc := { CurrentStep := "__setup" } }, { rc := { CurrentStep := "a" } },
           { rc := { CurrentStep := "b" } }] {} 0 [] 2).destutter (fun a b => a ≠ b))
      [RecordState.Pending, RecordState.InProgress, RecordState.Completed] :=
  (jobStateHistory_advances (fun _ => none) {} "job" "build" [] "s" (fun _ => "u")
    [{ ID := "a" }, { ID := "b" }]
    [{ rc := { CurrentStep := "__setup" } }, { rc := { CurrentStep := "a" } },
     { rc := { CurrentStep := "b" } }] {} 0 [] (by decide) 2).2.1

/-! ## Start lines of the log lines -/

theorem runFormat_cons_effects (re : GoString → Option (GoString → GoString))
    (f : ghaFormatter) (call : FormatCall) (calls : List FormatCall) :
    (runFormat re f (call :: calls)).2.1
      = match (f.Format re call).2.2 with
        | none => (f.Format re call).2.1
        | some _ => (f.Format re call).2.1 ++ (runFormat re (f.Format re call).1 calls).2.1 := by
  rw [runFormat]
  split
  · rename_i f1 effs heq
    rw [heq]
  · rename_i f1 effs out heq
    rw [heq]

theorem Format_none (re : GoString → Option (GoString → GoString)) (f : ghaFormatter)
    (call : FormatCall) (h : (f.Format re call).2.2 = none) :
    loglines (f.Format re call).2.1 = [] := by
  simp only [ghaFormatter.Format] at h ⊢
  rw [loglines_append, beginFormat_loglines, List.nil_append]
  unfold ghaFormatter.endFormat at h ⊢
  cases hm : maskMessage re (f.beginFormat call).1.rqt call.entry.Message with
  | none => rfl
  | some msg =>
    rw [hm] at h
    cases hc : (f.beginFormat call).1.current with
    | none => rfl
    | some c =>
      rw [hc] at h
      simp at h

theorem Format_some (re : GoString → Option (GoString → GoString)) (f : ghaFormatter)
    (call : FormatCall) (out : GoString) (h : (f.Format re call).2.2 = some out) :
    ∃ c line, (f.beginFormat call).1.current = some c
      ∧ loglines (f.Format re call).2.1
          = [((f.beginFormat call).1.startLine,
              ((f.beginFormat call).1.wrap.Value[c]?.getD {}).Id, line)]
      ∧ (f.Format re call).1.startLine = (f.beginFormat call).1.startLine + 1 := by
  simp only [ghaFormatter.Format] at h ⊢
  rw [loglines_append, beginFormat_loglines, List.nil_append]
  unfold ghaFormatter.endFormat at h ⊢
  cases hm : maskMessage re (f.beginFormat call).1.rqt call.entry.Message with
  | none =>
    rw [hm] at h
    simp at h
  | some msg =>
    rw [hm] at h
    cases hc : (f.beginFormat call).1.current with
    | none =>
      rw [hc] at h
      simp at h
    | some c => exact ⟨c, _, rfl, rfl, rfl⟩

theorem startLinesOf_eq (id : String) (effs : List Effect) :
    startLinesOf id effs
      = ((loglines effs).filter (fun l => decide (l.2.1 = id))).map (fun l => l.1) := rfl

theorem startLinesOf_of_loglines_nil (id : String) (effs : List Effect)
    (h : loglines effs = []) : startLinesOf id effs = [] := by
  rw [startLinesOf_eq, h]
  rfl

theorem startLinesOf_append (id : String) (a b : List Effect) :
    startLinesOf id (a ++ b) = startLinesOf id a ++ startLinesOf id b := by
  simp only [startLinesOf_eq, loglines_append, List.filter_append, List.map_append]

theorem startLinesOf_single (id : String) (effs : List Effect) (n : Int) (id2 : String)
    (line : GoString) (h : loglines effs = [(n, id2, line)]) :
    startLinesOf id effs = if id2 = id then [n] else [] := by
  rw [startLinesOf_eq, h]
  by_cases hid : id2 = id <;> simp [hid]

theorem exists_logline_of_startLinesOf (id : String) (effs : List Effect) (k : Nat) (s : Int)
    (h : (startLinesOf id effs)[k]? = some s) : ∃ l ∈ loglines effs, l.2.1 = id := by
  have hmem := List.getElem?_mem h
  rw [startLinesOf_eq] at hmem
  simp only [List.mem_map, List.mem_filter, decide_eq_true_eq] at hmem
  obtain ⟨l, ⟨hl, hid⟩, _⟩ := hmem
  exact ⟨l, hl, hid⟩

theorem Format_ident (re : GoString → Option (GoString → GoString)) (f : ghaFormatter)
    (call : FormatCall) :
    (f.Format re call).1.wrap.Value.map TimelineRecord.ident
      = f.wrap.Value.map TimelineRecord.ident := by
  rw [Format_wrap, beginFormat_ident]

theorem ident_eq_of_id_eq {V : List (String × String × GoString)}
    (hids : (V.map (fun e => e.1)).Nodup) {e1 e2 : String × String × GoString}
    (h1 : e1 ∈ V) (h2 : e2 ∈ V) (h : e1.1 = e2.1) : e1 = e2 :=
  List.inj_on_of_nodup_map hids h1 h2 h

theorem ident_mem_of_getElem? {v : List TimelineRecord} {j : Nat} {r : TimelineRecord}
    (h : v[j]? = some r) : r.ident ∈ v.map TimelineRecord.ident :=
  List.mem_map_of_mem _ (List.getElem?_mem h)

theorem getElem?_cons_singleton_append {n s : Int} {L : List Int} {k : Nat}
    (h : ([n] ++ L)[k]? = some s) : (k = 0 ∧ s = n) ∨ ∃ k2, k = k2 + 1 ∧ L[k2]? = some s := by
  cases k with
  | zero =>
    simp only [List.singleton_append, List.getElem?_cons_zero, Option.some.injEq] at h
    exact Or.inl ⟨rfl, h.symm⟩
  | succ k2 =>
    simp only [List.singleton_append, List.getElem?_cons_succ] at h
    exact Or.inr ⟨k2, rfl, h⟩

theorem exists_record_of_ident_mem {v : List TimelineRecord} {name : String}
    (h : ∃ e ∈ v.map TimelineRecord.ident, e.2.1 = name) :
    ∃ i, findRefName name v = some i := by
  obtain ⟨e, he, hn⟩ := h
  simp only [List.mem_map] at he
  obtain ⟨r, hr, hre⟩ := he
  subst hre
  cases hfind : findRefName name v with
  | none => exact absurd hn (findRefName_none name v hfind r hr)
  | some i => exact ⟨i, rfl⟩

theorem getElem?_of_ident_map_eq {l v : List TimelineRecord}
    (h : l.map TimelineRecord.ident = v.map TimelineRecord.ident) {i : Nat}
    {r : TimelineRecord} (hr : v[i]? = some r) :
    ∃ r2, l[i]? = some r2 ∧ r2.ident = r.ident := by
  have h1 := getElem?_ident_of_map_eq h i
  rw [hr] at h1
  cases hl : l[i]? with
  | none => rw [hl] at h1; simp at h1
  | some r2 =>
    rw [hl] at h1
    simp only [Option.map_some', Option.some.injEq] at h1
    exact ⟨r2, rfl, h1⟩

theorem id_of_ident {r s : TimelineRecord} (h : s.ident = r.ident) : s.Id = r.Id := by
  have := congrArg (fun p => p.1) h
  simpa [TimelineRecord.ident] using this

/-- The numbering of the lines along a run of the formatter whose current record is
the one of the last step seen: the lines of the current record continue from
`startLine`, the lines of every other record are numbered from 1, and every
line belongs to a record of a step seen. -/
theorem runFormat_startLines (re : GoString → Option (GoString → GoString)) :
    ∀ (calls : List FormatCall) (f : ghaFormatter) (prev : String) (c : Nat)
      (rc : TimelineRecord),
      noReturn (prev :: calls.map (fun x => x.rc.CurrentStep)) = true →
      f.current = some c → f.wrap.Value[c]? = some rc → rc.RefName = prev →
      (∀ call ∈ calls, ∃ e ∈ f.wrap.Value.map TimelineRecord.ident,
          e.2.1 = call.rc.CurrentStep) →
      ((f.wrap.Value.map TimelineRecord.ident).map (fun e => e.1)).Nodup →
      (∀ (k : Nat) (s : Int), (startLinesOf rc.Id (runFormat re f calls).2.1)[k]? = some s →
          s = f.startLine + k)
      ∧ (∀ id, id ≠ rc.Id → ∀ (k : Nat) (s : Int),
          (startLinesOf id (runFormat re f calls).2.1)[k]? = some s → s = 1 + k)
      ∧ (∀ l ∈ loglines (runFormat re f calls).2.1,
          ∃ e ∈ f.wrap.Value.map TimelineRecord.ident,
            e.1 = l.2.1 ∧ e.2.1 ∈ prev :: calls.map (fun x => x.rc.CurrentStep))
  | [], f, prev, c, rc, _, _, _, _, _, _ => by
    simp [runFormat, startLinesOf, loglines]
  | call :: calls, f, prev, c, rc, hno, hcur, hrc, hname, hknown, hids => by
    rw [runFormat_cons_effects]
    cases hout : (f.Format re call).2.2 with
    | none =>
      have hnil := Format_none re f call hout
      simp only
      refine ⟨?_, ?_, ?_⟩
      · intro k s h
        rw [startLinesOf_of_loglines_nil _ _ hnil] at h
        simp at h
      · intro id _ k s h
        rw [startLinesOf_of_loglines_nil _ _ hnil] at h
        simp at h
      · intro l hl
        rw [hnil] at hl
        simp at hl
    | some out =>
      obtain ⟨c1, line, hc1, hlog, hsl⟩ := Format_some re f call out hout
      have hident := Format_ident re f call
      have hknown2 : ∀ call2 ∈ calls,
          ∃ e ∈ (f.Format re call).1.wrap.Value.map TimelineRecord.ident,
            e.2.1 = call2.rc.CurrentStep := by
        intro call2 h2
        rw [hident]
        exact hknown call2 (List.mem_cons_of_mem _ h2)
      have hids2 : (((f.Format re call).1.wrap.Value.map TimelineRecord.ident).map
          (fun e => e.1)).Nodup := by
        rw [hident]; exact hids
      have hno2 : noReturn (call.rc.CurrentStep :: calls.map (fun x => x.rc.CurrentStep))
          = true := noReturn_tail hno
      simp only
      by_cases hsw : f.current = none ∨ f.currentRefName ≠ some call.rc.CurrentStep
      · -- the call switches to the record of the new step
        have hB : f.beginFormat call = f.switchStep call := by
          unfold ghaFormatter.beginFormat
          rw [if_pos hsw]
        have hne : call.rc.CurrentStep ≠ prev := by
          rcases hsw with h2 | h2
          · rw [hcur] at h2; exact absurd h2 (by simp)
          · rw [currentRefName_eq f c rc hcur hrc, hname] at h2
            exact fun h3 => h2 (by rw [h3])
        obtain ⟨i, hfind⟩ := exists_record_of_ident_mem (hknown call (by simp))
        obtain ⟨ri, hri, hriname⟩ := findRefName_some _ _ _ hfind
        rw [hB, switchStep_current, hfind] at hc1
        simp only [Option.some.injEq] at hc1
        subst hc1
        have hidB : ((f.switchStep call).1.wrap.Value[i]?.getD {}).Id = ri.Id := by
          have h1 := getD_ident_of_map_eq (switchStep_ident f call) i
          rw [hri] at h1
          exact id_of_ident h1
        rw [hB, switchStep_startLine, hidB] at hlog
        rw [hB, switchStep_startLine] at hsl
        obtain ⟨ri2, hri2, hri2id⟩ := getElem?_of_ident_map_eq hident hri
        have hcur2 : (f.Format re call).1.current = some i := by
          rw [Format_current, hB, switchStep_current, hfind]
        have hname2 : ri2.RefName = call.rc.CurrentStep := by
          rw [refName_of_ident hri2id]; exact hriname
        obtain ⟨iha, ihb, ihc⟩ := runFormat_startLines re calls (f.Format re call).1
          call.rc.CurrentStep i ri2 hno2 hcur2 hri2 hname2 hknown2 hids2
        rw [id_of_ident hri2id] at iha ihb
        rw [hsl] at iha
        have hidne : ri.Id ≠ rc.Id := by
          intro heq
          have := ident_eq_of_id_eq hids (ident_mem_of_getElem? hri) (ident_mem_of_getElem? hrc)
            (by simpa [TimelineRecord.ident] using heq)
          have h3 := refName_of_ident this
          rw [hriname, hname] at h3
          exact hne h3
        have hnotin : prev ∉ call.rc.CurrentStep :: calls.map (fun x => x.rc.CurrentStep) :=
          noReturn_not_mem hno hne
        refine ⟨?_, ?_, ?_⟩
        · intro k s h
          exfalso
          rw [startLinesOf_append, startLinesOf_single _ _ _ _ _ hlog, if_neg hidne,
            List.nil_append] at h
          obtain ⟨l, hl, hlid⟩ := exists_logline_of_startLinesOf _ _ _ _ h
          obtain ⟨e, he, heid, hemem⟩ := ihc l hl
          rw [hident] at he
          have := ident_eq_of_id_eq hids he (ident_mem_of_getElem? hrc)
            (by rw [heid, hlid]; rfl)
          rw [this] at hemem
          simp only [TimelineRecord.ident] at hemem
          rw [hname] at hemem
          exact hnotin hemem
        · intro id hid k s h
          rw [startLinesOf_append, startLinesOf_single _ _ _ _ _ hlog] at h
          by_cases hii : ri.Id = id
          · rw [if_pos hii] at h
            subst hii
            rcases getElem?_cons_singleton_append h with ⟨hk, hs⟩ | ⟨k2, hk, hk2⟩
            · subst hk hs; simp
            · have := iha k2 s hk2
              subst hk
              rw [this]
              push_cast
              ring
          · rw [if_neg hii, List.nil_append] at h
            exact ihb id (fun h2 => hii h2.symm) k s h
        · intro l hl
          rw [loglines_append, hlog] at hl
          simp only [List.singleton_append, List.mem_cons] at hl
          rcases hl with h1 | h1
          · subst h1
            exact ⟨ri.ident, ident_mem_of_getElem? hri, rfl,
              by simp [TimelineRecord.ident, hriname]⟩
          · obtain ⟨e, he, heid, hemem⟩ := ihc l h1
            rw [hident] at he
            exact ⟨e, he, heid, List.mem_cons_of_mem _ hemem⟩
      · -- the call stays on the current record
        have hB : f.beginFormat call = (f, [], []) := by
          unfold ghaFormatter.beginFormat
          rw [if_neg hsw]
        simp only [not_or, not_not] at hsw
        have hcs : call.rc.CurrentStep = prev := by
          have := currentRefName_eq f c rc hcur hrc
          rw [hsw.2, hname] at this
          exact Option.some.inj this
        rw [hB, hcur] at hc1
        simp only [Option.some.injEq] at hc1
        subst hc1
        rw [hB] at hlog hsl
        simp only [hrc, Option.getD_some] at hlog
        have hwrap : (f.Format re call).1.wrap = f.wrap := by rw [Format_wrap, hB]
        have hcur2 : (f.Format re call).1.current = some c := by rw [Format_current, hB]; exact hcur
        have hrc2 : (f.Format re call).1.wrap.Value[c]? = some rc := by rw [hwrap]; exact hrc
        obtain ⟨iha, ihb, ihc⟩ := runFormat_startLines re calls (f.Format re call).1
          call.rc.CurrentStep c rc hno2 hcur2 hrc2 (by rw [hname, hcs]) hknown2 hids2
        rw [hsl] at iha
        refine ⟨?_, ?_, ?_⟩
        · intro k s h
          rw [startLinesOf_append, startLinesOf_single _ _ _ _ _ hlog, if_pos rfl] at h
          rcases getElem?_cons_singleton_append h with ⟨hk, hs⟩ | ⟨k2, hk, hk2⟩
          · subst hk hs; simp
          · have := iha k2 s hk2
            subst hk
            rw [this]
            push_cast
            ring
        · intro id hid k s h
          rw [startLinesOf_append, startLinesOf_single _ _ _ _ _ hlog,
            if_neg (fun h2 => hid h2.symm), List.nil_append] at h
          exact ihb id hid k s h
        · intro l hl
          rw [loglines_append, hlog] at hl
          simp only [List.singleton_append, List.mem_cons] at hl
          rcases hl with h1 | h1
          · subst h1
            exact ⟨rc.ident, ident_mem_of_getElem? hrc, rfl,
              by simp [TimelineRecord.ident, hname]⟩
          · obtain ⟨e, he, heid, hemem⟩ := ihc l h1
            rw [hident] at he
            exact ⟨e, he, heid, List.mem_cons_of_mem _ hemem⟩

/-- C8, at a failing input. On the timeline of a job with the steps `a` and `b` (record
ids `ua` and `ub`, `__setup` record `s`), the executor logs two entries while
the current step is `__setup` and then two while it is `a`. The lines of `a`
carry the start lines 1 and 2, as the claim says; those of `__setup` carry 0
and 1: the formatter the orchestrator builds has `startLine` 0, and no step
switch (which sets it to 1) precedes the first line of `__setup`. -/
theorem startLines_setup_from_zero :
    startLinesOf "s"
        (runFormat (fun _ => none)
          (newFormatter {} (timelineWithSteps "job" (fun k => if k = 0 then "ua" else "ub")
            [{ ID := "a" }, { ID := "b" }] (initialTimeline "job" "build" [] "s")))
          [{ rc := { CurrentStep := "__setup" } }, { rc := { CurrentStep := "__setup" } },
           { rc := { CurrentStep := "a" } }, { rc := { CurrentStep := "a" } }]).2.1 = [0, 1]
    ∧ startLinesOf "ua"
        (runFormat (fun _ => none)
          (newFormatter {} (timelineWithSteps "job" (fun k => if k = 0 then "ua" else "ub")
            [{ ID := "a" }, { ID := "b" }] (initialTimeline "job" "build" [] "s")))
          [{ rc := { CurrentStep := "__setup" } }, { rc := { CurrentStep := "__setup" } },
           { rc := { CurrentStep := "a" } }, { rc := { CurrentStep := "a" } }]).2.1 = [1, 2] := by
  refine ⟨by decide, by decide⟩

/-- The start line is set to 1 at every step switch (line 784). On the same timeline:
(1) an executor whose current step goes `a`, `b`, `a` restarts the numbering
of `a`, whose two lines both carry start line 1; (2) when the current step
takes a value `x` that names no record, the formatter stays on the record of
`a` and resets the start line at every entry: three lines with start line 1. -/
theorem startLines_restart_on_switch :
    startLinesOf "ua"
        (runFormat (fun _ => none)
          (newFormatter {} (timelineWithSteps "job" (fun k => if k = 0 then "ua" else "ub")
            [{ ID := "a" }, { ID := "b" }] (initialTimeline "job" "build" [] "s")))
          [{ rc := { CurrentStep := "a" } }, { rc := { CurrentStep := "b" } },
           { rc := { CurrentStep := "a" } }]).2.1 = [1, 1]
    ∧ startLinesOf "ua"
        (runFormat (fun _ => none)
          (newFormatter {} (timelineWithSteps "job" (fun k => if k = 0 then "ua" else "ub")
            [{ ID := "a" }, { ID := "b" }] (initialTimeline "job" "build" [] "s")))
          [{ rc := { CurrentStep := "a" } }, { rc := { CurrentStep := "x" } },
           { rc := { CurrentStep := "x" } }]).2.1 = [1, 1, 1] := by
  refine ⟨by decide, by decide⟩

/-- The records the numbering is right for. For every sequence of log entries
processed by `Format` from the formatter the orchestrator builds (current
record `__setup`, record 1), when the executor's current step never returns
to a step it has left and always names a record of the timeline, and the
record ids are pairwise distinct: the line of index `k` (counting from 0)
emitted for a record id other than the one of `__setup` carries
`startLine = k + 1`. -/
theorem startLines_from_one (re : GoString → Option (GoString → GoString))
    (rqt : MaskingData) (wrap : TimelineRecordWrapper) (calls : List FormatCall)
    (setup : TimelineRecord) (hsetup : wrap.Value[1]? = some setup)
    (hsetupName : setup.RefName = "__setup")
    (hno : noReturn ("__setup" :: calls.map (fun x => x.rc.CurrentStep)) = true)
    (hknown : ∀ call ∈ calls, ∃ r ∈ wrap.Value, r.RefName = call.rc.CurrentStep)
    (hids : (wrap.Value.map (fun r => r.Id)).Nodup)
    (id : String) (hid : id ≠ setup.Id) (k : Nat) (s : Int)
    (h : (startLinesOf id (runFormat re (newFormatter rqt wrap) calls).2.1)[k]? = some s) :
    s = (k : Int) + 1 := by
  have hknown2 : ∀ call ∈ calls,
      ∃ e ∈ (newFormatter rqt wrap).wrap.Value.map TimelineRecord.ident,
        e.2.1 = call.rc.CurrentStep := by
    intro call hc
    obtain ⟨r, hr, hn⟩ := hknown call hc
    exact ⟨r.ident, List.mem_map_of_mem _ hr, hn⟩
  have hids2 : (((newFormatter rqt wrap).wrap.Value.map TimelineRecord.ident).map
      (fun e => e.1)).Nodup := by
    simp only [newFormatter, List.map_map]
    exact hids
  obtain ⟨_, hb, _⟩ := runFormat_startLines re calls (newFormatter rqt wrap) "__setup" 1 setup
    hno rfl hsetup hsetupName hknown2 hids2
  have := hb id hid k s h
  omega

/-- An instance of `startLines_from_one`: a job with the steps `a` and `b`; the second
line of `a` carries start line 2. -/
theorem startLines_from_one_witness :
    (startLinesOf "ua"
        (runFormat (fun _ => none)
          (newFormatter {} (timelineWithSteps "job" (fun k => if k = 0 then "ua" else "ub")
            [{ ID := "a" }, { ID := "b" }] (initialTimeline "job" "build" [] "s")))
          [{ rc := { CurrentStep := "__setup" } }, { rc := { CurrentStep := "a" } },
           { rc := { CurrentStep := "a" } }, { rc := { CurrentStep := "b" } }]).2.1)[1]?
      = some 2
    ∧ (2 : Int) = ((1 : Nat) : Int) + 1 :=
  ⟨by decide,
    startLines_from_one (fun _ => none) {}
      (timelineWithSteps "job" (fun k => if k = 0 then "ua" else "ub")
        [{ ID := "a" }, { ID := "b" }] (initialTimeline "job" "build" [] "s"))
      [{ rc := { CurrentStep := "__setup" } }, { rc := { CurrentStep := "a" } },
       { rc := { CurrentStep := "a" } }, { rc := { CurrentStep := "b" } }]
      (initialTimeline "job" "build" [] "s").Value[1]
      (by decide) (by decide) (by decide) (by decide) (by decide) "ua" (by decide) 1 2
      (by decide)⟩
/-! ## Outputs of the job, exponent of the key, scalar tokens -/

/-- C14: the `JobCompleted` event of the normal finalization has no `Outputs` exactly
when the request declared no `jobOutputs`; otherwise `Outputs` has one entry per
entry of the executor's output map, under the same key, with the executor's string
as `Value` and `IsSecret` false. -/
theorem finalizeJob_outputs (f : ghaFormatter) (rc : RunContext) (logId : Int)
    (declared : Bool) (outputs : List (String × GoString)) :
    (finalizeJob f rc logId declared outputs).event.Name = "JobCompleted" ∧
    ((finalizeJob f rc logId declared outputs).event.Outputs = none ↔ declared = false) ∧
    (declared = true →
      (finalizeJob f rc logId declared outputs).event.Outputs
        = some (outputs.map fun kv =>
            (kv.1, ({ Value := kv.2, IsSecret := false } : VariableValue)))) := by
  cases declared <;> simp [finalizeJob]

/-- The value of `exponentBytes` on a natural number below `2^32`, by the first
non-zero byte. -/
theorem exponentBytes_cases (n : Nat) (h1 : 1 ≤ n) (h2 : n < 4294967296) :
    exponentBytes (n : Int) ≠ [] ∧
    (∀ b, (exponentBytes (n : Int)).head? = some b → b ≠ 0) ∧
    (∀ b ∈ exponentBytes (n : Int), b < 256) ∧
    bigEndianValue (exponentBytes (n : Int)) = n := by
  have hn : ((n : Int) % 4294967296).toNat = n := by omega
  unfold exponentBytes
  rw [hn]
  by_cases a : n / 16777216 % 256 = 0 <;> by_cases b : n / 65536 % 256 = 0 <;>
    by_cases c : n / 256 % 256 = 0 <;>
    simp [putUint32, expofLoop, bigEndianValue, a, b, c] <;> omega

/-- C15: for `1 ≤ E < 2^32` the exponent bytes are not empty, start with a non-zero
byte, are bytes, and stand for `E` read most significant byte first. -/
theorem exponentBytes_big_endian (E : Int) (h1 : 1 ≤ E) (h2 : E < 4294967296) :
    exponentBytes E ≠ [] ∧
    (∀ b, (exponentBytes E).head? = some b → b ≠ 0) ∧
    (∀ b ∈ exponentBytes E, b < 256) ∧
    (bigEndianValue (exponentBytes E) : Int) = E := by
  lift E to Nat using (by omega) with n
  have h := exponentBytes_cases n (by omega) (by omega)
  exact ⟨h.1, h.2.1, h.2.2.1, by rw [h.2.2.2]⟩

theorem exponentBytes_big_endian_witness :
    exponentBytes 65537 ≠ [] ∧
    (∀ b, (exponentBytes 65537).head? = some b → b ≠ 0) ∧
    (∀ b ∈ exponentBytes 65537, b < 256) ∧
    (bigEndianValue (exponentBytes 65537) : Int) = 65537 :=
  exponentBytes_big_endian 65537 (by decide) (by decide)

/-- C16, as the code has it: the encoded exponent is `AQAB` for `E = 65537` and the
padded `Aw==` for `E = 3`. -/
theorem exponentString_values :
    exponentString 65537 = "AQAB" ∧ exponentString 3 = "Aw==" := by
  constructor <;> decide

/-- C16 fails as stated: for `E = 3` the encoded exponent is not `Aw`. -/
theorem exponentString_three_padded :
    exponentString 3 = "Aw==" ∧ exponentString 3 ≠ "Aw" := by
  constructor <;> decide

/-- C17, as the code has it: an expression token of text `e` gives the string made of
`$`, two opening braces, `e` and two closing braces, with no space, both as raw
object and as the value of its double-quoted scalar YAML node. -/
theorem expression_serialized_without_spaces (formatFloat : Float64 → String)
    (fi li co : Option Int) (b : Option Bool) (n : Option Float64)
    (lit dir : Option String) (seq : Option (List TemplateToken))
    (map : Option (List MapEntry)) (e : String) :
    (TemplateToken.mk fi li co 3 b n lit (some e) dir seq map).ToRawObject
      = some (RawObject.str ("$\x7b\x7b" ++ e ++ "\x7d\x7d")) ∧
    (TemplateToken.mk fi li co 3 b n lit (some e) dir seq map).ToYamlNode formatFloat
      = some (some (YamlNode.mk YamlKind.ScalarNode YamlStyle.DoubleQuotedStyle
          ("$\x7b\x7b" ++ e ++ "\x7d\x7d") [])) := by
  constructor
  · simp [TemplateToken.ToRawObject]
  · simp [TemplateToken.ToYamlNode]

/-- C17 fails as stated: the expression `x` does not come back with spaces around it,
neither as raw object nor as YAML value. -/
theorem expression_has_no_spaces :
    (TemplateToken.mk none none none 3 none none none (some "x") none none none).ToRawObject
      ≠ some (RawObject.str "$\x7b\x7b x \x7d\x7d") ∧
    ((TemplateToken.mk none none none 3 none none none (some "x") none none none).ToYamlNode
        (fun _ => "")).map (Option.map YamlNode.Value)
      ≠ some (some "$\x7b\x7b x \x7d\x7d") := by
  constructor
  · simp [TemplateToken.ToRawObject]
  · simp [TemplateToken.ToYamlNode, YamlNode.Value]

/-- C18, as the code has it: a fresh token decoded from a JSON scalar other than `null`,
or filled by `FromRawObject` from a raw value other than `nil` and a map with
string keys, has one populated payload field, the one of its tag. -/
theorem fresh_token_one_payload (order : List MapEntry → List MapEntry) :
    (∀ v, v ≠ JsonScalar.null →
      ∃ t, TemplateToken.zero.UnmarshalJSON v = some t ∧ t.populated = [t.Typ]) ∧
    (∀ r, r ≠ RawObject.null → (∀ m, r ≠ RawObject.smap m) →
      (TemplateToken.FromRawObject order TemplateToken.zero r).populated
        = [(TemplateToken.FromRawObject order TemplateToken.zero r).Typ]) := by
  constructor
  · intro v hv
    cases v with
    | null => exact absurd rfl hv
    | bool b => exact ⟨_, rfl, rfl⟩
    | num f => exact ⟨_, rfl, rfl⟩
    | str s => exact ⟨_, rfl, rfl⟩
  · intro r hr hm
    cases r with
    | null => exact absurd rfl hr
    | smap m => exact absurd rfl (hm m)
    | str s => simp [TemplateToken.zero, TemplateToken.FromRawObject, TemplateToken.populated,
        TemplateToken.Typ]
    | seq a => simp [TemplateToken.zero, TemplateToken.FromRawObject, TemplateToken.populated,
        TemplateToken.Typ]
    | imap m => simp [TemplateToken.zero, TemplateToken.FromRawObject, TemplateToken.populated,
        TemplateToken.Typ]
    | bool b => simp [TemplateToken.zero, TemplateToken.FromRawObject, TemplateToken.populated,
        TemplateToken.Typ]
    | num f => simp [TemplateToken.zero, TemplateToken.FromRawObject, TemplateToken.populated,
        TemplateToken.Typ]

/-- C18 fails as stated: the token decoded from the JSON literal `null` has the tag 5
and no payload, and the token filled from the raw value `nil` has the tag 0 and
no payload. -/
theorem null_token_no_payload :
    (∃ t, TemplateToken.zero.UnmarshalJSON JsonScalar.null = some t ∧ t.Typ = 5 ∧
      t.populated = [] ∧ t.populated ≠ [t.Typ]) ∧
    (TemplateToken.FromRawObject id TemplateToken.zero RawObject.null).Typ = 0 ∧
    (TemplateToken.FromRawObject id TemplateToken.zero RawObject.null).populated = [] := by
  refine ⟨⟨_, rfl, rfl, rfl, ?_⟩, ?_, ?_⟩
  · simp [TemplateToken.populated]
  · simp [TemplateToken.zero, TemplateToken.FromRawObject, TemplateToken.Typ]
  · simp [TemplateToken.zero, TemplateToken.FromRawObject, TemplateToken.populated]

/-- C19: `PipelineContextData.UnmarshalJSON` followed by `ToRawObject` gives a boolean
back as the same boolean under tag 3, a number as the same number under tag 4 and
a string as the same string under tag 0, whatever the value decoded into held. -/
theorem pipelineContextData_scalar_roundtrip (ctx : PipelineContextData) :
    (∀ b, ∃ c, ctx.UnmarshalJSON (JsonScalar.bool b) = some c ∧ c.Typ = some 3 ∧
      c.ToRawObject = some (RawObject.bool b)) ∧
    (∀ f, ∃ c, ctx.UnmarshalJSON (JsonScalar.num f) = some c ∧ c.Typ = some 4 ∧
      c.ToRawObject = some (RawObject.num f)) ∧
    (∀ s, ∃ c, ctx.UnmarshalJSON (JsonScalar.str s) = some c ∧ c.Typ = some 0 ∧
      c.ToRawObject = some (RawObject.str s)) := by
  obtain ⟨ty, b0, n0, s0, a0, d0⟩ := ctx
  refine ⟨fun b => ⟨_, rfl, rfl, ?_⟩, fun f => ⟨_, rfl, rfl, ?_⟩, fun s => ⟨_, rfl, rfl, ?_⟩⟩
  · simp [PipelineContextData.ToRawObject]
  · simp [PipelineContextData.ToRawObject]
  · simp [PipelineContextData.ToRawObject]

/-- A sequence of two parts ends with a value only if both do. -/
theorem Translated.bind_eq_ok {α β : Type} (x : Translated α) (g : α → Translated β) (b : β)
    (h : x.bind g = Translated.ok b) : ∃ a, x = Translated.ok a ∧ g a = Translated.ok b := by
  cases x with
  | ok a => exact ⟨a, rfl, h⟩
  | failInit m => simp [Translated.bind] at h
  | silentReturn p => simp [Translated.bind] at h
  | panic => simp [Translated.bind] at h

/-- A string of length zero is the empty string. -/
theorem string_eq_empty_of_length (s : String) (h : ¬ 0 < s.length) : s = "" := by
  have h0 : s.data.length = 0 := by
    have : s.length = s.data.length := rfl
    omega
  exact String.ext (List.length_eq_zero.mp h0)

/-- What `translateStepKind` puts into `Uses` and `Run` of the step it adds. -/
theorem translateStepKind_uses (order : List (RawObject × RawObject) → List (RawObject × RawObject))
    (step : ActionStep) (st : String) (inputs : List (RawObject × RawObject))
    (env : List (String × String)) (wd : String) (continueOnError : Bool) (timeoutMinutes : Int)
    (displayName contextName : String) (s : Step)
    (h : translateStepKind order step st inputs env wd continueOnError timeoutMinutes
      displayName contextName = Translated.ok (some s)) :
    (st = "script" → s.Uses = "") ∧
    (st ≠ "script" → s.Run = "" ∧ s.Uses =
      (if st = "containerregistry" then "docker://" ++ step.Reference.Image
        else if lower step.Reference.RepositoryType = "self" then step.Reference.Path
        else
          (if 0 < step.Reference.Path.length then
              step.Reference.Name ++ "/" ++ step.Reference.Path
            else step.Reference.Name) ++ "@" ++ step.Reference.Ref)) := by
  unfold translateStepKind at h
  by_cases hs : st = "script"
  · rw [if_pos hs] at h
    obtain ⟨shell, -, h2⟩ := Translated.bind_eq_ok _ _ _ h
    refine ⟨fun _ => ?_, fun hne => absurd hs hne⟩
    split at h2
    · simp only [Translated.ok.injEq, Option.some.injEq] at h2
      rw [← h2]
    · simp at h2
  · rw [if_neg hs] at h
    refine ⟨fun he => absurd he hs, fun _ => ?_⟩
    by_cases hk : st = "containerregistry" ∨ st = "repository"
    · rw [if_pos hk] at h
      obtain ⟨withMap, -, h2⟩ := Translated.bind_eq_ok _ _ _ h
      simp only [Translated.ok.injEq, Option.some.injEq] at h2
      rw [← h2]
      exact ⟨rfl, rfl⟩
    · rw [if_neg hk] at h
      simp at h

/-- C20: a wire step that translates to a step has `docker://` followed by the image
as `uses` when its reference type is `containerregistry`; for the type `repository`
it has the path when the repository type is `self` up to case, and otherwise the
name, then `/` and the path if the path is not empty, then `@` and the ref; these
steps have an empty `run`, and a `script` step has an empty `uses`. -/
theorem translateStep_uses (order : List (RawObject × RawObject) → List (RawObject × RawObject))
    (toInt64 : Float64 → Int) (fresh : String) (step : ActionStep) (s : Step)
    (h : translateStep order toInt64 fresh step = Translated.ok (some s)) :
    (lower step.Reference.Typ = "containerregistry" →
      s.Uses = "docker://" ++ step.Reference.Image ∧ s.Run = "") ∧
    (lower step.Reference.Typ = "repository" →
      (lower step.Reference.RepositoryType = "self" → s.Uses = step.Reference.Path) ∧
      (lower step.Reference.RepositoryType ≠ "self" → step.Reference.Path = "" →
        s.Uses = step.Reference.Name ++ "@" ++ step.Reference.Ref) ∧
      (lower step.Reference.RepositoryType ≠ "self" → step.Reference.Path ≠ "" →
        s.Uses = step.Reference.Name ++ "/" ++ step.Reference.Path ++ "@"
          ++ step.Reference.Ref) ∧
      s.Run = "") ∧
    (lower step.Reference.Typ = "script" → s.Uses = "") := by
  unfold translateStep at h
  obtain ⟨inputs, -, h⟩ := Translated.bind_eq_ok _ _ _ h
  obtain ⟨env, -, h⟩ := Translated.bind_eq_ok _ _ _ h
  obtain ⟨wd, -, h⟩ := Translated.bind_eq_ok _ _ _ h
  obtain ⟨continueOnError, -, h⟩ := Translated.bind_eq_ok _ _ _ h
  obtain ⟨timeoutMinutes, -, h⟩ := Translated.bind_eq_ok _ _ _ h
  obtain ⟨displayName, -, h⟩ := Translated.bind_eq_ok _ _ _ h
  obtain ⟨hscript, hother⟩ := translateStepKind_uses _ _ _ _ _ _ _ _ _ _ _ h
  refine ⟨fun ht => ?_, fun ht => ?_, hscript⟩
  · obtain ⟨hrun, huses⟩ := hother (by rw [ht]; decide)
    rw [ht, if_pos rfl] at huses
    exact ⟨huses, hrun⟩
  · obtain ⟨hrun, huses⟩ := hother (by rw [ht]; decide)
    rw [ht, if_neg (by decide)] at huses
    refine ⟨fun hself => ?_, fun hself hp => ?_, fun hself hp => ?_, hrun⟩
    · rw [huses, if_pos hself]
    · rw [huses, if_neg hself, hp]
      rfl
    · rw [huses, if_neg hself, if_pos]
      by_contra hlen
      exact hp (string_eq_empty_of_length _ hlen)

theorem translateStep_uses_witness :
    translateStep id (fun _ => 0) "u"
        { Reference := { Typ := "repository", Name := "actions/checkout", Ref := "v2",
                         Path := "sub" },
          ContextName := "checkout" }
      = Translated.ok (some { ID := "checkout", Uses := "actions/checkout/sub@v2" }) ∧
    ("actions/checkout/sub@v2" : String)
      = "actions/checkout" ++ "/" ++ "sub" ++ "@" ++ "v2" :=
  ⟨rfl,
    ((translateStep_uses id (fun _ => 0) "u"
      { Reference := { Typ := "repository", Name := "actions/checkout", Ref := "v2",
                       Path := "sub" },
        ContextName := "checkout" }
      { ID := "checkout", Uses := "actions/checkout/sub@v2" } rfl).2.1 (by decide)).2.2.1
      (by decide) (by decide)⟩

/-! ## The secrets of a job -/

/-- Reading a list of entries as `lookup` does, by the first entry. -/
theorem lookup_cons_ite {β : Type} (k1 : String) (v1 : β) (rest : List (String × β))
    (key : String) :
    ((k1, v1) :: rest).lookup key = if key = k1 then some v1 else rest.lookup key := by
  by_cases h : key = k1
  · subst h
    simp [List.lookup_cons]
  · have hb : (key == k1) = false := by simpa using h
    rw [if_neg h, List.lookup_cons, hb]

/-- Reading a Go map after the assignment `m[k] = v`. -/
theorem lookup_goMapAssign {β : Type} (m : List (String × β)) (k : String) (v : β)
    (key : String) :
    (goMapAssign m k v).lookup key = if key = k then some v else m.lookup key := by
  induction m with
  | nil =>
    simp only [goMapAssign, lookup_cons_ite]
  | cons e rest ih =>
    obtain ⟨k1, v1⟩ := e
    unfold goMapAssign
    by_cases h1 : k1 = k
    · subst h1
      rw [if_pos rfl, lookup_cons_ite, lookup_cons_ite]
      by_cases h : key = k1 <;> simp [h]
    · rw [if_neg h1, lookup_cons_ite, lookup_cons_ite, ih]
      by_cases h : key = k
      · subst h
        have h2 : ¬ key = k1 := fun e => h1 e.symm
        simp [h2]
      · simp [h]

/-- In a list without two equal keys, an entry is what `lookup` finds under its key. -/
theorem lookup_of_mem_of_nodup {β : Type} :
    ∀ (l : List (String × β)) (k : String) (v : β), (l.map Prod.fst).Nodup → (k, v) ∈ l →
      l.lookup k = some v
  | [], _, _, _, h => by simp at h
  | (k1, v1) :: rest, k, v, hn, h => by
    simp only [List.map_cons, List.nodup_cons, List.mem_map, not_exists, not_and] at hn
    simp only [List.mem_cons, Prod.mk.injEq] at h
    rcases h with ⟨hk, hv⟩ | h
    · subst hk
      subst hv
      rw [lookup_cons_ite, if_pos rfl]
    · have hne : ¬ k = k1 := fun e => hn.1 (k, v) h e
      rw [lookup_cons_ite, if_neg hne]
      exact lookup_of_mem_of_nodup rest k v hn.2 h

/-- The loop over the variables leaves a name alone that no secret variable it copies
has. -/
theorem secretsLoop_lookup_of_not_copied (key : String) :
    ∀ (vars : List (String × VariableValue)) (acc : List (String × GoString)),
      (∀ k v, (k, v) ∈ vars → v.IsSecret = true → k ≠ "system.github.token" → k ≠ key) →
      (secretsLoop vars acc).lookup key = acc.lookup key
  | [], _, _ => rfl
  | (k1, v1) :: rest, acc, h => by
    have hrest : ∀ k v, (k, v) ∈ rest → v.IsSecret = true → k ≠ "system.github.token" →
        k ≠ key := fun k v hm => h k v (List.mem_cons_of_mem _ hm)
    unfold secretsLoop
    by_cases hc : v1.IsSecret = true ∧ k1 ≠ "system.github.token"
    · rw [if_pos hc, secretsLoop_lookup_of_not_copied key rest _ hrest, lookup_goMapAssign]
      have hne : ¬ key = k1 := fun e => h k1 v1 (List.mem_cons_self _ _) hc.1 hc.2 e.symm
      rw [if_neg hne]
    · rw [if_neg hc, secretsLoop_lookup_of_not_copied key rest _ hrest]

/-- The loop over the variables stores a secret variable other than
`system.github.token` under its name. -/
theorem secretsLoop_lookup_of_mem :
    ∀ (vars : List (String × VariableValue)) (acc : List (String × GoString)) (k : String)
      (v : VariableValue), (vars.map Prod.fst).Nodup → (k, v) ∈ vars → v.IsSecret = true →
      k ≠ "system.github.token" → (secretsLoop vars acc).lookup k = some v.Value
  | [], _, _, _, _, h, _, _ => by simp at h
  | (k1, v1) :: rest, acc, k, v, hn, h, hs, hk => by
    simp only [List.map_cons, List.nodup_cons, List.mem_map, not_exists, not_and] at hn
    simp only [List.mem_cons, Prod.mk.injEq] at h
    unfold secretsLoop
    rcases h with ⟨hk1, hv1⟩ | h
    · subst hk1
      subst hv1
      rw [if_pos ⟨hs, hk⟩, secretsLoop_lookup_of_not_copied k rest _
        (fun k2 v2 hm _ _ e => hn.1 (k2, v2) hm e), lookup_goMapAssign, if_pos rfl]
    · by_cases hc : v1.IsSecret = true ∧ k1 ≠ "system.github.token"
      · rw [if_pos hc]
        exact secretsLoop_lookup_of_mem rest _ k v hn.2 h hs hk
      · rw [if_neg hc]
        exact secretsLoop_lookup_of_mem rest _ k v hn.2 h hs hk

/-- The secrets map when `system.github.token` is a variable. -/
theorem jobSecrets_of_token (vars : List (String × VariableValue)) (t : VariableValue)
    (ht : vars.lookup "system.github.token" = some t) :
    jobSecrets (some vars) = goMapAssign (secretsLoop vars []) "GITHUB_TOKEN" t.Value := by
  simp [jobSecrets, ht]

/-- The secrets map when `system.github.token` is not a variable. -/
theorem jobSecrets_of_no_token (vars : List (String × VariableValue))
    (ht : vars.lookup "system.github.token" = none) :
    jobSecrets (some vars) = secretsLoop vars [] := by
  simp [jobSecrets, ht]

/-- C11, as the code has it: in the secrets map, a secret variable other than
`system.github.token` is under its own name with its own value, unless its name is
`GITHUB_TOKEN` and `system.github.token` is present; the value of
`system.github.token`, when present, is under `GITHUB_TOKEN`; and nothing is under
`system.github.token`. The variables are a map: no two have the same name. -/
theorem jobSecrets_spec (vars : List (String × VariableValue))
    (hnodup : (vars.map Prod.fst).Nodup) :
    (∀ k v, (k, v) ∈ vars → v.IsSecret = true → k ≠ "system.github.token" →
      (k ≠ "GITHUB_TOKEN" ∨ vars.lookup "system.github.token" = none) →
      (jobSecrets (some vars)).lookup k = some v.Value) ∧
    (∀ t, ("system.github.token", t) ∈ vars →
      (jobSecrets (some vars)).lookup "GITHUB_TOKEN" = some t.Value) ∧
    (jobSecrets (some vars)).lookup "system.github.token" = none := by
  have hsys : ∀ acc : List (String × GoString),
      (secretsLoop vars acc).lookup "system.github.token" = acc.lookup "system.github.token" :=
    fun acc => secretsLoop_lookup_of_not_copied _ vars acc (fun k v _ _ hk => hk)
  refine ⟨fun k v hm hs hk hg => ?_, fun t hm => ?_, ?_⟩
  · have hl := secretsLoop_lookup_of_mem vars [] k v hnodup hm hs hk
    cases ht : vars.lookup "system.github.token" with
    | none => rw [jobSecrets_of_no_token vars ht, hl]
    | some t =>
      rcases hg with hg | hg
      · rw [jobSecrets_of_token vars t ht, lookup_goMapAssign, if_neg hg, hl]
      · rw [ht] at hg
        simp at hg
  · rw [jobSecrets_of_token vars t (lookup_of_mem_of_nodup vars _ t hnodup hm),
      lookup_goMapAssign, if_pos rfl]
  · cases ht : vars.lookup "system.github.token" with
    | none =>
      rw [jobSecrets_of_no_token vars ht, hsys]
      rfl
    | some t =>
      rw [jobSecrets_of_token vars t ht, lookup_goMapAssign, if_neg (by decide), hsys]
      rfl

theorem jobSecrets_spec_witness :
    (jobSecrets (some [("PASSWORD", { Value := [112], IsSecret := true }),
        ("system.github.token", { Value := [116], IsSecret := false }),
        ("plain", { Value := [120], IsSecret := false })])).lookup "PASSWORD" = some [112] ∧
    (jobSecrets (some [("PASSWORD", { Value := [112], IsSecret := true }),
        ("system.github.token", { Value := [116], IsSecret := false }),
        ("plain", { Value := [120], IsSecret := false })])).lookup "GITHUB_TOKEN" = some [116] ∧
    (jobSecrets (some [("PASSWORD", { Value := [112], IsSecret := true }),
        ("system.github.token", { Value := [116], IsSecret := false }),
        ("plain", { Value := [120], IsSecret := false })])).lookup "system.github.token"
      = none :=
  have h := jobSecrets_spec
    [("PASSWORD", { Value := [112], IsSecret := true }),
     ("system.github.token", { Value := [116], IsSecret := false }),
     ("plain", { Value := [120], IsSecret := false })] (by decide)
  ⟨h.1 "PASSWORD" { Value := [112], IsSecret := true } (by simp) rfl (by decide)
      (Or.inl (by decide)),
    h.2.1 { Value := [116], IsSecret := false } (by simp), h.2.2⟩

/-- C11 fails as stated: a secret variable named `GITHUB_TOKEN` next to
`system.github.token` is not in the secrets map with its own value, the value of
`system.github.token` is there in its place. -/
theorem jobSecrets_github_token_overwritten :
    (jobSecrets (some [("GITHUB_TOKEN", { Value := [97], IsSecret := true }),
        ("system.github.token", { Value := [98], IsSecret := false })])).lookup "GITHUB_TOKEN"
      = some [98] ∧
    (jobSecrets (some [("GITHUB_TOKEN", { Value := [97], IsSecret := true }),
        ("system.github.token", { Value := [98], IsSecret := false })])).lookup "GITHUB_TOKEN"
      ≠ some [97] := by
  constructor <;> decide

/-! ## The matrix of a job -/

/-- The matrix when the context data has no entry `matrix`. -/
theorem jobMatrix_of_absent (contextData : List (String × PipelineContextData))
    (hl : contextData.lookup "matrix" = none) : jobMatrix contextData = Translated.ok [] := by
  simp [jobMatrix, hl]

/-- The matrix when the method `ToRawObject` panics on the entry `matrix`. -/
theorem jobMatrix_of_panic (contextData : List (String × PipelineContextData))
    (d : PipelineContextData) (hl : contextData.lookup "matrix" = some d)
    (hr : d.ToRawObject = none) : jobMatrix contextData = Translated.panic := by
  simp [jobMatrix, hl, hr]

/-- The matrix by the raw object of the entry `matrix`. -/
theorem jobMatrix_of_raw (contextData : List (String × PipelineContextData))
    (d : PipelineContextData) (r : RawObject) (hl : contextData.lookup "matrix" = some d)
    (hr : d.ToRawObject = some r) :
    jobMatrix contextData =
      match r with
      | RawObject.smap tmpmatrix => Translated.ok tmpmatrix
      | RawObject.null => Translated.ok []
      | _ => Translated.failInit "matrix: not a map" := by
  cases r <;> simp [jobMatrix, hl, hr]

/-- C12: the translation of the matrix ends in the init failure `matrix: not a map`
exactly when the context data has an entry `matrix` whose raw object is neither a
dictionary nor `nil`; a dictionary is handed over as its raw map; without an entry,
or with one whose raw object is `nil`, the matrix is empty. -/
theorem jobMatrix_spec (contextData : List (String × PipelineContextData)) :
    (jobMatrix contextData = Translated.failInit "matrix: not a map" ↔
      ∃ d r, contextData.lookup "matrix" = some d ∧ d.ToRawObject = some r ∧
        (∀ m, r ≠ RawObject.smap m) ∧ r ≠ RawObject.null) ∧
    (∀ d m, contextData.lookup "matrix" = some d → d.ToRawObject = some (RawObject.smap m) →
      jobMatrix contextData = Translated.ok m) ∧
    (contextData.lookup "matrix" = none → jobMatrix contextData = Translated.ok []) ∧
    (∀ d, contextData.lookup "matrix" = some d → d.ToRawObject = some RawObject.null →
      jobMatrix contextData = Translated.ok []) := by
  refine ⟨⟨fun h => ?_, fun h => ?_⟩, fun d m hl hr => ?_, jobMatrix_of_absent contextData,
    fun d hl hr => ?_⟩
  · cases hl : contextData.lookup "matrix" with
    | none =>
      rw [jobMatrix_of_absent contextData hl] at h
      simp at h
    | some d =>
      cases hr : d.ToRawObject with
      | none =>
        rw [jobMatrix_of_panic contextData d hl hr] at h
        simp at h
      | some r =>
        rw [jobMatrix_of_raw contextData d r hl hr] at h
        refine ⟨d, r, rfl, hr, ?_, ?_⟩
        · intro m hm
          subst hm
          simp at h
        · intro hn
          subst hn
          simp at h
  · obtain ⟨d, r, hl, hr, hsmap, hnull⟩ := h
    rw [jobMatrix_of_raw contextData d r hl hr]
    cases r with
    | smap m => exact absurd rfl (hsmap m)
    | null => exact absurd rfl hnull
    | str s => rfl
    | seq a => rfl
    | imap m => rfl
    | bool b => rfl
    | num f => rfl
  · rw [jobMatrix_of_raw contextData d _ hl hr]
  · rw [jobMatrix_of_raw contextData d _ hl hr]

/-! ## The environment of a job -/

/-- The assignment on a `map[string]string` is the assignment on a Go map with
`string` keys. -/
theorem strMapAssign_eq_goMapAssign (m : List (String × String)) (k v : String) :
    strMapAssign m k v = goMapAssign m k v := by
  induction m with
  | nil => rfl
  | cons e rest ih =>
    obtain ⟨k1, v1⟩ := e
    simp only [strMapAssign, goMapAssign, ih]

/-- Reading a `map[string]string` after the assignment `m[k] = v`. -/
theorem lookup_strMapAssign (m : List (String × String)) (k v key : String) :
    (strMapAssign m k v).lookup key = if key = k then some v else m.lookup key := by
  rw [strMapAssign_eq_goMapAssign, lookup_goMapAssign]

/-- The raw maps of strings are those whose entries are pairs of strings. -/
theorem allStrings_iff : ∀ (l : List (RawObject × RawObject)),
    allStrings l = true ↔ ∀ e ∈ l, ∃ k v, e = (RawObject.str k, RawObject.str v)
  | [] => by simp [allStrings]
  | (k1, v1) :: rest => by
    cases k1 <;> cases v1 <;> simp [allStrings, allStrings_iff rest]

/-- Visiting the entries in another order does not change whether all are strings. -/
theorem allStrings_perm (l1 l2 : List (RawObject × RawObject)) (h : l1.Perm l2) :
    allStrings l1 = allStrings l2 := by
  rw [Bool.eq_iff_iff, allStrings_iff, allStrings_iff]
  exact ⟨fun h1 e he => h1 e (h.mem_iff.mpr he), fun h2 e he => h2 e (h.mem_iff.mp he)⟩

/-- A key is equal to a string, as a map compares keys, only if it is that string. -/
theorem rawKeyEq_str_iff (k : RawObject) (key : String) :
    rawKeyEq k (RawObject.str key) = true ↔ k = RawObject.str key := by
  cases k <;> simp [rawKeyEq]

/-- The string keys of a raw map with one more entry in front. -/
theorem strKeys_cons (k v : RawObject) (rest : List (RawObject × RawObject)) :
    strKeys ((k, v) :: rest) = (strKey k).toList ++ strKeys rest := by
  cases k <;> simp [strKeys, strKey, List.filterMap_cons]

/-- The key of an entry of strings is among the string keys. -/
theorem mem_strKeys_of_mem (key : String) (v : RawObject) :
    ∀ (l : List (RawObject × RawObject)), (RawObject.str key, v) ∈ l → key ∈ strKeys l := by
  intro l h
  unfold strKeys
  rw [List.mem_filterMap]
  exact ⟨_, h, rfl⟩

/-- A raw map has nothing under a string that is not among its string keys. -/
theorem mapLookup_none_of_not_mem (key : String) :
    ∀ (l : List (RawObject × RawObject)), key ∉ strKeys l →
      mapLookup l (RawObject.str key) = none
  | [], _ => rfl
  | (k1, v1) :: rest, h => by
    rw [strKeys_cons] at h
    simp only [List.mem_append, not_or] at h
    unfold mapLookup
    have hne : ¬ rawKeyEq k1 (RawObject.str key) = true := by
      rw [rawKeyEq_str_iff]
      intro e
      subst e
      exact h.1 (by simp [strKey])
    rw [if_neg hne]
    exact mapLookup_none_of_not_mem key rest h.2

/-- Reading a raw map by its first entry. -/
theorem mapLookup_cons (k1 v1 : RawObject) (rest : List (RawObject × RawObject))
    (k : RawObject) :
    mapLookup ((k1, v1) :: rest) k = if rawKeyEq k1 k then some v1 else mapLookup rest k :=
  rfl

/-- Reading a raw map of strings by its first entry. -/
theorem strLookup_cons_str (k v : String) (rest : List (RawObject × RawObject))
    (key : String) :
    strLookup ((RawObject.str k, RawObject.str v) :: rest) key
      = if key = k then some v else strLookup rest key := by
  simp only [strLookup, mapLookup_cons]
  by_cases h : key = k
  · subst h
    simp [rawKeyEq]
  · have h2 : ¬ k = key := fun e => h e.symm
    simp [rawKeyEq, h, h2]

/-- The copy loop over a raw map of strings without two equal keys ends with a map
that has the entries of the raw map, and under any other key what it had. -/
theorem rangeStringMap_of_allStrings (onKey onValue : Translated (List (String × String))) :
    ∀ (l : List (RawObject × RawObject)) (acc : List (String × String)),
      allStrings l = true → (strKeys l).Nodup →
      ∃ env1, rangeStringMap onKey onValue l acc = Translated.ok env1 ∧
        ∀ key, env1.lookup key =
          match strLookup l key with
          | some v => some v
          | none => acc.lookup key
  | [], acc, _, _ => ⟨acc, rfl, fun _ => rfl⟩
  | (k1, v1) :: rest, acc, hs, hn => by
    obtain ⟨k, v, he⟩ := (allStrings_iff _).mp hs (k1, v1) (List.mem_cons_self _ _)
    simp only [Prod.mk.injEq] at he
    obtain ⟨hk, hv⟩ := he
    subst hk
    subst hv
    have hs2 : allStrings rest = true := by simpa [allStrings] using hs
    rw [strKeys_cons] at hn
    simp only [strKey, Option.toList_some, List.singleton_append, List.nodup_cons] at hn
    obtain ⟨env1, h1, h2⟩ := rangeStringMap_of_allStrings onKey onValue rest
      (strMapAssign acc k v) hs2 hn.2
    refine ⟨env1, by simpa [rangeStringMap] using h1, fun key => ?_⟩
    rw [h2 key, strLookup_cons_str, lookup_strMapAssign]
    by_cases hkey : key = k
    · subst hkey
      have hnone : strLookup rest key = none := by
        simp [strLookup, mapLookup_none_of_not_mem key rest hn.1]
      simp [hnone]
    · simp [hkey]

/-- In a raw map of strings without two equal keys, an entry is what is read under
its key. -/
theorem strLookup_eq_some_iff (key v : String) :
    ∀ (l : List (RawObject × RawObject)), allStrings l = true → (strKeys l).Nodup →
      (strLookup l key = some v ↔ (RawObject.str key, RawObject.str v) ∈ l)
  | [], _, _ => by simp [strLookup, mapLookup]
  | (k1, v1) :: rest, hs, hn => by
    obtain ⟨k, v0, he⟩ := (allStrings_iff _).mp hs (k1, v1) (List.mem_cons_self _ _)
    simp only [Prod.mk.injEq] at he
    obtain ⟨hk, hv⟩ := he
    subst hk
    subst hv
    have hs2 : allStrings rest = true := by simpa [allStrings] using hs
    rw [strKeys_cons] at hn
    simp only [strKey, Option.toList_some, List.singleton_append, List.nodup_cons] at hn
    have ih := strLookup_eq_some_iff key v rest hs2 hn.2
    rw [strLookup_cons_str]
    by_cases hkey : key = k
    · subst hkey
      have hnot : (RawObject.str key, RawObject.str v) ∉ rest :=
        fun hm => hn.1 (mem_strKeys_of_mem key _ rest hm)
      simp only [if_pos, Option.some.injEq, List.mem_cons, Prod.mk.injEq, RawObject.str.injEq,
        true_and, hnot, or_false]
      exact eq_comm
    · simp [hkey, ih]

/-- Reading a raw map of strings does not depend on the order of its entries. -/
theorem strLookup_perm (l1 l2 : List (RawObject × RawObject)) (h : l1.Perm l2)
    (hs : allStrings l2 = true) (hn : (strKeys l2).Nodup) (key : String) :
    strLookup l1 key = strLookup l2 key := by
  have hs1 : allStrings l1 = true := by rw [allStrings_perm l1 l2 h, hs]
  have hn1 : (strKeys l1).Nodup := (h.filterMap _).nodup_iff.mpr hn
  cases h1 : strLookup l1 key with
  | some v =>
    have := (strLookup_eq_some_iff key v l2 hs hn).mpr
      (h.mem_iff.mp ((strLookup_eq_some_iff key v l1 hs1 hn1).mp h1))
    rw [this]
  | none =>
    cases h2 : strLookup l2 key with
    | none => rfl
    | some v =>
      have := (strLookup_eq_some_iff key v l1 hs1 hn1).mpr
        (h.mem_iff.mpr ((strLookup_eq_some_iff key v l2 hs hn).mp h2))
      rw [h1] at this
      simp at this

/-- A string among the string keys after an assignment was there before or is the
key assigned. -/
theorem mem_strKeys_mapAssign (a : String) (k v : RawObject) :
    ∀ (m : List (RawObject × RawObject)), a ∈ strKeys (mapAssign m k v) →
      a ∈ strKeys m ∨ k = RawObject.str a
  | [], h => by
    simp only [mapAssign, strKeys_cons, strKeys, List.filterMap_nil, List.append_nil,
      Option.mem_toList, Option.mem_def] at h
    right
    cases k <;> simp_all [strKey]
  | (k1, v1) :: rest, h => by
    unfold mapAssign at h
    by_cases hc : rawKeyEq k1 k = true
    · rw [if_pos hc, strKeys_cons] at h
      simp only [List.mem_append, Option.mem_toList, Option.mem_def] at h
      rcases h with h | h
      · right
        cases k <;> simp_all [strKey]
      · left
        rw [strKeys_cons]
        exact List.mem_append_right _ h
    · rw [if_neg hc, strKeys_cons] at h
      simp only [List.mem_append] at h
      rcases h with h | h
      · left
        rw [strKeys_cons]
        exact List.mem_append_left _ h
      · rcases mem_strKeys_mapAssign a k v rest h with h | h
        · left
          rw [strKeys_cons]
          exact List.mem_append_right _ h
        · exact Or.inr h

/-- Two keys a map takes for equal are the same string or no strings. -/
theorem strKey_eq_of_rawKeyEq (k1 k : RawObject) (h : rawKeyEq k1 k = true) :
    strKey k1 = strKey k := by
  cases k1 <;> cases k <;> simp_all [rawKeyEq, strKey]

/-- An assignment keeps the string keys of a raw map distinct. -/
theorem nodup_strKeys_mapAssign (k v : RawObject) :
    ∀ (m : List (RawObject × RawObject)), (strKeys m).Nodup →
      (strKeys (mapAssign m k v)).Nodup
  | [], _ => by
    cases k <;> simp [mapAssign, strKeys, strKey]
  | (k1, v1) :: rest, hn => by
    unfold mapAssign
    by_cases hc : rawKeyEq k1 k = true
    · rw [if_pos hc, strKeys_cons, ← strKey_eq_of_rawKeyEq k1 k hc, ← strKeys_cons k1 v1]
      exact hn
    · rw [if_neg hc, strKeys_cons]
      rw [strKeys_cons] at hn
      have ih := nodup_strKeys_mapAssign k v rest (List.Nodup.of_append_right hn)
      cases hk1 : strKey k1 with
      | none => simpa using ih
      | some a =>
        have ha : k1 = RawObject.str a := by
          cases k1 <;> simp_all [strKey]
        rw [hk1] at hn
        simp only [Option.toList_some, List.singleton_append, List.nodup_cons] at hn ⊢
        refine ⟨fun hm => ?_, ih⟩
        rcases mem_strKeys_mapAssign a k v rest hm with h | h
        · exact hn.1 h
        · apply hc
          rw [ha, h]
          simp [rawKeyEq]

/-- The loop that builds the raw map of a mapping token keeps its string keys
distinct. -/
theorem nodup_strKeys_mapToRaw :
    ∀ (es : List (Option TemplateToken × Option TemplateToken))
      (m0 m : List (RawObject × RawObject)),
      mapToRaw es m0 = some m → (strKeys m0).Nodup → (strKeys m).Nodup
  | [], m0, m, h, hn => by
    simp only [mapToRaw, Option.some.injEq] at h
    rw [← h]
    exact hn
  | (none, _) :: es, m0, m, h, _ => by simp [mapToRaw] at h
  | (some _, none) :: es, m0, m, h, _ => by simp [mapToRaw] at h
  | (some k, some v) :: es, m0, m, h, hn => by
    simp only [mapToRaw] at h
    cases hk : k.ToRawObject with
    | none => simp [hk] at h
    | some rk =>
      cases hv : v.ToRawObject with
      | none => simp [hk, hv] at h
      | some rv =>
        simp only [hk, hv] at h
        by_cases hh : rk.hashable = true
        · rw [if_pos hh] at h
          exact nodup_strKeys_mapToRaw es _ m h (nodup_strKeys_mapAssign rk rv m0 hn)
        · rw [if_neg hh] at h
          simp at h

/-- The raw map of a token has no two equal string keys. -/
theorem nodup_strKeys_of_ToRawObject (tok : TemplateToken) (m : List (RawObject × RawObject))
    (h : tok.ToRawObject = some (RawObject.imap m)) : (strKeys m).Nodup := by
  obtain ⟨fi, li, co, ty, b, n, lit, ex, di, sq, mp⟩ := tok
  unfold TemplateToken.ToRawObject at h
  by_cases h2 : ty = 2
  · subst h2
    simp only [show ¬ ((2 : Int) = 0) by decide, show ¬ ((2 : Int) = 1) by decide, if_false,
      if_true] at h
    cases mp with
    | none => simp at h
    | some es =>
      simp only [Option.map_eq_some'] at h
      obtain ⟨m1, hm1, he⟩ := h
      simp only [RawObject.imap.injEq] at he
      subst he
      exact nodup_strKeys_mapToRaw es [] m1 hm1 (by simp [strKeys])
  · split_ifs at h <;> first
      | (cases lit <;> simp at h)
      | (cases sq with
          | none => simp at h
          | some l => cases hh : seqToRaw l <;> simp [hh] at h)

/-- The raw object of an entry of `environmentVariables` that is a map of strings. -/
theorem envEntryMap_eq_some (e : TemplateToken) (m : List (RawObject × RawObject))
    (h : envEntryMap e = some m) :
    e.ToRawObject = some (RawObject.imap m) ∧ allStrings m = true := by
  unfold envEntryMap at h
  split at h
  · rename_i m1 hr
    by_cases hs : allStrings m1 = true
    · rw [if_pos hs] at h
      cases h
      exact ⟨hr, hs⟩
    · rw [if_neg hs] at h
      simp at h
  · simp at h

/-- The loop over `environmentVariables`, when every entry is a map of strings, ends
with a map that has under a key the value of the last entry that defines it, and
what it had under a key that no entry defines. -/
theorem envLoop_of_maps (order : List (RawObject × RawObject) → List (RawObject × RawObject))
    (horder : ∀ l, (order l).Perm l) :
    ∀ (entries : List TemplateToken) (env0 : List (String × String)),
      (∀ e ∈ entries, (envEntryMap e).isSome = true) →
      ∃ env, envLoop order entries env0 = Translated.ok env ∧
        ∀ key, env.lookup key =
          match lastDefined (entries.filterMap envEntryMap) key with
          | some v => some v
          | none => env0.lookup key
  | [], env0, _ => ⟨env0, rfl, fun _ => rfl⟩
  | e :: rest, env0, h => by
    obtain ⟨m, hm⟩ := Option.isSome_iff_exists.mp (h e (List.mem_cons_self _ _))
    obtain ⟨hr, hs⟩ := envEntryMap_eq_some e m hm
    have hn : (strKeys m).Nodup := nodup_strKeys_of_ToRawObject e m hr
    have hso : allStrings (order m) = true := by rw [allStrings_perm _ _ (horder m), hs]
    have hno : (strKeys (order m)).Nodup := ((horder m).filterMap _).nodup_iff.mpr hn
    obtain ⟨env1, h1, h2⟩ := rangeStringMap_of_allStrings
      (Translated.failInit "env key: act doesn't support non strings")
      (Translated.failInit "env value: act doesn't support non strings")
      (order m) env0 hso hno
    obtain ⟨env, h3, h4⟩ := envLoop_of_maps order horder rest env1
      (fun e1 he1 => h e1 (List.mem_cons_of_mem _ he1))
    refine ⟨env, ?_, fun key => ?_⟩
    · simp only [envLoop, tokenAsMap, hr, Translated.bind, h1]
      exact h3
    · rw [h4 key, h2 key, strLookup_perm _ _ (horder m) hs hn, List.filterMap_cons_some hm]
      simp only [lastDefined]
      cases lastDefined (rest.filterMap envEntryMap) key <;> rfl

/-- The copy loop ends with a map, with `onKey` or with `onValue`, and not with a
map when some key or value is not a string. -/
theorem rangeStringMap_cases (onKey onValue : Translated (List (String × String))) :
    ∀ (l : List (RawObject × RawObject)) (acc : List (String × String)),
      (allStrings l = true ∧ ∃ env1, rangeStringMap onKey onValue l acc = Translated.ok env1) ∨
      (allStrings l = false ∧
        (rangeStringMap onKey onValue l acc = onKey ∨
          rangeStringMap onKey onValue l acc = onValue))
  | [], acc => Or.inl ⟨rfl, acc, rfl⟩
  | (k1, v1) :: rest, acc => by
    cases k1 with
    | str k =>
      cases v1 with
      | str v =>
        simp only [allStrings, rangeStringMap]
        exact rangeStringMap_cases onKey onValue rest _
      | null => exact Or.inr ⟨rfl, Or.inr rfl⟩
      | seq a => exact Or.inr ⟨rfl, Or.inr rfl⟩
      | imap m => exact Or.inr ⟨rfl, Or.inr rfl⟩
      | smap m => exact Or.inr ⟨rfl, Or.inr rfl⟩
      | bool b => exact Or.inr ⟨rfl, Or.inr rfl⟩
      | num f => exact Or.inr ⟨rfl, Or.inr rfl⟩
    | null => exact Or.inr ⟨rfl, Or.inl rfl⟩
    | seq a => exact Or.inr ⟨rfl, Or.inl rfl⟩
    | imap m => exact Or.inr ⟨rfl, Or.inl rfl⟩
    | smap m => exact Or.inr ⟨rfl, Or.inl rfl⟩
    | bool b => exact Or.inr ⟨rfl, Or.inl rfl⟩
    | num f => exact Or.inr ⟨rfl, Or.inl rfl⟩

/-- The loop over `environmentVariables` ends in a panic or in a call of `failInitJob`
when an entry is not a map of strings. -/
theorem envLoop_of_bad_entry (order : List (RawObject × RawObject) → List (RawObject × RawObject))
    (horder : ∀ l, (order l).Perm l) :
    ∀ (entries : List TemplateToken) (env0 : List (String × String)),
      (∃ e ∈ entries, envEntryMap e = none) →
      envLoop order entries env0 = Translated.panic ∨
      envLoop order entries env0 = Translated.failInit "env: not a map" ∨
      envLoop order entries env0
        = Translated.failInit "env key: act doesn't support non strings" ∨
      envLoop order entries env0
        = Translated.failInit "env value: act doesn't support non strings"
  | [], _, h => by simp at h
  | e :: rest, env0, h => by
    cases hr : e.ToRawObject with
    | none => exact Or.inl (by simp [envLoop, tokenAsMap, hr, Translated.bind])
    | some r =>
      cases r with
      | imap m =>
        rcases rangeStringMap_cases
          (Translated.failInit "env key: act doesn't support non strings")
          (Translated.failInit "env value: act doesn't support non strings")
          (order m) env0 with ⟨hs, env1, h1⟩ | ⟨-, h1 | h1⟩
        · have hm : envEntryMap e = some m := by
            rw [allStrings_perm _ _ (horder m)] at hs
            simp [envEntryMap, hr, hs]
          have hrest : ∃ e1 ∈ rest, envEntryMap e1 = none := by
            obtain ⟨e1, he1, hb⟩ := h
            simp only [List.mem_cons] at he1
            rcases he1 with he1 | he1
            · subst he1
              rw [hm] at hb
              simp at hb
            · exact ⟨e1, he1, hb⟩
          have ih := envLoop_of_bad_entry order horder rest env1 hrest
          have hstep : envLoop order (e :: rest) env0 = envLoop order rest env1 := by
            simp only [envLoop, tokenAsMap, hr, Translated.bind, h1]
          rw [hstep]
          exact ih
        · exact Or.inr (Or.inr (Or.inl
            (by simp only [envLoop, tokenAsMap, hr, Translated.bind, h1])))
        · exact Or.inr (Or.inr (Or.inr
            (by simp only [envLoop, tokenAsMap, hr, Translated.bind, h1])))
      | null => exact Or.inr (Or.inl (by simp [envLoop, tokenAsMap, hr, Translated.bind]))
      | str s => exact Or.inr (Or.inl (by simp [envLoop, tokenAsMap, hr, Translated.bind]))
      | seq a => exact Or.inr (Or.inl (by simp [envLoop, tokenAsMap, hr, Translated.bind]))
      | smap m => exact Or.inr (Or.inl (by simp [envLoop, tokenAsMap, hr, Translated.bind]))
      | bool b => exact Or.inr (Or.inl (by simp [envLoop, tokenAsMap, hr, Translated.bind]))
      | num f => exact Or.inr (Or.inl (by simp [envLoop, tokenAsMap, hr, Translated.bind]))

/-- The job environment is the loop over the entries followed by the three
assignments; a `nil` slice is a loop over no entry. -/
theorem jobEnv_eq (order : List (RawObject × RawObject) → List (RawObject × RawObject))
    (environmentVariables : Option (List TemplateToken)) (jobTenant jobToken cacheUrl : String) :
    jobEnv order environmentVariables jobTenant jobToken cacheUrl =
      (envLoop order (environmentVariables.getD []) []).bind fun env =>
        Translated.ok
          (if 0 < cacheUrl.length then
            strMapAssign (strMapAssign (strMapAssign env "ACTIONS_RUNTIME_URL" jobTenant)
              "ACTIONS_RUNTIME_TOKEN" jobToken) "ACTIONS_CACHE_URL" cacheUrl
          else
            strMapAssign (strMapAssign env "ACTIONS_RUNTIME_URL" jobTenant)
              "ACTIONS_RUNTIME_TOKEN" jobToken) := by
  cases environmentVariables <;> rfl

/-- Reading the job environment after the three assignments. -/
theorem lookup_injected (env : List (String × String)) (jobTenant jobToken cacheUrl : String)
    (key : String) :
    (if 0 < cacheUrl.length then
        strMapAssign (strMapAssign (strMapAssign env "ACTIONS_RUNTIME_URL" jobTenant)
          "ACTIONS_RUNTIME_TOKEN" jobToken) "ACTIONS_CACHE_URL" cacheUrl
      else
        strMapAssign (strMapAssign env "ACTIONS_RUNTIME_URL" jobTenant)
          "ACTIONS_RUNTIME_TOKEN" jobToken).lookup key
      = if key = "ACTIONS_RUNTIME_URL" then some jobTenant
        else if key = "ACTIONS_RUNTIME_TOKEN" then some jobToken
        else if key = "ACTIONS_CACHE_URL" ∧ cacheUrl ≠ "" then some cacheUrl
        else env.lookup key := by
  by_cases hlen : 0 < cacheUrl.length
  · have hne : cacheUrl ≠ "" := by
      intro e
      subst e
      exact absurd hlen (by decide)
    rw [if_pos hlen]
    simp only [lookup_strMapAssign]
    by_cases h1 : key = "ACTIONS_RUNTIME_URL"
    · subst h1
      simp
    · by_cases h2 : key = "ACTIONS_RUNTIME_TOKEN"
      · subst h2
        simp
      · by_cases h3 : key = "ACTIONS_CACHE_URL" <;> simp [h1, h2, h3, hne]
  · have he : cacheUrl = "" := string_eq_empty_of_length _ hlen
    rw [if_neg hlen]
    simp only [lookup_strMapAssign]
    by_cases h1 : key = "ACTIONS_RUNTIME_URL"
    · subst h1
      simp
    · by_cases h2 : key = "ACTIONS_RUNTIME_TOKEN" <;> simp [h1, h2, he]

/-- C13: when every entry of `environmentVariables` is a map with string keys and
string values, the job environment has under every key what the specification
says: the job tenant URL under `ACTIONS_RUNTIME_URL`, the job token under
`ACTIONS_RUNTIME_TOKEN`, the cache URL under `ACTIONS_CACHE_URL` when it is not
empty, and otherwise the value of the last entry that defines the key. When some
entry is not such a map, the translation ends in a panic, which the deferred
handler reports with `failInitJob`, or in a call of `failInitJob`. The order in
which a `range` visits a map is any order. -/
theorem jobEnv_spec (order : List (RawObject × RawObject) → List (RawObject × RawObject))
    (horder : ∀ l, (order l).Perm l) (environmentVariables : Option (List TemplateToken))
    (jobTenant jobToken cacheUrl : String) :
    ((∀ e ∈ environmentVariables.getD [], (envEntryMap e).isSome = true) →
      ∃ env, jobEnv order environmentVariables jobTenant jobToken cacheUrl = Translated.ok env ∧
        ∀ key, env.lookup key =
          envSpec ((environmentVariables.getD []).filterMap envEntryMap)
            jobTenant jobToken cacheUrl key) ∧
    ((∃ e ∈ environmentVariables.getD [], envEntryMap e = none) →
      jobEnv order environmentVariables jobTenant jobToken cacheUrl = Translated.panic ∨
      jobEnv order environmentVariables jobTenant jobToken cacheUrl
        = Translated.failInit "env: not a map" ∨
      jobEnv order environmentVariables jobTenant jobToken cacheUrl
        = Translated.failInit "env key: act doesn't support non strings" ∨
      jobEnv order environmentVariables jobTenant jobToken cacheUrl
        = Translated.failInit "env value: act doesn't support non strings") := by
  rw [jobEnv_eq]
  constructor
  · intro h
    obtain ⟨env, h1, h2⟩ := envLoop_of_maps order horder _ [] h
    rw [h1]
    refine ⟨_, rfl, fun key => ?_⟩
    rw [lookup_injected, h2 key]
    unfold envSpec
    cases lastDefined ((environmentVariables.getD []).filterMap envEntryMap) key <;> rfl
  · intro h
    rcases envLoop_of_bad_entry order horder _ [] h with h1 | h1 | h1 | h1 <;> rw [h1] <;>
      simp [Translated.bind]

theorem jobEnv_spec_witness :
    (∃ env, jobEnv id
        (some [TemplateToken.mk none none none 2 none none none none none none
            (some [(some (strToken "A"), some (strToken "1")),
                   (some (strToken "B"), some (strToken "x"))]),
          TemplateToken.mk none none none 2 none none none none none none
            (some [(some (strToken "A"), some (strToken "2"))])])
        "https://pipelines/" "tok" "" = Translated.ok env ∧
      ∀ key, env.lookup key =
        envSpec [[(RawObject.str "A", RawObject.str "1"), (RawObject.str "B", RawObject.str "x")],
            [(RawObject.str "A", RawObject.str "2")]]
          "https://pipelines/" "tok" "" key) ∧
    envSpec [[(RawObject.str "A", RawObject.str "1"), (RawObject.str "B", RawObject.str "x")],
        [(RawObject.str "A", RawObject.str "2")]]
      "https://pipelines/" "tok" "" "A" = some "2" :=
  ⟨(jobEnv_spec id (fun l => List.Perm.refl l)
      (some [TemplateToken.mk none none none 2 none none none none none none
          (some [(some (strToken "A"), some (strToken "1")),
                 (some (strToken "B"), some (strToken "x"))]),
        TemplateToken.mk none none none 2 none none none none none none
          (some [(some (strToken "A"), some (strToken "2"))])])
      "https://pipelines/" "tok" "").1
      (fun e he => by
        simp only [Option.getD_some, List.mem_cons, List.mem_singleton, List.not_mem_nil,
          or_false] at he
        rcases he with rfl | rfl <;> rfl),
    by decide⟩

/-! ## The `continueOnError` of a step -/

/-- The step translation as the sequence of its parts. -/
theorem translateStep_eq (order : List (RawObject × RawObject) → List (RawObject × RawObject))
    (toInt64 : Float64 → Int) (fresh : String) (step : ActionStep) :
    translateStep order toInt64 fresh step =
      (stepInputs step).bind fun inputs =>
      (stepEnv order step).bind fun env =>
      (stepWorkingDirectory inputs).bind fun wd =>
      (match step.ContinueOnError with
        | none => Translated.ok false
        | some tok =>
          match tok.ToRawObject with
          | none => Translated.panic
          | some (RawObject.bool b) => Translated.ok b
          | some _ =>
            Translated.failInit
              "ContinueOnError: act doesn't support expressions here").bind fun continueOnError =>
      (match step.TimeoutInMinutes with
        | none => Translated.ok 0
        | some tok =>
          match tok.ToRawObject with
          | none => Translated.panic
          | some (RawObject.num x) => Translated.ok (toInt64 x)
          | some _ =>
            Translated.failInit
              "TimeoutInMinutes: act doesn't support expressions here").bind fun timeoutMinutes =>
      (match step.DisplayNameToken with
        | none => Translated.ok ""
        | some tok =>
          match tok.ToRawObject with
          | none => Translated.panic
          | some (RawObject.str s) => Translated.ok s
          | some _ =>
            Translated.failInit "DisplayNameToken: act doesn't support no strings").bind
        fun displayName =>
      translateStepKind order step (lower step.Reference.Typ) inputs env wd continueOnError
        timeoutMinutes displayName
        (if step.ContextName = "" then "___" ++ fresh else step.ContextName) :=
  rfl

/-- The tokens whose raw object is a `bool` are the boolean literals. -/
theorem ToRawObject_eq_bool_iff (tok : TemplateToken) (b : Bool) :
    tok.ToRawObject = some (RawObject.bool b) ↔ tok.boolLiteral = some b := by
  obtain ⟨fi, li, co, ty, b0, n, lit, ex, di, sq, mp⟩ := tok
  unfold TemplateToken.ToRawObject TemplateToken.boolLiteral
  by_cases h5 : ty = 5
  · subst h5
    simp only [show ¬ ((5 : Int) = 0) by decide, show ¬ ((5 : Int) = 1) by decide,
      show ¬ ((5 : Int) = 2) by decide, show ¬ ((5 : Int) = 3) by decide,
      show ¬ ((5 : Int) = 4) by decide, if_false, if_true]
    cases b0 <;> simp
  · simp only [h5, if_false, reduceCtorEq, iff_false]
    intro h
    by_cases h0 : ty = 0
    · rw [if_pos h0] at h
      cases lit <;> simp at h
    · rw [if_neg h0] at h
      by_cases h1 : ty = 1
      · rw [if_pos h1] at h
        cases sq with
        | none => simp at h
        | some l => cases hh : seqToRaw l <;> simp [hh] at h
      · rw [if_neg h1] at h
        by_cases h2 : ty = 2
        · rw [if_pos h2] at h
          cases mp with
          | none => simp at h
          | some l => cases hh : mapToRaw l [] <;> simp [hh] at h
        · rw [if_neg h2] at h
          by_cases h3 : ty = 3
          · rw [if_pos h3] at h
            cases ex <;> simp at h
          · rw [if_neg h3] at h
            by_cases h4 : ty = 4
            · rw [if_pos h4] at h
              cases di <;> simp at h
            · rw [if_neg h4] at h
              by_cases h6 : ty = 6
              · rw [if_pos h6] at h
                cases n <;> simp at h
              · rw [if_neg h6] at h
                simp at h

/-- What `translateStepKind` puts into `ContinueOnError` of the step it adds. -/
theorem translateStepKind_continueOnError
    (order : List (RawObject × RawObject) → List (RawObject × RawObject))
    (step : ActionStep) (st : String) (inputs : List (RawObject × RawObject))
    (env : List (String × String)) (wd : String) (continueOnError : Bool) (timeoutMinutes : Int)
    (displayName contextName : String) (s : Step)
    (h : translateStepKind order step st inputs env wd continueOnError timeoutMinutes
      displayName contextName = Translated.ok (some s)) :
    s.ContinueOnError = continueOnError := by
  unfold translateStepKind at h
  by_cases hs : st = "script"
  · rw [if_pos hs] at h
    obtain ⟨shell, -, h2⟩ := Translated.bind_eq_ok _ _ _ h
    split at h2
    · simp only [Translated.ok.injEq, Option.some.injEq] at h2
      rw [← h2]
    · simp at h2
  · rw [if_neg hs] at h
    by_cases hk : st = "containerregistry" ∨ st = "repository"
    · rw [if_pos hk] at h
      obtain ⟨withMap, -, h2⟩ := Translated.bind_eq_ok _ _ _ h
      simp only [Translated.ok.injEq, Option.some.injEq] at h2
      rw [← h2]
    · rw [if_neg hk] at h
      simp at h

/-- A part that ends with a value hands it to the next part. -/
theorem Translated.ok_bind {α β : Type} (a : α) (g : α → Translated β) :
    (Translated.ok a).bind g = g a :=
  rfl

/-- C21: for a wire step whose inputs, environment and working directory pass their
checks, a `continueOnError` token that is not a boolean literal ends the
translation in `failInitJob`, called with the message of line 1485 or by the
handler of a panic of `ToRawObject`; with the boolean literal `b` the step added
has `ContinueOnError = b`, and without a token it has `ContinueOnError = false`. -/
theorem translateStep_continueOnError
    (order : List (RawObject × RawObject) → List (RawObject × RawObject))
    (toInt64 : Float64 → Int) (fresh : String) (step : ActionStep)
    (inputs : List (RawObject × RawObject)) (env : List (String × String)) (wd : String)
    (hin : stepInputs step = Translated.ok inputs) (henv : stepEnv order step = Translated.ok env)
    (hwd : stepWorkingDirectory inputs = Translated.ok wd) :
    (∀ tok, step.ContinueOnError = some tok → tok.boolLiteral = none →
      translateStep order toInt64 fresh step
        = Translated.failInit "ContinueOnError: act doesn't support expressions here" ∨
      translateStep order toInt64 fresh step = Translated.panic) ∧
    (∀ tok b s, step.ContinueOnError = some tok → tok.boolLiteral = some b →
      translateStep order toInt64 fresh step = Translated.ok (some s) →
      s.ContinueOnError = b) ∧
    (∀ s, step.ContinueOnError = none →
      translateStep order toInt64 fresh step = Translated.ok (some s) →
      s.ContinueOnError = false) := by
  rw [translateStep_eq, hin, Translated.ok_bind, henv, Translated.ok_bind, hwd,
    Translated.ok_bind]
  refine ⟨fun tok htok hlit => ?_, fun tok b s htok hlit h => ?_, fun s htok h => ?_⟩
  · simp only [htok]
    cases hr : tok.ToRawObject with
    | none => exact Or.inr rfl
    | some r =>
      cases r with
      | bool b =>
        rw [(ToRawObject_eq_bool_iff tok b).mp hr] at hlit
        simp at hlit
      | null => exact Or.inl rfl
      | str s => exact Or.inl rfl
      | seq a => exact Or.inl rfl
      | imap m => exact Or.inl rfl
      | smap m => exact Or.inl rfl
      | num f => exact Or.inl rfl
  · simp only [htok, (ToRawObject_eq_bool_iff tok b).mpr hlit, Translated.ok_bind] at h
    obtain ⟨t, -, h⟩ := Translated.bind_eq_ok _ _ _ h
    obtain ⟨d, -, h⟩ := Translated.bind_eq_ok _ _ _ h
    exact translateStepKind_continueOnError _ _ _ _ _ _ _ _ _ _ _ h
  · simp only [htok, Translated.ok_bind] at h
    obtain ⟨t, -, h⟩ := Translated.bind_eq_ok _ _ _ h
    obtain ⟨d, -, h⟩ := Translated.bind_eq_ok _ _ _ h
    exact translateStepKind_continueOnError _ _ _ _ _ _ _ _ _ _ _ h

theorem translateStep_continueOnError_witness :
    translateStep id (fun _ => 0) "u"
        { Reference := { Typ := "script" }, ContextName := "build",
          Inputs := some (mapToken [(strToken "script", strToken "make")]),
          ContinueOnError := some (TemplateToken.mk none none none 5 (some true) none none
            none none none none) }
      = Translated.ok (some { ID := "build", Run := "make", ContinueOnError := true }) ∧
    ({ ID := "build", Run := "make", ContinueOnError := true } : Step).ContinueOnError = true ∧
    translateStep id (fun _ => 0) "u"
        { Reference := { Typ := "script" }, ContextName := "build",
          Inputs := some (mapToken [(strToken "script", strToken "make")]),
          ContinueOnError := some (TemplateToken.mk none none none 3 none none none
            (some "always()") none none none) }
      = Translated.failInit "ContinueOnError: act doesn't support expressions here" :=
  ⟨rfl,
    (translateStep_continueOnError id (fun _ => 0) "u"
      { Reference := { Typ := "script" }, ContextName := "build",
        Inputs := some (mapToken [(strToken "script", strToken "make")]),
        ContinueOnError := some (TemplateToken.mk none none none 5 (some true) none none
          none none none none) }
      [(RawObject.str "script", RawObject.str "make")] [] "" rfl rfl rfl).2.1
      (TemplateToken.mk none none none 5 (some true) none none none none none none) true
      { ID := "build", Run := "make", ContinueOnError := true } rfl rfl rfl,
    rfl⟩

/-! ## Step records at the finalization -/

/-- Completing the current record leaves the other records as they are. -/
theorem completeCurrent_getElem?_of_ne (f : ghaFormatter) (c : Nat) (res : String)
    (logId : Int) (i : Nat) (h : i ≠ c) :
    (f.completeCurrent c res logId).1.wrap.Value[i]? = f.wrap.Value[i]? := by
  unfold ghaFormatter.completeCurrent
  split
  · simp only [modifyAt_get?, if_neg h]
  · simp only [modifyAt_get?, if_neg h]

/-- A record of index 2 or more that is not the current one is, after the
finalization, what the loop of lines 1852-1856 makes of it. -/
theorem finalizeJob_getElem?_of_ne (f : ghaFormatter) (rc : RunContext) (logId : Int)
    (declared : Bool) (outputs : List (String × GoString)) (i : Nat) (hi : 2 ≤ i)
    (hcur : f.current ≠ some i) :
    (finalizeJob f rc logId declared outputs).wrap.Value[i]? =
      (f.wrap.Value[i]?).map
        (fun r => if r.State ≠ RecordState.Completed then r.Complete "Skipped" else r) := by
  obtain ⟨rqt, wrap, current, startLine, stepBuffer⟩ := f
  have h0 : ¬ i = 0 := by omega
  have h2 : ¬ i < 2 := by omega
  unfold finalizeJob
  cases current with
  | none =>
    by_cases hs : jobStatusOf rc.StepResults = "success" <;>
      simp [hs, modifyAt_get?, h0, skipUnfinished_getElem?, h2]
  | some c =>
    have hic : i ≠ c := fun e => hcur (by rw [e])
    by_cases hc1 : c = 1
    · subst hc1
      simp [modifyAt_get?, h0, skipUnfinished_getElem?, h2,
        completeCurrent_getElem?_of_ne _ _ _ _ i hic]
    · cases hsucc : rc.success (wrap.Value[c]?.getD {}).RefName <;>
        by_cases hs : jobStatusOf rc.StepResults = "success" <;>
        simp [hc1, hsucc, hs, modifyAt_get?, h0, skipUnfinished_getElem?, h2,
          completeCurrent_getElem?_of_ne _ _ _ _ i hic]

/-- The record of index `c` after the current record `c` is completed. -/
theorem completeCurrent_getElem?_self (f : ghaFormatter) (c : Nat) (res : String)
    (logId : Int) (r : TimelineRecord) (hr : f.wrap.Value[c]? = some r) :
    ∃ r1, (f.completeCurrent c res logId).1.wrap.Value[c]? = some r1 ∧
      r1.State = RecordState.Completed ∧ r1.Result = some res := by
  unfold ghaFormatter.completeCurrent
  split
  · simp only [modifyAt_get?, if_true, hr, Option.map_some']
    exact ⟨_, rfl, rfl, rfl⟩
  · simp only [modifyAt_get?, if_true, hr, Option.map_some']
    exact ⟨_, rfl, rfl, rfl⟩

/-- The current record, when it is a step record, is after the finalization what the
block of lines 1837-1850 makes of it. -/
theorem finalizeJob_getElem?_current (f : ghaFormatter) (rc : RunContext) (logId : Int)
    (declared : Bool) (outputs : List (String × GoString)) (i : Nat) (r : TimelineRecord)
    (hi : 2 ≤ i) (hr : f.wrap.Value[i]? = some r) (hcur : f.current = some i) :
    ∃ r1, (finalizeJob f rc logId declared outputs).wrap.Value[i]? = some r1 ∧
      r1.State = RecordState.Completed ∧
      r1.Result = some (if rc.success r.RefName then "Succeeded" else "Failed") := by
  obtain ⟨rqt, wrap, current, startLine, stepBuffer⟩ := f
  simp only at hr hcur
  subst hcur
  have h0 : ¬ i = 0 := by omega
  have h1 : ¬ i = 1 := by omega
  have h2 : ¬ i < 2 := by omega
  have hget : wrap.Value[i]?.getD {} = r := by rw [hr]; rfl
  cases hsucc : rc.success r.RefName
  · obtain ⟨r1, hr1, hs1, hres1⟩ := completeCurrent_getElem?_self
      { rqt := rqt, wrap := wrap, current := some i, startLine := 1, stepBuffer := stepBuffer }
      i "Failed" logId r hr
    refine ⟨r1, ?_, hs1, by simpa using hres1⟩
    unfold finalizeJob
    by_cases hs : jobStatusOf rc.StepResults = "success" <;>
      simp [h1, hget, hsucc, hs, modifyAt_get?, h0, skipUnfinished_getElem?, h2, hr1, hs1]
  · obtain ⟨r1, hr1, hs1, hres1⟩ := completeCurrent_getElem?_self
      { rqt := rqt, wrap := wrap, current := some i, startLine := 1, stepBuffer := stepBuffer }
      i "Succeeded" logId r hr
    refine ⟨r1, ?_, hs1, by simpa using hres1⟩
    unfold finalizeJob
    by_cases hs : jobStatusOf rc.StepResults = "success" <;>
      simp [h1, hget, hsucc, hs, modifyAt_get?, h0, skipUnfinished_getElem?, h2, hr1, hs1]

/-- C22, as the code has it: after the finalization, a step record (index 2 or more)
other than the formatter's current record is completed with result `Skipped` if
it was not completed, and is unchanged if it was completed; the formatter's
current record, whatever its state was, is completed with the result
`Succeeded` if the executor reports success for its step at that moment and
`Failed` otherwise. -/
theorem finalizeJob_step_records (f : ghaFormatter) (rc : RunContext) (logId : Int)
    (declared : Bool) (outputs : List (String × GoString)) (i : Nat) (r : TimelineRecord)
    (hi : 2 ≤ i) (hr : f.wrap.Value[i]? = some r) :
    ∃ r1, (finalizeJob f rc logId declared outputs).wrap.Value[i]? = some r1 ∧
      (f.current ≠ some i →
        (r.State ≠ RecordState.Completed →
          r1.State = RecordState.Completed ∧ r1.Result = some "Skipped") ∧
        (r.State = RecordState.Completed → r1 = r)) ∧
      (f.current = some i →
        r1.State = RecordState.Completed ∧
        r1.Result = some (if rc.success r.RefName then "Succeeded" else "Failed")) := by
  by_cases hcur : f.current = some i
  · obtain ⟨r1, h1, h2, h3⟩ :=
      finalizeJob_getElem?_current f rc logId declared outputs i r hi hr hcur
    exact ⟨r1, h1, fun hne => absurd hcur hne, fun _ => ⟨h2, h3⟩⟩
  · rw [finalizeJob_getElem?_of_ne f rc logId declared outputs i hi hcur, hr]
    refine ⟨_, rfl, fun _ => ⟨fun hne => ?_, fun he => ?_⟩, fun h => absurd h hcur⟩
    · simp only [Option.map_some', if_pos hne]
      exact ⟨rfl, rfl⟩
    · simp only [Option.map_some', he, ne_eq, not_true_eq_false, if_false]

/-- Witness for C22: a job with the steps `a` and `b`, finalized while the executor is
in step `a` and reports it failed. Record 2, of `a`, is the current record and
ends `Completed` with result `Failed`. -/
theorem finalizeJob_step_records_witness :
    ∃ r1, (finalizeJob
        (runFormat (fun _ => none)
          (newFormatter {} (timelineWithSteps "job" (fun _ => "u") [{ ID := "a" }, { ID := "b" }]
            (initialTimeline "job" "build" [] "s")))
          [{ rc := { CurrentStep := "a", StepResults := [("__setup", true)] } }]).1
        { CurrentStep := "a", StepResults := [("__setup", true), ("a", false)] }
        0 false []).wrap.Value[2]? = some r1 ∧
      r1.State = RecordState.Completed ∧ r1.Result = some "Failed" := by
  obtain ⟨r1, h1, _, h3⟩ := finalizeJob_step_records
    (runFormat (fun _ => none)
      (newFormatter {} (timelineWithSteps "job" (fun _ => "u") [{ ID := "a" }, { ID := "b" }]
        (initialTimeline "job" "build" [] "s")))
      [{ rc := { CurrentStep := "a", StepResults := [("__setup", true)] } }]).1
    { CurrentStep := "a", StepResults := [("__setup", true), ("a", false)] } 0 false [] 2
    (TimelineRecord.Start { CreateTimelineEntry "u" "job" "a" [] with Order := 2 })
    (by decide) (by decide)
  exact ⟨r1, h1, h3 (by decide)⟩

/-- C22 fails as stated. The executor logs during step `a`, then under a current step
that has no record: the record of `a` is completed and stays the current one. At
the finalization it is completed again, with the result the executor reports
then: the completed record does not keep its result. -/
theorem finalizeJob_overwrites_current_result :
    ((runFormat (fun _ => none)
        (newFormatter {} (timelineWithSteps "job" (fun _ => "u") [{ ID := "a" }]
          (initialTimeline "job" "build" [] "s")))
        [{ rc := { CurrentStep := "a", StepResults := [("__setup", true), ("a", true)] } },
         { rc := { CurrentStep := "post", StepResults := [("__setup", true), ("a", true)] } }]
      ).1.wrap.Value[2]?).map (fun r => (r.State, r.Result))
      = some (RecordState.Completed, some "Succeeded") ∧
    ((finalizeJob
        (runFormat (fun _ => none)
          (newFormatter {} (timelineWithSteps "job" (fun _ => "u") [{ ID := "a" }]
            (initialTimeline "job" "build" [] "s")))
          [{ rc := { CurrentStep := "a", StepResults := [("__setup", true), ("a", true)] } },
           { rc := { CurrentStep := "post",
                     StepResults := [("__setup", true), ("a", true)] } }]).1
        { CurrentStep := "post", StepResults := [("__setup", true), ("a", false)] }
        0 false []).wrap.Value[2]?).map (fun r => (r.State, r.Result))
      = some (RecordState.Completed, some "Failed") := by
  constructor <;> decide

/-! ## The log streamer -/

/-- The batches posted carry the lines of the batch in hand, then the lines received,
in order, each under the step id it was received with; and each batch posted
counts its lines when the batch in hand does. -/
theorem logStreamer_lines (events : List StreamEvent) :
    (postedLines (logStreamer none events) = receivedLines events ∧
      ∀ b ∈ logStreamer none events, b.Count = b.Value.length) ∧
    ∀ (lines : TimelineRecordFeedLinesWrapper), lines.Count = lines.Value.length →
      postedLines (logStreamer (some lines) events)
        = lines.Value.map (fun l => (lines.StepId, l)) ++ receivedLines events ∧
      ∀ b ∈ logStreamer (some lines) events, b.Count = b.Value.length := by
  induction events with
  | nil =>
    refine ⟨by simp [logStreamer, postedLines, receivedLines], fun lines h => ?_⟩
    simp [logStreamer, postedLines, receivedLines, h]
  | cons e es ih =>
    obtain ⟨⟨hn1, hn2⟩, hs⟩ := ih
    cases e with
    | timeout =>
      refine ⟨⟨by simpa [logStreamer, receivedLines] using hn1,
        by simpa [logStreamer] using hn2⟩, fun lines h => ⟨?_, ?_⟩⟩
      · simp only [logStreamer, receivedLines]
        simp only [postedLines, List.flatMap_cons] at hn1 ⊢
        rw [hn1]
      · intro b hb
        simp only [logStreamer, List.mem_cons] at hb
        rcases hb with hb | hb
        · rw [hb]
          exact h
        · exact hn2 b hb
    | line startLine recordId l =>
      have hnew := hs (loglineBatch startLine recordId l) (by simp [loglineBatch])
      refine ⟨?_, fun lines h => ?_⟩
      · simpa [logStreamer, receivedLines, loglineBatch] using hnew
      · by_cases hid : recordId = lines.StepId
        · have hm := hs { lines with Count := lines.Count + 1, Value := lines.Value ++ [l] }
            (by simp [h])
          simp only [logStreamer, loglineBatch, hid, if_true, receivedLines]
          refine ⟨?_, hm.2⟩
          rw [hm.1]
          simp
        · simp only [logStreamer, loglineBatch, hid, if_false, receivedLines]
          constructor
          · have h1 := hnew.1
            simp only [postedLines, List.flatMap_cons, loglineBatch] at h1 ⊢
            rw [h1]
            simp
          · intro b hb
            simp only [List.mem_cons] at hb
            rcases hb with hb | hb
            · rw [hb]
              exact h
            · exact hnew.2 b hb

/-- C24: whatever the streamer receives and wherever the waits end between the lines,
the lines of the batches it posts, each taken with the step id of its batch, are
in posting order the lines received, each with the step id it was received with,
in the order received; and each batch posted has `Count` equal to the number of
its lines. -/
theorem logStreamer_posts_received (events : List StreamEvent) :
    postedLines (logStreamer none events) = receivedLines events ∧
    ∀ b ∈ logStreamer none events, b.Count = b.Value.length :=
  (logStreamer_lines events).1

/-! ## The slice handed to the JSON decoder -/

/-- The byte-order-mark test on a buffer of three bytes or more: the offset is 0, or it
is 3 and the second and third bytes are those of the mark. -/
theorem bomOffset_cases (src : GoString) (h : 3 ≤ src.length) :
    bomOffset src = some 0 ∨
    (bomOffset src = some 3 ∧ src.getD 1 0 = 187 ∧ src.getD 2 0 = 191) := by
  match src, h with
  | b0 :: b1 :: b2 :: rest, _ =>
    unfold bomOffset
    by_cases h0 : b0 = 239
    · by_cases h1 : b1 = 187
      · by_cases h2 : b2 = 191
        · right
          simp [h0, h1, h2]
        · left
          simp [h0, h1, h2]
      · left
        simp [h0, h1]
    · left
      simp [h0]

/-- The depadding of a buffer at least as long as its last byte: the length is kept, or
the last byte is below the block size, the bytes it counts are all equal to it
and they are cut off. -/
theorem validLen_cases (src : GoString) (last : Nat) (hlast : src.getLast? = some last)
    (hle : last < 16 → last ≤ src.length) :
    validLen blockSize src = some src.length ∨
    (validLen blockSize src = some (src.length - last) ∧ last < 16 ∧
      ∀ j, 2 ≤ j → j ≤ last → src.getD (src.length - j) 0 = last) := by
  unfold validLen blockSize
  rw [hlast]
  by_cases h16 : last < 16
  · simp only [if_pos h16]
    by_cases h0 : last = 0
    · subst h0
      left
      simp [padLoop]
    · rw [padLoop_eq_decide src last (hle h16) (last - 1) 2 (by omega)]
      by_cases hp : ∀ j, 2 ≤ j → j ≤ last → src.getD (src.length - j) 0 = last
      · right
        rw [decide_eq_true hp]
        exact ⟨rfl, h16, hp⟩
      · left
        rw [decide_eq_false hp]
  · left
    simp only [if_neg h16]

/-- C25: for a decrypted buffer whose length is a positive multiple of 16, the depadding
and the byte-order-mark test do not panic, the offset is 0 or 3 and at most the
valid length, which is at most the length of the buffer: the slice
`src[off:validlen]` is in bounds. -/
theorem jobRequestBytes_in_bounds (src : GoString) (hpos : 0 < src.length)
    (hmul : src.length % 16 = 0) :
    ∃ validlen off, validLen blockSize src = some validlen ∧ bomOffset src = some off ∧
      (off = 0 ∨ off = 3) ∧ off ≤ validlen ∧ validlen ≤ src.length ∧
      jobRequestBytes src = some ((src.take validlen).drop off) := by
  have hlen : 16 ≤ src.length := by omega
  have hne : src ≠ [] := by
    intro e
    rw [e] at hpos
    simp at hpos
  obtain ⟨last, hlast⟩ : ∃ last, src.getLast? = some last :=
    ⟨src.getLast hne, List.getLast?_eq_getLast src hne⟩
  have hbounds : ∃ validlen off, validLen blockSize src = some validlen ∧
      bomOffset src = some off ∧ (off = 0 ∨ off = 3) ∧ off ≤ validlen ∧
      validlen ≤ src.length := by
    rcases validLen_cases src last hlast (by omega) with hv | ⟨hv, h16, hp⟩
    · rcases bomOffset_cases src (by omega) with hb | ⟨hb, -, -⟩
      · exact ⟨_, _, hv, hb, Or.inl rfl, by omega, le_refl _⟩
      · exact ⟨_, _, hv, hb, Or.inr rfl, by omega, le_refl _⟩
    · rcases bomOffset_cases src (by omega) with hb | ⟨hb, h1, h2⟩
      · exact ⟨_, _, hv, hb, Or.inl rfl, by omega, by omega⟩
      · refine ⟨_, _, hv, hb, Or.inr rfl, ?_, by omega⟩
        by_contra hlt
        have h14 : last = 14 ∨ last = 15 := by omega
        have hl16 : src.length = 16 := by omega
        rcases h14 with h14 | h15
        · have := hp 14 (by omega) (by omega)
          rw [hl16] at this
          simp only [show 16 - 14 = 2 by rfl] at this
          omega
        · have := hp 15 (by omega) (by omega)
          rw [hl16] at this
          simp only [show 16 - 15 = 1 by rfl] at this
          omega
  obtain ⟨validlen, off, hv, hb, hoff, hle, hlen2⟩ := hbounds
  refine ⟨validlen, off, hv, hb, hoff, hle, hlen2, ?_⟩
  unfold jobRequestBytes
  rw [hv, hb]
  simp only [if_pos hle]

theorem jobRequestBytes_in_bounds_witness :
    ∃ validlen off,
      validLen blockSize (utf8Bom ++ [123, 125] ++ List.replicate 11 11) = some validlen ∧
      bomOffset (utf8Bom ++ [123, 125] ++ List.replicate 11 11) = some off ∧
      (off = 0 ∨ off = 3) ∧ off ≤ validlen ∧
      validlen ≤ (utf8Bom ++ [123, 125] ++ List.replicate 11 11).length ∧
      jobRequestBytes (utf8Bom ++ [123, 125] ++ List.replicate 11 11)
        = some (((utf8Bom ++ [123, 125] ++ List.replicate 11 11).take validlen).drop off) :=
  jobRequestBytes_in_bounds (utf8Bom ++ [123, 125] ++ List.replicate 11 11)
    (by decide) (by decide)

/-! ## The Job record when `JobCompleted` is sent -/

/-- After `failInitJob` the Job record is completed with result `Failed`, the result
of the event. -/
theorem failInitJob_job_record (wrap : TimelineRecordWrapper) (logId : Int)
    (message : GoString) (h : 0 < wrap.Value.length) :
    (failInitJob wrap logId message).event.Result = "Failed" ∧
    ∃ r, (failInitJob wrap logId message).wrap.Value[0]? = some r ∧
      r.State = RecordState.Completed ∧ r.Result = some "Failed" := by
  obtain ⟨r0, hr0⟩ : ∃ r0, wrap.Value[0]? = some r0 :=
    ⟨wrap.Value[0], List.getElem?_eq_getElem h⟩
  refine ⟨rfl, r0.Complete "Failed", ?_, rfl, rfl⟩
  simp [failInitJob, modifyAt_get?, hr0]

/-- C26 at a failing input: a job request with resources and endpoints whose context
data has no entry `github`. `JobCompleted` is sent with result `Failed` while the
Job record is still `InProgress`, without a result. The exit next to it, for a
request without endpoints, goes through `failInitJob` and completes the Job
record with `Failed`. -/
theorem startJob_missing_github_context :
    (startJob "job" "build" [] "s" true true [] 0).map
        (fun e => (e.event.Name, e.event.Result,
          (e.wrap.Value[0]?).map (fun r => (r.State, r.Result))))
      = some ("JobCompleted", "Failed", some (RecordState.InProgress, none)) ∧
    (startJob "job" "build" [] "s" true false [] 0).map
        (fun e => (e.event.Name, e.event.Result,
          (e.wrap.Value[0]?).map (fun r => (r.State, r.Result))))
      = some ("JobCompleted", "Failed", some (RecordState.Completed, some "Failed")) := by
  constructor <;> decide

/-! ## One step per wire step -/

/-- The step loop adds a step exactly for the wire steps of the three reference types
of its `switch`. -/
theorem translateStepKind_isSome
    (order : List (RawObject × RawObject) → List (RawObject × RawObject))
    (step : ActionStep) (st : String) (inputs : List (RawObject × RawObject))
    (env : List (String × String)) (wd : String) (continueOnError : Bool) (timeoutMinutes : Int)
    (displayName contextName : String) (o : Option Step)
    (h : translateStepKind order step st inputs env wd continueOnError timeoutMinutes
      displayName contextName = Translated.ok o) :
    o.isSome = true ↔ (st = "script" ∨ st = "containerregistry" ∨ st = "repository") := by
  unfold translateStepKind at h
  by_cases hs : st = "script"
  · rw [if_pos hs] at h
    obtain ⟨shell, -, h2⟩ := Translated.bind_eq_ok _ _ _ h
    split at h2
    · simp only [Translated.ok.injEq] at h2
      rw [← h2]
      simp [hs]
    · simp at h2
  · rw [if_neg hs] at h
    by_cases hk : st = "containerregistry" ∨ st = "repository"
    · rw [if_pos hk] at h
      obtain ⟨withMap, -, h2⟩ := Translated.bind_eq_ok _ _ _ h
      simp only [Translated.ok.injEq] at h2
      rw [← h2]
      simp [hk]
    · rw [if_neg hk] at h
      simp only [Translated.ok.injEq] at h
      rw [← h]
      simp only [Option.isSome_none, Bool.false_eq_true, false_iff, not_or]
      exact ⟨hs, fun e => hk (Or.inl e), fun e => hk (Or.inr e)⟩

/-- A wire step that translates gives a step exactly when it is translatable. -/
theorem translateStep_isSome (order : List (RawObject × RawObject) → List (RawObject × RawObject))
    (toInt64 : Float64 → Int) (fresh : String) (step : ActionStep) (o : Option Step)
    (h : translateStep order toInt64 fresh step = Translated.ok o) :
    o.isSome = step.translatable := by
  rw [translateStep_eq] at h
  obtain ⟨inputs, -, h⟩ := Translated.bind_eq_ok _ _ _ h
  obtain ⟨env, -, h⟩ := Translated.bind_eq_ok _ _ _ h
  obtain ⟨wd, -, h⟩ := Translated.bind_eq_ok _ _ _ h
  obtain ⟨continueOnError, -, h⟩ := Translated.bind_eq_ok _ _ _ h
  obtain ⟨timeoutMinutes, -, h⟩ := Translated.bind_eq_ok _ _ _ h
  obtain ⟨displayName, -, h⟩ := Translated.bind_eq_ok _ _ _ h
  have := translateStepKind_isSome _ _ _ _ _ _ _ _ _ _ _ h
  rw [Bool.eq_iff_iff, this]
  simp [ActionStep.translatable]

/-- The step loop appends, to the steps it has, one step for each translatable wire
step, in wire order, each the translation of its wire step. -/
theorem translateSteps_append (order : List (RawObject × RawObject) → List (RawObject × RawObject))
    (toInt64 : Float64 → Int) (uuid : Nat → String) :
    ∀ (wire : List ActionStep) (k : Nat) (acc out : List Step),
      translateSteps order toInt64 uuid wire k acc = Translated.ok out →
      ∃ added, out = acc ++ added ∧
        List.Forall₂ (fun w s => ∃ j, translateStep order toInt64 (uuid j) w
          = Translated.ok (some s)) (wire.filter ActionStep.translatable) added
  | [], _, acc, out, h => by
    simp only [translateSteps, Translated.ok.injEq] at h
    exact ⟨[], by simp [h], by simp⟩
  | step :: rest, k, acc, out, h => by
    unfold translateSteps at h
    cases ht : translateStep order toInt64 (uuid k) step with
    | ok o =>
      have hsome := translateStep_isSome order toInt64 (uuid k) step o ht
      cases o with
      | none =>
        simp only [ht] at h
        obtain ⟨added, h1, h2⟩ := translateSteps_append order toInt64 uuid rest (k + 1) acc out h
        have hf : step.translatable = false := by simpa using hsome.symm
        exact ⟨added, h1, by simpa [List.filter_cons, hf] using h2⟩
      | some s =>
        simp only [ht] at h
        obtain ⟨added, h1, h2⟩ :=
          translateSteps_append order toInt64 uuid rest (k + 1) (acc ++ [s]) out h
        have hf : step.translatable = true := by simpa using hsome.symm
        refine ⟨s :: added, by simpa using h1, ?_⟩
        simp only [List.filter_cons, hf, if_true]
        exact List.Forall₂.cons ⟨k, ht⟩ h2
    | failInit m => simp [ht] at h
    | silentReturn p => simp [ht] at h
    | panic => simp [ht] at h

/-- C29, as the code has it: when the step loop ends with a list of steps, the list has
one step for each wire step whose reference type, in the lower case of
`strings.ToLower`, is `script`, `containerregistry` or `repository`, in wire
order, each the translation of its wire step; a wire step of another type
adds nothing. The timeline built from the list has that many records plus
two. -/
theorem translateSteps_one_per_translatable
    (order : List (RawObject × RawObject) → List (RawObject × RawObject))
    (toInt64 : Float64 → Int) (uuid : Nat → String) (wire : List ActionStep) (out : List Step)
    (display : Step → GoString) (jobId jobName : String) (jobDisplayName : GoString)
    (setupId : String) (recordId : Nat → String)
    (h : translateSteps order toInt64 uuid wire 0 [] = Translated.ok out) :
    List.Forall₂ (fun w s => ∃ j, translateStep order toInt64 (uuid j) w
      = Translated.ok (some s)) (wire.filter ActionStep.translatable) out ∧
    out.length = (wire.filter ActionStep.translatable).length ∧
    (timelineWithSteps jobId recordId (out.map (Step.info display))
        (initialTimeline jobId jobName jobDisplayName setupId)).Value.length
      = (wire.filter ActionStep.translatable).length + 2 := by
  obtain ⟨added, h1, h2⟩ := translateSteps_append order toInt64 uuid wire 0 [] out h
  simp only [List.nil_append] at h1
  subst h1
  refine ⟨h2, h2.length_eq.symm, ?_⟩
  rw [timelineWithSteps_value, List.length_append, stepRecords_length, List.length_map,
    h2.length_eq]
  simp [initialTimeline]
  omega

/-- Witness for C29: a request with one `script` step translates to one step, and the
timeline has three records. -/
theorem translateSteps_one_per_translatable_witness :
    ([{ ID := "build", Run := "make" }] : List Step).length
      = (([{ Reference := { Typ := "script" }, ContextName := "build",
             Inputs := some (mapToken [(strToken "script", strToken "make")]) }] :
          List ActionStep).filter ActionStep.translatable).length ∧
    (timelineWithSteps "job" (fun _ => "r")
        (([{ ID := "build", Run := "make" }] : List Step).map (Step.info (fun _ => [])))
        (initialTimeline "job" "build" [] "s")).Value.length
      = (([{ Reference := { Typ := "script" }, ContextName := "build",
             Inputs := some (mapToken [(strToken "script", strToken "make")]) }] :
          List ActionStep).filter ActionStep.translatable).length + 2 :=
  (translateSteps_one_per_translatable id (fun _ => 0) (fun _ => "u")
    [{ Reference := { Typ := "script" }, ContextName := "build",
       Inputs := some (mapToken [(strToken "script", strToken "make")]) }]
    [{ ID := "build", Run := "make" }] (fun _ => []) "job" "build" [] "s" (fun _ => "r") rfl).2

/-- C29 fails as stated: a request whose two wire steps are a `script` step and a step
of the reference type `checkout` translates to one step, and the timeline has
three records, not four. -/
theorem translateSteps_drops_other_types :
    translateSteps id (fun _ => 0) (fun _ => "u")
        [{ Reference := { Typ := "script" }, ContextName := "build",
           Inputs := some (mapToken [(strToken "script", strToken "make")]) },
         { Reference := { Typ := "checkout" }, ContextName := "source" }] 0 []
      = Translated.ok [{ ID := "build", Run := "make" }] ∧
    (timelineWithSteps "job" (fun _ => "r")
        (([{ ID := "build", Run := "make" }] : List Step).map (Step.info (fun _ => [])))
        (initialTimeline "job" "build" [] "s")).Value.length = 3 := by
  constructor
  · rfl
  · decide


/-! ### Reference types outside ASCII -/

/-- The lower case of the step loop follows the case tables beyond ASCII: the reference
type `SCRİPT`, written with U+0130 (capital I with dot above), is a `script`
step, translated to one step, and the timeline has three records. -/
theorem translateSteps_dotted_capital_I :
    lower "SCRİPT" = "script" ∧
    translateSteps id (fun _ => 0) (fun _ => "u")
        [{ Reference := { Typ := "SCRİPT" }, ContextName := "build",
           Inputs := some (mapToken [(strToken "script", strToken "make")]) }] 0 []
      = Translated.ok [{ ID := "build", Run := "make" }] ∧
    (timelineWithSteps "job" (fun _ => "r")
        (([{ ID := "build", Run := "make" }] : List Step).map (Step.info (fun _ => [])))
        (initialTimeline "job" "build" [] "s")).Value.length = 3 := by
  refine ⟨by decide, rfl, by decide⟩

/-- The fold of `strings.EqualFold` follows the orbits beyond ASCII: a message type
written with U+017F (long s) is a job request, one written with U+0130 is
not. -/
theorem equalFold_beyond_ascii :
    equalFold "PipelineAgentJobRequeſt" "PipelineAgentJobRequest" = true ∧
    equalFold "PİpelineAgentJobRequest" "PipelineAgentJobRequest" = false := by
  decide
/-! ## `ToStringMap` -/

mutual
/-- An object without maps has no `map[interface{}]interface{}`. -/
theorem hasInterfaceMap_of_mapFree :
    ∀ (r : RawObject), r.mapFree = true → r.hasInterfaceMap = false
  | RawObject.null, _ => by simp [RawObject.hasInterfaceMap]
  | RawObject.str _, _ => by simp [RawObject.hasInterfaceMap]
  | RawObject.bool _, _ => by simp [RawObject.hasInterfaceMap]
  | RawObject.num _, _ => by simp [RawObject.hasInterfaceMap]
  | RawObject.imap _, h => by simp [RawObject.mapFree] at h
  | RawObject.smap _, h => by simp [RawObject.mapFree] at h
  | RawObject.seq a, h => by
    simp only [RawObject.mapFree] at h
    simp only [RawObject.hasInterfaceMap]
    exact anyHasInterfaceMap_of_allMapFree a h
/-- A sequence of objects without maps has no `map[interface{}]interface{}`. -/
theorem anyHasInterfaceMap_of_allMapFree :
    ∀ (a : List RawObject), allMapFree a = true → anyHasInterfaceMap a = false
  | [], _ => by simp [anyHasInterfaceMap]
  | r :: rs, h => by
    simp only [allMapFree, Bool.and_eq_true] at h
    simp only [anyHasInterfaceMap, Bool.or_eq_false_iff]
    exact ⟨hasInterfaceMap_of_mapFree r h.1, anyHasInterfaceMap_of_allMapFree rs h.2⟩
end

/-- An assignment of a value without `map[interface{}]interface{}` keeps a map free of
them. -/
theorem anyValueHasInterfaceMap_goMapAssign (k : String) (v : RawObject)
    (hv : v.hasInterfaceMap = false) :
    ∀ (m : List (String × RawObject)), anyValueHasInterfaceMap m = false →
      anyValueHasInterfaceMap (goMapAssign m k v) = false
  | [], _ => by simp [goMapAssign, anyValueHasInterfaceMap, hv]
  | (k1, v1) :: rest, h => by
    simp only [anyValueHasInterfaceMap, Bool.or_eq_false_iff] at h
    unfold goMapAssign
    by_cases hk : k1 = k
    · rw [if_pos hk]
      simp only [anyValueHasInterfaceMap, Bool.or_eq_false_iff]
      exact ⟨hv, h.2⟩
    · rw [if_neg hk]
      simp only [anyValueHasInterfaceMap, Bool.or_eq_false_iff]
      exact ⟨h.1, anyValueHasInterfaceMap_goMapAssign k v hv rest h.2⟩

mutual
/-- On an object built from maps with string keys, sequences and scalars in which no
sequence holds a map, `ToStringMap` returns an object without
`map[interface{}]interface{}`. -/
theorem ToStringMap_of_mapsOutsideSequences :
    ∀ (r : RawObject), r.mapsOutsideSequences = true →
      ∃ r1, ToStringMap r = some r1 ∧ r1.hasInterfaceMap = false
  | RawObject.null, _ => ⟨_, rfl, by simp [RawObject.hasInterfaceMap]⟩
  | RawObject.str _, _ => ⟨_, rfl, by simp [RawObject.hasInterfaceMap]⟩
  | RawObject.bool _, _ => ⟨_, rfl, by simp [RawObject.hasInterfaceMap]⟩
  | RawObject.num _, _ => ⟨_, rfl, by simp [RawObject.hasInterfaceMap]⟩
  | RawObject.smap _, h => by simp [RawObject.mapsOutsideSequences] at h
  | RawObject.seq a, h => by
    simp only [RawObject.mapsOutsideSequences] at h
    refine ⟨RawObject.seq a, by simp [ToStringMap], ?_⟩
    simp only [RawObject.hasInterfaceMap]
    exact anyHasInterfaceMap_of_allMapFree a h
  | RawObject.imap m, h => by
    simp only [RawObject.mapsOutsideSequences] at h
    obtain ⟨res, h1, h2⟩ := toStringMapEntries_of_mapsOutsideSequences m [] h
      (by simp [anyValueHasInterfaceMap])
    exact ⟨RawObject.smap res, by simp [ToStringMap, h1],
      by simpa [RawObject.hasInterfaceMap] using h2⟩
/-- The loop of `ToStringMap` over such entries. -/
theorem toStringMapEntries_of_mapsOutsideSequences :
    ∀ (m : List (RawObject × RawObject)) (res : List (String × RawObject)),
      entriesMapsOutsideSequences m = true → anyValueHasInterfaceMap res = false →
      ∃ res1, toStringMapEntries m res = some res1 ∧ anyValueHasInterfaceMap res1 = false
  | [], res, _, hres => ⟨res, by simp [toStringMapEntries], hres⟩
  | (RawObject.str k, v) :: rest, res, h, hres => by
    simp only [entriesMapsOutsideSequences, Bool.and_eq_true] at h
    obtain ⟨v1, hv1, hv2⟩ := ToStringMap_of_mapsOutsideSequences v h.1
    obtain ⟨res1, h1, h2⟩ := toStringMapEntries_of_mapsOutsideSequences rest
      (goMapAssign res k v1) h.2 (anyValueHasInterfaceMap_goMapAssign k v1 hv2 res hres)
    exact ⟨res1, by simp [toStringMapEntries, hv1, h1], h2⟩
  | (RawObject.null, _) :: _, _, h, _ => by simp [entriesMapsOutsideSequences] at h
  | (RawObject.seq _, _) :: _, _, h, _ => by simp [entriesMapsOutsideSequences] at h
  | (RawObject.imap _, _) :: _, _, h, _ => by simp [entriesMapsOutsideSequences] at h
  | (RawObject.smap _, _) :: _, _, h, _ => by simp [entriesMapsOutsideSequences] at h
  | (RawObject.bool _, _) :: _, _, h, _ => by simp [entriesMapsOutsideSequences] at h
  | (RawObject.num _, _) :: _, _, h, _ => by simp [entriesMapsOutsideSequences] at h
end

/-- C28, as the code has it: on a raw object built from maps
`map[interface{}]interface{}` with string keys, sequences and scalars in which no
sequence holds a map, `ToStringMap` does not panic and returns an object with no
`map[interface{}]interface{}` at any depth; a sequence is returned as it is. -/
theorem ToStringMap_string_keyed (r : RawObject) :
    (r.mapsOutsideSequences = true →
      ∃ r1, ToStringMap r = some r1 ∧ r1.hasInterfaceMap = false) ∧
    (∀ a, r = RawObject.seq a → ToStringMap r = some (RawObject.seq a)) := by
  refine ⟨ToStringMap_of_mapsOutsideSequences r, fun a ha => ?_⟩
  subst ha
  simp [ToStringMap]

/-- C28 fails as stated: `ToStringMap` returns a sequence that holds a
`map[interface{}]interface{}` with a string key unchanged, while it converts the
same map as the value of a map. -/
theorem ToStringMap_keeps_map_in_sequence :
    ToStringMap (RawObject.seq [RawObject.imap [(RawObject.str "a", RawObject.str "b")]])
      = some (RawObject.seq [RawObject.imap [(RawObject.str "a", RawObject.str "b")]]) ∧
    (RawObject.seq [RawObject.imap [(RawObject.str "a", RawObject.str "b")]]).hasInterfaceMap
      = true ∧
    ToStringMap (RawObject.imap [(RawObject.str "x",
        RawObject.imap [(RawObject.str "a", RawObject.str "b")])])
      = some (RawObject.smap [("x", RawObject.smap [("a", RawObject.str "b")])]) := by
  refine ⟨by simp [ToStringMap], by simp [RawObject.hasInterfaceMap, anyHasInterfaceMap], ?_⟩
  simp [ToStringMap, toStringMapEntries, goMapAssign]

/-! ## `strings.ReplaceAll` -/

/-- The replacement does not depend on the steps allowed once they are as many as the
bytes of the text. -/
theorem replaceAllAux_fuel (old new : GoString) (hne : old ≠ []) :
    ∀ (n m : Nat) (s : GoString), s.length ≤ n → s.length ≤ m →
      replaceAllAux old new n s = replaceAllAux old new m s
  | _, _, [], _, _ => by
    rename_i n m
    cases n <;> cases m <;> rfl
  | 0, _, _ :: _, h, _ => by simp at h
  | _ + 1, 0, _ :: _, _, h => by simp at h
  | n + 1, m + 1, c :: cs, hn, hm => by
    have hpos : 0 < old.length := List.length_pos.mpr hne
    simp only [List.length_cons] at hn hm
    simp only [replaceAllAux]
    by_cases hp : old.isPrefixOf (c :: cs) = true
    · rw [if_pos hp, if_pos hp]
      have hd : ((c :: cs).drop old.length).length ≤ cs.length := by
        simp only [List.length_drop, List.length_cons]
        omega
      rw [replaceAllAux_fuel old new hne n m _ (by omega) (by omega)]
    · rw [if_neg hp, if_neg hp, replaceAllAux_fuel old new hne n m cs (by omega) (by omega)]

/-- Nothing is replaced in the empty text. -/
theorem replaceAll_nil (old new : GoString) : replaceAll [] old new = [] := rfl

/-- A text that starts with `old` is replaced by `new` followed by the replacement of
what follows `old`. -/
theorem replaceAll_of_isPrefix (old new s : GoString) (hne : old ≠ []) (hp : old <+: s) :
    replaceAll s old new = new ++ replaceAll (s.drop old.length) old new := by
  have hpos : 0 < old.length := List.length_pos.mpr hne
  cases s with
  | nil =>
    exact absurd (List.prefix_nil.mp hp) hne
  | cons c cs =>
    unfold replaceAll
    simp only [List.length_cons, replaceAllAux, List.isPrefixOf_iff_prefix.mpr hp, if_true]
    rw [replaceAllAux_fuel old new hne cs.length ((c :: cs).drop old.length).length _
      (by simp only [List.length_drop, List.length_cons]; omega) (le_refl _)]

/-- A text that does not start with `old` keeps its first byte. -/
theorem replaceAll_of_not_isPrefix (old new : GoString) (c : Nat) (cs : GoString)
    (hp : ¬ old <+: c :: cs) :
    replaceAll (c :: cs) old new = c :: replaceAll cs old new := by
  unfold replaceAll
  have hb : ¬ old.isPrefixOf (c :: cs) = true := fun h => hp (List.isPrefixOf_iff_prefix.mp h)
  simp only [List.length_cons, replaceAllAux, if_neg hb]

/-- A text that starts with bytes that are not the first byte of `old` keeps them. -/
theorem replaceAll_append_of_not_mem (h : Nat) (t new : GoString) :
    ∀ (b u : GoString), h ∉ b →
      replaceAll (b ++ u) (h :: t) new = b ++ replaceAll u (h :: t) new
  | [], _, _ => rfl
  | x :: b, u, hb => by
    simp only [List.mem_cons, not_or] at hb
    have hp : ¬ (h :: t) <+: x :: (b ++ u) := by
      intro hpre
      rcases List.prefix_cons_iff.mp hpre with h1 | ⟨r, h1, _⟩
      · simp at h1
      · simp only [List.cons.injEq] at h1
        exact hb.1 h1.1
    rw [List.cons_append, replaceAll_of_not_isPrefix _ _ _ _ hp,
      replaceAll_append_of_not_mem h t new b u hb.2, List.cons_append]

/-- The replacement of `old` followed by a text. -/
theorem replaceAll_old_append (old new u : GoString) (hne : old ≠ []) :
    replaceAll (old ++ u) old new = new ++ replaceAll u old new := by
  rw [replaceAll_of_isPrefix old new _ hne (List.prefix_append old u), List.drop_left]

/-! ## The order of the secrets -/

/-- Masking a text for a value leaves the three stars of an earlier masking alone when
the value has no `*`. -/
theorem replaceAll_stars_append (b u : GoString) (hb : b ≠ []) (hb42 : 42 ∉ b) :
    replaceAll (stars ++ u) b stars = stars ++ replaceAll u b stars := by
  obtain ⟨b0, bt, rfl⟩ := List.exists_cons_of_ne_nil hb
  apply replaceAll_append_of_not_mem
  intro hm
  have : b0 = 42 := by simpa [stars, ascii] using hm
  exact hb42 (by rw [this]; exact List.mem_cons_self _ _)

/-- What `startsInside b a = false` says of the ends of `a`. -/
theorem not_startsInside (a b x : GoString) (h : startsInside b a = false) (hx : x <:+ a)
    (hne : x ≠ []) : ¬ b <+: x ∧ ¬ x <+: b := by
  unfold startsInside at h
  rw [List.any_eq_false] at h
  have h1 := h x ((List.mem_tails x a).mpr hx)
  have h2 : x.isEmpty = false := by
    cases x with
    | nil => exact absurd rfl hne
    | cons _ _ => rfl
  simp only [h2, Bool.not_false, Bool.true_and, Bool.or_eq_true, not_or,
    List.isPrefixOf_iff_prefix] at h1
  exact h1

/-- A text that starts with an end of `a` keeps it when it is searched for a value no
occurrence of which can start inside `a`. -/
theorem replaceAll_append_of_not_startsInside (b new a : GoString)
    (h : startsInside b a = false) :
    ∀ (a2 u : GoString), a2 <:+ a → replaceAll (a2 ++ u) b new = a2 ++ replaceAll u b new
  | [], _, _ => rfl
  | c :: a2, u, hs => by
    have hp : ¬ b <+: c :: (a2 ++ u) := by
      intro hpre
      have h1 := not_startsInside a b (c :: a2) h hs (List.cons_ne_nil _ _)
      rcases List.prefix_or_prefix_of_prefix hpre
        (List.prefix_append (c :: a2) u) with h2 | h2
      · exact h1.1 h2
      · exact h1.2 h2
    rw [List.cons_append, replaceAll_of_not_isPrefix _ _ _ _ hp,
      replaceAll_append_of_not_startsInside b new a h a2 u
        ((List.suffix_cons c a2).trans hs), List.cons_append]

/-- The maskings for two values without `*` that do not overlap commute. -/
theorem replaceAll_stars_comm (a b : GoString) (ha : a ≠ []) (hb : b ≠ [])
    (hab : overlap a b = false) (ha42 : 42 ∉ a) (hb42 : 42 ∉ b) :
    ∀ (n : Nat) (s : GoString), s.length ≤ n →
      replaceAll (replaceAll s a stars) b stars = replaceAll (replaceAll s b stars) a stars
  | _, [], _ => by simp [replaceAll_nil]
  | 0, _ :: _, h => by simp at h
  | n + 1, c :: cs, h => by
    have hba1 : startsInside b a = false := by
      unfold overlap at hab
      simp only [Bool.or_eq_false_iff] at hab
      exact hab.1
    have hab1 : startsInside a b = false := by
      unfold overlap at hab
      simp only [Bool.or_eq_false_iff] at hab
      exact hab.2
    simp only [List.length_cons] at h
    have hapos : 0 < a.length := List.length_pos.mpr ha
    have hbpos : 0 < b.length := List.length_pos.mpr hb
    by_cases hpa : a <+: c :: cs
    · obtain ⟨u, hu⟩ := hpa
      have hlen : u.length ≤ n := by
        have := congrArg List.length hu
        simp only [List.length_append, List.length_cons] at this
        omega
      rw [← hu, replaceAll_old_append a stars u ha, replaceAll_stars_append b _ hb hb42,
        replaceAll_stars_comm a b ha hb hab ha42 hb42 n u hlen,
        replaceAll_append_of_not_startsInside b stars a hba1 a u (List.suffix_refl a),
        replaceAll_old_append a stars _ ha]
    · by_cases hpb : b <+: c :: cs
      · obtain ⟨u, hu⟩ := hpb
        have hlen : u.length ≤ n := by
          have := congrArg List.length hu
          simp only [List.length_append, List.length_cons] at this
          omega
        rw [← hu, replaceAll_old_append b stars u hb, replaceAll_stars_append a _ ha ha42,
          ← replaceAll_stars_comm a b ha hb hab ha42 hb42 n u hlen,
          replaceAll_append_of_not_startsInside a stars b hab1 b u (List.suffix_refl b),
          replaceAll_old_append b stars _ hb]
      · have h1 : ¬ b <+: c :: replaceAll cs a stars :=
          not_prefix_cons_replaceAllAux a b hb42 cs.length c cs hpb
        have h2 : ¬ a <+: c :: replaceAll cs b stars :=
          not_prefix_cons_replaceAllAux b a ha42 cs.length c cs hpa
        rw [replaceAll_of_not_isPrefix a stars c cs hpa, replaceAll_of_not_isPrefix b stars c cs hpb,
          replaceAll_of_not_isPrefix b stars c _ h1, replaceAll_of_not_isPrefix a stars c _ h2,
          replaceAll_stars_comm a b ha hb hab ha42 hb42 n cs (by omega)]

/-- The test `startsInside` in words: `b` occurs inside `a`, or a non-empty end of `a`
is a beginning of `b`. -/
theorem startsInside_iff (a b : GoString) (hb : b ≠ []) :
    startsInside b a = true ↔ b <:+: a ∨ ∃ x, x ≠ [] ∧ x <:+ a ∧ x <+: b := by
  unfold startsInside
  rw [List.any_eq_true]
  constructor
  · rintro ⟨x, hx, h⟩
    have hs : x <:+ a := (List.mem_tails x a).mp hx
    simp only [Bool.and_eq_true, Bool.not_eq_true', Bool.or_eq_true,
      List.isPrefixOf_iff_prefix] at h
    have hne : x ≠ [] := by
      intro e
      rw [e] at h
      simp at h
    rcases h.2 with h1 | h1
    · exact Or.inl (List.infix_iff_prefix_suffix.mpr ⟨x, h1, hs⟩)
    · exact Or.inr ⟨x, hne, hs, h1⟩
  · rintro (h | ⟨x, hne, hs, hp⟩)
    · obtain ⟨t, h1, h2⟩ := List.infix_iff_prefix_suffix.mp h
      have hne : t ≠ [] := by
        intro e
        rw [e] at h1
        exact hb (List.prefix_nil.mp h1)
      refine ⟨t, (List.mem_tails t a).mpr h2, ?_⟩
      cases t with
      | nil => exact absurd rfl hne
      | cons c t => simp [List.isPrefixOf_iff_prefix.mpr h1]
    · refine ⟨x, (List.mem_tails x a).mpr hs, ?_⟩
      cases x with
      | nil => exact absurd rfl hne
      | cons c t => simp [List.isPrefixOf_iff_prefix.mpr hp]

/-- The test `overlap` in words: one value occurs inside the other, or a non-empty end
of one is a beginning of the other. -/
theorem overlap_iff (a b : GoString) (ha : a ≠ []) (hb : b ≠ []) :
    overlap a b = true ↔
      (b <:+: a ∨ ∃ x, x ≠ [] ∧ x <:+ a ∧ x <+: b) ∨
      (a <:+: b ∨ ∃ x, x ≠ [] ∧ x <:+ b ∧ x <+: a) := by
  unfold overlap
  rw [Bool.or_eq_true, startsInside_iff a b hb, startsInside_iff b a ha]

/-- The loop over the variables as a fold of the maskings. -/
theorem maskSecrets_eq_foldl :
    ∀ (vars : List (String × VariableValue)) (msg : GoString),
      maskSecrets vars msg = vars.foldl
        (fun m kv =>
          if kv.2.IsSecret && decide (0 < kv.2.Value.length) then replaceAll m kv.2.Value stars
          else m) msg
  | [], _ => rfl
  | (k, v) :: vs, msg => by
    simp only [maskSecrets, List.foldl_cons]
    split
    · rw [maskSecrets_eq_foldl vs]
      rfl
    · rw [maskSecrets_eq_foldl vs]

/-- The masking of the secrets does not depend on the order in which the variables are
visited when no secret value has a `*` and two secret values are equal or do
not overlap. -/
theorem maskSecrets_perm (vars vars1 : List (String × VariableValue)) (msg : GoString)
    (hperm : vars.Perm vars1)
    (hstar : ∀ x ∈ vars, x.2.IsSecret = true → 42 ∉ x.2.Value)
    (hover : ∀ x ∈ vars, ∀ y ∈ vars, x.2.IsSecret = true → y.2.IsSecret = true →
      x.2.Value ≠ [] → y.2.Value ≠ [] →
      x.2.Value = y.2.Value ∨ overlap x.2.Value y.2.Value = false) :
    maskSecrets vars msg = maskSecrets vars1 msg := by
  rw [maskSecrets_eq_foldl, maskSecrets_eq_foldl]
  apply List.Perm.foldl_eq' hperm
  intro x hx y hy z
  by_cases hsx : (x.2.IsSecret && decide (0 < x.2.Value.length)) = true
  · by_cases hsy : (y.2.IsSecret && decide (0 < y.2.Value.length)) = true
    · simp only [hsx, hsy, if_true]
      simp only [Bool.and_eq_true, decide_eq_true_eq] at hsx hsy
      rcases hover x hx y hy hsx.1 hsy.1 (List.length_pos.mp hsx.2)
        (List.length_pos.mp hsy.2) with he | hd
      · rw [he]
      · exact replaceAll_stars_comm x.2.Value y.2.Value (List.length_pos.mp hsx.2)
          (List.length_pos.mp hsy.2) hd (hstar x hx hsx.1) (hstar y hy hsy.1) z.length z
          (le_refl _)
    · simp only [hsx, hsy, if_true]
      simp
  · simp only [hsx]
    simp

/-- C27, as the code has it: the masked message of `Format` is the same for every order
in which the variables are visited, provided no secret value contains `*` and
any two non-empty secret values are equal or do not overlap: neither occurs
inside the other and no non-empty end of one is a beginning of the other
(`overlap_iff`). -/
theorem maskMessage_order_independent (re : GoString → Option (GoString → GoString))
    (hints : Option (List MaskHint)) (vars vars1 : List (String × VariableValue))
    (msg : GoString) (hperm : vars.Perm vars1)
    (hstar : ∀ x ∈ vars, x.2.IsSecret = true → 42 ∉ x.2.Value)
    (hover : ∀ x ∈ vars, ∀ y ∈ vars, x.2.IsSecret = true → y.2.IsSecret = true →
      x.2.Value ≠ [] → y.2.Value ≠ [] →
      x.2.Value = y.2.Value ∨ overlap x.2.Value y.2.Value = false) :
    maskMessage re { MaskHints := hints, Variables := some vars } msg
      = maskMessage re { MaskHints := hints, Variables := some vars1 } msg := by
  have key : ∀ o : Option GoString,
      (match o with
        | none => none
        | some m => some (maskSecrets vars m))
      = (match o with
        | none => (none : Option GoString)
        | some m => some (maskSecrets vars1 m)) := by
    intro o
    cases o with
    | none => rfl
    | some m => simp only [maskSecrets_perm vars vars1 m hperm hstar hover]
  exact key _

/-- Witness for C27: the secret values `abcd1234` and `hunter2` share the byte `2` and
do not overlap; a message with both is masked the same in either order. -/
theorem maskMessage_order_independent_witness :
    maskMessage (fun _ => none)
        { MaskHints := none,
          Variables := some [("A", { Value := ascii "abcd1234", IsSecret := true }),
                             ("B", { Value := ascii "hunter2", IsSecret := true })] }
        (ascii "key abcd1234 pw hunter2")
      = maskMessage (fun _ => none)
        { MaskHints := none,
          Variables := some [("B", { Value := ascii "hunter2", IsSecret := true }),
                             ("A", { Value := ascii "abcd1234", IsSecret := true })] }
        (ascii "key abcd1234 pw hunter2") :=
  maskMessage_order_independent (fun _ => none) none
    [("A", { Value := ascii "abcd1234", IsSecret := true }),
     ("B", { Value := ascii "hunter2", IsSecret := true })]
    [("B", { Value := ascii "hunter2", IsSecret := true }),
     ("A", { Value := ascii "abcd1234", IsSecret := true })]
    (ascii "key abcd1234 pw hunter2") (List.Perm.swap _ _ _) (by decide) (by decide)

/-- C27 fails as stated. (1) With the overlapping secret values `ab` and `bc`, the
message `abc` is masked as `***c` when `ab` is visited first and as `a***`
when `bc` is. (2) With the secret values `x` and `*`, the message `x` is
masked as nine stars when `x` is visited first, the stars written for `x`
being masked again, and as three when `*` is. -/
theorem maskMessage_depends_on_order :
    (overlap (ascii "ab") (ascii "bc") = true ∧
      maskMessage (fun _ => none)
        { MaskHints := none,
          Variables := some [("A", { Value := ascii "ab", IsSecret := true }),
                             ("B", { Value := ascii "bc", IsSecret := true })] }
        (ascii "abc") = some (ascii "***c") ∧
      maskMessage (fun _ => none)
        { MaskHints := none,
          Variables := some [("B", { Value := ascii "bc", IsSecret := true }),
                             ("A", { Value := ascii "ab", IsSecret := true })] }
        (ascii "abc") = some (ascii "a***")) ∧
    (overlap (ascii "x") (ascii "*") = false ∧
      maskMessage (fun _ => none)
        { MaskHints := none,
          Variables := some [("A", { Value := ascii "x", IsSecret := true }),
                             ("B", { Value := ascii "*", IsSecret := true })] }
        (ascii "x") = some (ascii "*********") ∧
      maskMessage (fun _ => none)
        { MaskHints := none,
          Variables := some [("B", { Value := ascii "*", IsSecret := true }),
                             ("A", { Value := ascii "x", IsSecret := true })] }
        (ascii "x") = some (ascii "***")) := by
  refine ⟨⟨by decide, by decide, by decide⟩, by decide, by decide, by decide⟩
/-! ## The URL builder -/

/-- Two names without `}` that are followed by `}` in texts of which one starts the
other are equal. -/
theorem eq_of_append_brace_isPrefix :
    ∀ (p name R : GoString), 125 ∉ p → 125 ∉ name → p ++ [125] <+: name ++ 125 :: R → p = name
  | [], [], _, _, _, _ => rfl
  | [], x :: name, R, _, hn, h => by
    have : (125 : Nat) = x := (List.cons_prefix_cons.mp h).1
    exact absurd (by rw [this]; exact List.mem_cons_self _ _) hn
  | y :: p, [], R, hp, _, h => by
    have : y = 125 := (List.cons_prefix_cons.mp h).1
    exact absurd (by rw [← this]; exact List.mem_cons_self _ _) hp
  | y :: p, x :: name, R, hp, hn, h => by
    simp only [List.mem_cons, not_or] at hp hn
    obtain ⟨hxy, hrest⟩ := List.cons_prefix_cons.mp h
    rw [hxy, eq_of_append_brace_isPrefix p name R hp.2 hn.2 hrest]

/-- The replacement of `{p}` by `v` in a template of pieces without braces replaces the
placeholders of name `p`, piece by piece. -/
theorem replaceAll_renderSegs (p v : GoString) (hp : 125 ∉ p) :
    ∀ (segs : List Seg), (∀ seg ∈ segs, seg.braceFree) →
      replaceAll (renderSegs segs) ([123] ++ p ++ [125]) v
        = renderSegs (segs.map (Seg.substOne p v))
  | [], _ => rfl
  | Seg.lit s :: rest, h => by
    have hs : 123 ∉ s := (h (Seg.lit s) (List.mem_cons_self _ _)).1
    have ih := replaceAll_renderSegs p v hp rest (fun seg hm => h seg (List.mem_cons_of_mem _ hm))
    simp only [renderSegs, Seg.render, List.map_cons, Seg.substOne]
    rw [← ih]
    exact replaceAll_append_of_not_mem 123 (p ++ [125]) v s _ hs
  | Seg.ph name :: rest, h => by
    have hname := h (Seg.ph name) (List.mem_cons_self _ _)
    have ih := replaceAll_renderSegs p v hp rest (fun seg hm => h seg (List.mem_cons_of_mem _ hm))
    simp only [renderSegs, Seg.render, List.map_cons, Seg.substOne]
    by_cases hnp : name = p
    · subst hnp
      rw [if_pos rfl]
      simp only [Seg.render]
      rw [← ih]
      exact replaceAll_old_append _ v _ (by simp)
    · rw [if_neg hnp]
      simp only [Seg.render]
      have hnot : ¬ ([123] ++ p ++ [125]) <+: 123 :: (name ++ 125 :: renderSegs rest) := by
        intro hpre
        have h2 : p ++ [125] <+: name ++ 125 :: renderSegs rest := by
          have h3 : 123 :: (p ++ [125]) <+: 123 :: (name ++ 125 :: renderSegs rest) := by
            simpa using hpre
          exact (List.cons_prefix_cons.mp h3).2
        exact hnp (eq_of_append_brace_isPrefix p name _ hp hname.2 h2).symm
      have hnot2 : ¬ ([123] ++ p ++ [125]) <+: 125 :: renderSegs rest := by
        intro hpre
        simp at hpre
      have e1 : [123] ++ name ++ [125] ++ renderSegs rest
          = 123 :: (name ++ 125 :: renderSegs rest) := by simp
      rw [e1, replaceAll_of_not_isPrefix _ v 123 _ hnot]
      have e2 : replaceAll (name ++ 125 :: renderSegs rest) ([123] ++ p ++ [125]) v
          = name ++ replaceAll (125 :: renderSegs rest) ([123] ++ p ++ [125]) v :=
        replaceAll_append_of_not_mem 123 (p ++ [125]) v name _ hname.1
      rw [e2, replaceAll_of_not_isPrefix _ v 125 _ hnot2, ih]
      simp

/-- A piece without braces stays without braces when a placeholder is replaced by a
value without braces. -/
theorem braceFree_substOne (p v : GoString) (hv : 123 ∉ v ∧ 125 ∉ v) (seg : Seg)
    (h : seg.braceFree) : (seg.substOne p v).braceFree := by
  cases seg with
  | lit s => exact h
  | ph name =>
    simp only [Seg.substOne]
    split
    · exact hv
    · exact h

/-- The replacements for the parameters in visiting order, on a template of pieces
without braces, for keys and values without braces: piece by piece. -/
theorem substituteParams_renderSegs :
    ∀ (ps : List (GoString × GoString)) (segs : List Seg),
      (∀ kv ∈ ps, 125 ∉ kv.1 ∧ 123 ∉ kv.2 ∧ 125 ∉ kv.2) → (∀ seg ∈ segs, seg.braceFree) →
      substituteParams ps (renderSegs segs) = renderSegs (segs.map (Seg.substAll ps))
  | [], segs, _, _ => by
    have hid : segs.map (Seg.substAll []) = segs := by
      have : Seg.substAll [] = id := rfl
      rw [this, List.map_id]
    rw [hid]
    rfl
  | (p, v) :: rest, segs, hps, hsegs => by
    have hpv := hps (p, v) (List.mem_cons_self _ _)
    simp only [substituteParams]
    rw [replaceAll_renderSegs p v hpv.1 segs hsegs,
      substituteParams_renderSegs rest _ (fun kv hm => hps kv (List.mem_cons_of_mem _ hm))
        (by
          intro seg hm
          obtain ⟨seg0, hm0, rfl⟩ := List.mem_map.mp hm
          exact braceFree_substOne p v hpv.2 seg0 (hsegs seg0 hm0)),
      List.map_map]
    rfl

/-- The replacements one after the other leave a text piece as it is. -/
theorem substAll_lit : ∀ (ps : List (GoString × GoString)) (s : GoString),
    Seg.substAll ps (Seg.lit s) = Seg.lit s
  | [], _ => rfl
  | (p, v) :: rest, s => by
    simp only [Seg.substAll, Seg.substOne]
    exact substAll_lit rest s

/-- The replacements one after the other turn a placeholder into the value of the first
parameter that has its name. -/
theorem substAll_eq_subst : ∀ (ps : List (GoString × GoString)) (seg : Seg),
    Seg.substAll ps seg = seg.subst ps
  | [], Seg.lit _ => rfl
  | [], Seg.ph _ => rfl
  | (p, v) :: rest, Seg.lit s => by
    rw [substAll_lit]
    rfl
  | (p, v) :: rest, Seg.ph name => by
    simp only [Seg.substAll, Seg.substOne, Seg.subst, List.lookup_cons]
    by_cases hnp : name = p
    · subst hnp
      simp [substAll_lit]
    · have hb : (name == p) = false := by simpa using hnp
      rw [if_neg hnp, hb, substAll_eq_subst rest (Seg.ph name)]
      rfl

/-- In a list without two equal keys, an entry is what `lookup` finds under its key. -/
theorem lookup_eq_some_of_mem {β : Type} :
    ∀ (l : List (GoString × β)) (k : GoString) (v : β), (l.map Prod.fst).Nodup → (k, v) ∈ l →
      l.lookup k = some v
  | [], _, _, _, h => by simp at h
  | (k1, v1) :: rest, k, v, hn, h => by
    simp only [List.map_cons, List.nodup_cons, List.mem_map, not_exists, not_and] at hn
    simp only [List.mem_cons, Prod.mk.injEq] at h
    rcases h with ⟨hk, hv⟩ | h
    · subst hk
      subst hv
      simp [List.lookup_cons]
    · have hne : ¬ k = k1 := fun e => hn.1 (k, v) h e
      have hb : (k == k1) = false := by simpa using hne
      rw [List.lookup_cons, hb]
      exact lookup_eq_some_of_mem rest k v hn.2 h

/-- What `lookup` finds is an entry of the list. -/
theorem mem_of_lookup_eq_some {β : Type} :
    ∀ (l : List (GoString × β)) (k : GoString) (v : β), l.lookup k = some v → (k, v) ∈ l
  | [], _, _, h => by simp at h
  | (k1, v1) :: rest, k, v, h => by
    rw [List.lookup_cons] at h
    by_cases hk : k = k1
    · subst hk
      simp only [beq_self_eq_true, Option.some.injEq] at h
      subst h
      exact List.mem_cons_self _ _
    · have hb : (k == k1) = false := by simpa using hk
      rw [hb] at h
      exact List.mem_cons_of_mem _ (mem_of_lookup_eq_some rest k v h)

/-- Reading a map does not depend on the order of its entries. -/
theorem lookup_perm_of_nodup {β : Type} (l1 l2 : List (GoString × β)) (h : l1.Perm l2)
    (hn : (l2.map Prod.fst).Nodup) (k : GoString) : l1.lookup k = l2.lookup k := by
  have hn1 : (l1.map Prod.fst).Nodup := (h.map Prod.fst).nodup_iff.mpr hn
  cases h1 : l1.lookup k with
  | some v =>
    rw [lookup_eq_some_of_mem l2 k v hn (h.mem_iff.mp (mem_of_lookup_eq_some l1 k v h1))]
  | none =>
    cases h2 : l2.lookup k with
    | none => rfl
    | some v =>
      rw [lookup_eq_some_of_mem l1 k v hn1 (h.mem_iff.mpr (mem_of_lookup_eq_some l2 k v h2))]
        at h1
      simp at h1

/-- A match of the braces takes a beginning of the text that is not empty. -/
theorem matchBraces_eq_some (s rest : GoString) (h : matchBraces s = some rest) :
    ∃ pre, pre ≠ [] ∧ s = pre ++ rest := by
  cases s with
  | nil => simp [matchBraces] at h
  | cons c t =>
    simp only [matchBraces] at h
    by_cases hc : c = 123
    · rw [if_pos hc] at h
      cases hd : t.dropWhile (fun x => x != 125) with
      | nil => simp [hd] at h
      | cons d r =>
        simp only [hd] at h
        split at h
        · simp only [Option.some.injEq] at h
          subst h
          refine ⟨c :: (t.takeWhile (fun x => x != 125) ++ [d]), by simp, ?_⟩
          have := List.takeWhile_append_dropWhile (fun x => x != 125) t
          rw [hd] at this
          simp only [List.cons_append, List.append_assoc, List.singleton_append,
            List.nil_append, this]
        · simp at h
    · rw [if_neg hc] at h
      simp at h

/-- A match of the pattern takes a beginning of the text that is not empty. -/
theorem matchPlaceholder_eq_some (s rest : GoString) (h : matchPlaceholder s = some rest) :
    ∃ pre, pre ≠ [] ∧ s = pre ++ rest := by
  unfold matchPlaceholder at h
  obtain ⟨pre, hpre, he⟩ := matchBraces_eq_some _ rest h
  refine ⟨s.takeWhile (fun x => x == 47) ++ pre, by simp [hpre], ?_⟩
  rw [List.append_assoc, ← he, List.takeWhile_append_dropWhile]

/-- The removal of the placeholders only drops bytes. -/
theorem mem_removePlaceholdersAux :
    ∀ (n : Nat) (s : GoString) (x : Nat), x ∈ removePlaceholdersAux n s → x ∈ s
  | 0, _, _, h => h
  | _ + 1, [], _, h => by simp [removePlaceholdersAux] at h
  | n + 1, c :: cs, x, h => by
    unfold removePlaceholdersAux at h
    cases hm : matchPlaceholder (c :: cs) with
    | some rest =>
      simp only [hm] at h
      obtain ⟨pre, -, he⟩ := matchPlaceholder_eq_some _ rest hm
      rw [he]
      exact List.mem_append_right _ (mem_removePlaceholdersAux n rest x h)
    | none =>
      simp only [hm, List.mem_cons] at h
      rcases h with h | h
      · rw [h]
        exact List.mem_cons_self _ _
      · exact List.mem_cons_of_mem _ (mem_removePlaceholdersAux n cs x h)

/-- An opening brace at which the pattern does not match ends the text, or is followed
by a closing brace, or has no closing brace after it. -/
theorem matchPlaceholder_open_none (cs : GoString) (h : matchPlaceholder (123 :: cs) = none) :
    cs = [] ∨ (∃ cs1, cs = 125 :: cs1) ∨ 125 ∉ cs := by
  have h1 : matchPlaceholder (123 :: cs) = matchBraces (123 :: cs) := by
    simp [matchPlaceholder, List.dropWhile_cons]
  rw [h1] at h
  simp only [matchBraces, if_true] at h
  cases cs with
  | nil => exact Or.inl rfl
  | cons c0 cs1 =>
    by_cases hc0 : c0 = 125
    · exact Or.inr (Or.inl ⟨cs1, by rw [hc0]⟩)
    · right
      right
      cases hd : (c0 :: cs1).dropWhile (fun x => x != 125) with
      | nil =>
        intro hm
        have := List.dropWhile_eq_nil_iff.mp hd 125 hm
        simp at this
      | cons d r =>
        rw [hd] at h
        have hb : (c0 != 125) = true := by simpa using hc0
        simp [List.takeWhile_cons, hb] at h

/-- The removal does not depend on the steps allowed once they are as many as the bytes
of the text. -/
theorem removePlaceholdersAux_fuel :
    ∀ (n m : Nat) (s : GoString), s.length ≤ n → s.length ≤ m →
      removePlaceholdersAux n s = removePlaceholdersAux m s
  | _, _, [], _, _ => by
    rename_i n m
    cases n <;> cases m <;> rfl
  | 0, _, _ :: _, h, _ => by simp at h
  | _ + 1, 0, _ :: _, _, h => by simp at h
  | n + 1, m + 1, c :: cs, hn, hm => by
    simp only [List.length_cons] at hn hm
    simp only [removePlaceholdersAux]
    cases hmatch : matchPlaceholder (c :: cs) with
    | some rest =>
      obtain ⟨pre, hpre, he⟩ := matchPlaceholder_eq_some _ rest hmatch
      have hlen : rest.length ≤ cs.length := by
        have h1 := congrArg List.length he
        have h2 : 0 < pre.length := List.length_pos.mpr hpre
        simp only [List.length_cons, List.length_append] at h1
        omega
      exact removePlaceholdersAux_fuel n m rest (by omega) (by omega)
    | none =>
      simp only
      rw [removePlaceholdersAux_fuel n m cs (by omega) (by omega)]

/-- The removal from a text at whose start the pattern matches. -/
theorem removePlaceholders_of_match (s rest : GoString) (h : matchPlaceholder s = some rest) :
    removePlaceholders s = removePlaceholders rest := by
  obtain ⟨pre, hpre, he⟩ := matchPlaceholder_eq_some _ rest h
  cases s with
  | nil => simp at he; exact absurd he.1 hpre
  | cons c cs =>
    have hlen : rest.length ≤ cs.length := by
      have h1 := congrArg List.length he
      have h2 : 0 < pre.length := List.length_pos.mpr hpre
      simp only [List.length_cons, List.length_append] at h1
      omega
    unfold removePlaceholders
    simp only [List.length_cons, removePlaceholdersAux, h]
    exact removePlaceholdersAux_fuel _ _ rest hlen (le_refl _)

/-- The removal from a text at whose start the pattern does not match. -/
theorem removePlaceholders_of_no_match (c : Nat) (cs : GoString)
    (h : matchPlaceholder (c :: cs) = none) :
    removePlaceholders (c :: cs) = c :: removePlaceholders cs := by
  unfold removePlaceholders
  simp only [List.length_cons, removePlaceholdersAux, h]

/-- The pattern matches a run of slashes followed by a placeholder whose name is not
empty and has no closing brace. -/
theorem matchPlaceholder_slashes_placeholder (k : Nat) (name R : GoString) (hne : name ≠ [])
    (h125 : 125 ∉ name) :
    matchPlaceholder (List.replicate k 47 ++ 123 :: (name ++ 125 :: R)) = some R := by
  have hdrop : (List.replicate k 47 ++ 123 :: (name ++ 125 :: R)).dropWhile (fun x => x == 47)
      = 123 :: (name ++ 125 :: R) := by
    induction k with
    | zero => simp [List.dropWhile_cons]
    | succ k _ => simp [List.replicate_succ, List.dropWhile_cons]
  have hall : ∀ x ∈ name, (x != 125) = true := by
    intro x hx
    have : x ≠ 125 := fun e => h125 (e ▸ hx)
    simpa using this
  have hd : (name ++ 125 :: R).dropWhile (fun x => x != 125) = 125 :: R := by
    rw [List.dropWhile_append_of_pos hall]
    simp [List.dropWhile_cons]
  have ht : (name ++ 125 :: R).takeWhile (fun x => x != 125) = name := by
    rw [List.takeWhile_append_of_pos hall]
    simp [List.takeWhile_cons]
  unfold matchPlaceholder
  rw [hdrop]
  simp only [matchBraces, if_true, hd, ht]
  rw [if_pos hne]

/-- The pattern does not match at the start of a text without opening brace that
does not end with a slash, whatever follows the text. -/
theorem matchPlaceholder_text_append :
    ∀ (L X : GoString), L ≠ [] → 123 ∉ L → L.getLast? ≠ some 47 →
      matchPlaceholder (L ++ X) = none
  | [], _, h, _, _ => absurd rfl h
  | [c], X, _, h123, hlast => by
    have hc47 : c ≠ 47 := by simpa using hlast
    have hc123 : c ≠ 123 := by simpa [eq_comm] using h123
    have hb : (c == 47) = false := by simpa using hc47
    simp [matchPlaceholder, List.dropWhile_cons, hb, matchBraces, hc123]
  | c :: c1 :: L, X, _, h123, hlast => by
    simp only [List.mem_cons, not_or] at h123
    by_cases hc47 : c = 47
    · have ih := matchPlaceholder_text_append (c1 :: L) X (by simp)
        (by simp only [List.mem_cons, not_or]; exact h123.2)
        (by simpa [List.getLast?_cons_cons] using hlast)
      have hb : (c == 47) = true := by simpa using hc47
      have hstep : matchPlaceholder ((c :: c1 :: L) ++ X) = matchPlaceholder ((c1 :: L) ++ X) := by
        simp only [matchPlaceholder, List.cons_append]
        rw [List.dropWhile_cons, if_pos hb]
      rw [hstep, ih]
    · have hb : (c == 47) = false := by simpa using hc47
      have hc123 : c ≠ 123 := fun e => h123.1 e.symm
      simp [matchPlaceholder, List.dropWhile_cons, hb, matchBraces, hc123]

/-- A text without opening brace that does not end with a slash is kept by the
removal, whatever follows it. -/
theorem removePlaceholders_text_append :
    ∀ (L X : GoString), 123 ∉ L → L.getLast? ≠ some 47 →
      removePlaceholders (L ++ X) = L ++ removePlaceholders X
  | [], _, _, _ => rfl
  | c :: L, X, h123, hlast => by
    have hm := matchPlaceholder_text_append (c :: L) X (by simp) h123 hlast
    have hL : L.getLast? ≠ some 47 := by
      cases L with
      | nil => simp
      | cons c1 L1 => simpa [List.getLast?_cons_cons] using hlast
    simp only [List.mem_cons, not_or] at h123
    rw [List.cons_append] at hm ⊢
    rw [removePlaceholders_of_no_match c _ hm, removePlaceholders_text_append L X h123.2 hL]
    rfl

/-- A text without opening brace is kept by the removal. -/
theorem removePlaceholders_of_no_brace :
    ∀ (s : GoString), 123 ∉ s → removePlaceholders s = s
  | [], _ => rfl
  | c :: cs, h => by
    have hm : matchPlaceholder (c :: cs) = none := by
      unfold matchPlaceholder
      cases hd : (c :: cs).dropWhile (fun x => x == 47) with
      | nil => rfl
      | cons d r =>
        have hmem : d ∈ c :: cs :=
          (List.dropWhile_sublist _).subset (by rw [hd]; exact List.mem_cons_self _ _)
        have hd123 : d ≠ 123 := fun e => h (e ▸ hmem)
        simp [matchBraces, hd123]
    simp only [List.mem_cons, not_or] at h
    rw [removePlaceholders_of_no_match c cs hm, removePlaceholders_of_no_brace cs h.2]

/-- A text is what is left of it without the slashes at its end, followed by slashes,
and what is left does not end with a slash. -/
theorem stripSlashes_spec (out : GoString) :
    (∃ k, out = stripSlashes out ++ List.replicate k 47) ∧
    (stripSlashes out).getLast? ≠ some 47 ∧ ∀ x ∈ stripSlashes out, x ∈ out := by
  refine ⟨⟨(out.reverse.takeWhile (fun x => x == 47)).length, ?_⟩, ?_, ?_⟩
  · have h1 := List.takeWhile_append_dropWhile (fun x => x == 47) out.reverse
    have h2 : out.reverse.takeWhile (fun x => x == 47)
        = List.replicate (out.reverse.takeWhile (fun x => x == 47)).length 47 := by
      apply List.eq_replicate_iff.mpr
      refine ⟨rfl, fun x hx => ?_⟩
      have := List.mem_takeWhile_imp hx
      simpa using this
    have h3 := congrArg List.reverse h1
    rw [List.reverse_append, List.reverse_reverse] at h3
    have h4 : (out.reverse.takeWhile (fun x => x == 47)).reverse
        = List.replicate (out.reverse.takeWhile (fun x => x == 47)).length 47 := by
      rw [h2, List.reverse_replicate, List.length_replicate]
    rw [h4] at h3
    exact h3.symm
  · unfold stripSlashes
    rw [List.getLast?_reverse]
    intro h
    have := List.head?_dropWhile_not (fun x => x == 47) out.reverse
    rw [h] at this
    simp at this
  · intro x hx
    unfold stripSlashes at hx
    rw [List.mem_reverse] at hx
    exact List.mem_reverse.mp ((List.dropWhile_sublist _).subset hx)

/-- The removal from a text without opening brace followed by a placeholder: the text
without the slashes at its end is kept and the placeholder is dropped. -/
theorem removePlaceholders_text_placeholder (out name R : GoString) (h123 : 123 ∉ out)
    (hne : name ≠ []) (h125 : 125 ∉ name) :
    removePlaceholders (out ++ 123 :: (name ++ 125 :: R))
      = stripSlashes out ++ removePlaceholders R := by
  obtain ⟨⟨k, hk⟩, hlast, hsub⟩ := stripSlashes_spec out
  have hL : 123 ∉ stripSlashes out := fun hm => h123 (hsub 123 hm)
  have e : out ++ 123 :: (name ++ 125 :: R)
      = stripSlashes out ++ (List.replicate k 47 ++ 123 :: (name ++ 125 :: R)) := by
    rw [← List.append_assoc, ← hk]
  rw [e, removePlaceholders_text_append _ _ hL hlast,
    removePlaceholders_of_match _ R (matchPlaceholder_slashes_placeholder k name R hne h125)]

/-- On a template of well-formed pieces that follows a text without opening brace, the
removal of the pattern is the removal the specification describes. -/
theorem removePlaceholders_renderSegs :
    ∀ (segs : List Seg) (out : GoString), (∀ seg ∈ segs, seg.wellFormed) → 123 ∉ out →
      removePlaceholders (out ++ renderSegs segs) = removeSegs segs out
  | [], out, _, h => by
    simp only [renderSegs, List.append_nil, removeSegs]
    exact removePlaceholders_of_no_brace out h
  | Seg.lit s :: rest, out, hw, h => by
    have hs : 123 ∉ s := (hw (Seg.lit s) (List.mem_cons_self _ _)).1
    simp only [renderSegs, Seg.render, removeSegs]
    rw [← List.append_assoc]
    exact removePlaceholders_renderSegs rest (out ++ s)
      (fun seg hm => hw seg (List.mem_cons_of_mem _ hm))
      (by simp only [List.mem_append, not_or]; exact ⟨h, hs⟩)
  | Seg.ph name :: rest, out, hw, h => by
    have hname := hw (Seg.ph name) (List.mem_cons_self _ _)
    obtain ⟨-, hlast, hsub⟩ := stripSlashes_spec out
    have hL : 123 ∉ stripSlashes out := fun hm => h (hsub 123 hm)
    have e : out ++ renderSegs (Seg.ph name :: rest)
        = out ++ 123 :: (name ++ 125 :: renderSegs rest) := by
      simp [renderSegs, Seg.render]
    rw [e, removePlaceholders_text_placeholder out name _ h hname.1 hname.2.2,
      ← removePlaceholders_text_append _ _ hL hlast]
    simp only [removeSegs]
    exact removePlaceholders_renderSegs rest (stripSlashes out)
      (fun seg hm => hw seg (List.mem_cons_of_mem _ hm)) hL

/-- A well-formed piece is without braces. -/
theorem braceFree_of_wellFormed (seg : Seg) (h : seg.wellFormed) : seg.braceFree := by
  cases seg with
  | lit s => exact h
  | ph name => exact h.2

/-- A well-formed piece stays well formed under the substitution of values without
braces. -/
theorem wellFormed_subst (ppath : List (GoString × GoString))
    (hv : ∀ kv ∈ ppath, 123 ∉ kv.2 ∧ 125 ∉ kv.2) (seg : Seg) (h : seg.wellFormed) :
    (seg.subst ppath).wellFormed := by
  cases seg with
  | lit s => exact h
  | ph name =>
    simp only [Seg.subst]
    cases hl : ppath.lookup name with
    | none => exact h
    | some v => exact hv (name, v) (mem_of_lookup_eq_some ppath name v hl)

/-- After the removal of the placeholders no placeholder is left. -/
theorem not_hasPlaceholder_removePlaceholdersAux :
    ∀ (n : Nat) (s : GoString), s.length ≤ n → ¬ hasPlaceholder (removePlaceholdersAux n s)
  | 0, s, h => by
    have hs : s = [] := List.length_eq_zero.mp (Nat.le_zero.mp h)
    subst hs
    rintro ⟨u, x, w, he, -, -⟩
    simp [removePlaceholdersAux] at he
  | _ + 1, [], _ => by
    rintro ⟨u, x, w, he, -, -⟩
    simp [removePlaceholdersAux] at he
  | n + 1, c :: cs, h => by
    simp only [List.length_cons] at h
    unfold removePlaceholdersAux
    cases hm : matchPlaceholder (c :: cs) with
    | some rest =>
      simp only
      obtain ⟨pre, hpre, he⟩ := matchPlaceholder_eq_some _ rest hm
      have hlen : rest.length ≤ n := by
        have h1 := congrArg List.length he
        have h2 : 0 < pre.length := List.length_pos.mpr hpre
        simp only [List.length_cons, List.length_append] at h1
        omega
      exact not_hasPlaceholder_removePlaceholdersAux n rest hlen
    | none =>
      simp only
      have ih := not_hasPlaceholder_removePlaceholdersAux n cs (by omega)
      rintro ⟨u, x, w, he, hx, h125⟩
      cases u with
      | cons c1 u1 =>
        simp only [List.cons_append, List.cons.injEq] at he
        exact ih ⟨u1, x, w, he.2, hx, h125⟩
      | nil =>
        simp only [List.nil_append, List.cons.injEq] at he
        obtain ⟨hc, hR⟩ := he
        subst hc
        obtain ⟨x0, xt, rfl⟩ := List.exists_cons_of_ne_nil hx
        simp only [List.mem_cons, not_or] at h125
        rcases matchPlaceholder_open_none cs hm with h1 | ⟨cs1, h1⟩ | h1
        · subst h1
          cases n <;> simp [removePlaceholdersAux] at hR
        · subst h1
          cases n with
          | zero => simp at h
          | succ n1 =>
            have hclose : matchPlaceholder (125 :: cs1) = none := by
              simp [matchPlaceholder, List.dropWhile_cons, matchBraces]
            simp only [removePlaceholdersAux, hclose, List.cons_append, List.cons.injEq] at hR
            exact h125.1 hR.1
        · apply h1
          apply mem_removePlaceholdersAux n cs 125
          rw [hR]
          simp

/-- C23, as the code has it. For a template made of texts without braces and of
placeholders `{name}` whose names are not empty and have no brace, and a
parameter map whose keys and values have no brace, the path `BuildUrl` joins onto
the tenant URL is, for every visiting order of the map, the template in which
each placeholder whose name is a key is replaced by the value of the key and
every other placeholder is removed with the slashes immediately before it. For
every template and every map, no placeholder (an opening brace, one byte or more
other than a closing brace, a closing brace) is left in the path. -/
theorem urlPath_spec (order : List (GoString × GoString) → List (GoString × GoString))
    (horder : ∀ l, (order l).Perm l) (ppath : List (GoString × GoString))
    (hkeys : (ppath.map Prod.fst).Nodup) :
    (∀ segs : List Seg, (∀ seg ∈ segs, seg.wellFormed) →
      (∀ kv ∈ ppath, 123 ∉ kv.1 ∧ 125 ∉ kv.1 ∧ 123 ∉ kv.2 ∧ 125 ∉ kv.2) →
      urlPath order (renderSegs segs) ppath = specPath ppath segs) ∧
    (∀ relativePath, ¬ hasPlaceholder (urlPath order relativePath ppath)) := by
  constructor
  · intro segs hsegs hbr
    have hsub : segs.map (Seg.substAll (order ppath)) = segs.map (Seg.subst ppath) := by
      apply List.map_congr_left
      intro seg _
      rw [substAll_eq_subst]
      cases seg with
      | lit s => rfl
      | ph name =>
        simp only [Seg.subst, lookup_perm_of_nodup _ _ (horder ppath) hkeys name]
    unfold urlPath specPath
    rw [substituteParams_renderSegs (order ppath) segs
      (fun kv hm => by
        have := hbr kv ((horder ppath).mem_iff.mp hm)
        exact ⟨this.2.1, this.2.2.1, this.2.2.2⟩)
      (fun seg hm => braceFree_of_wellFormed seg (hsegs seg hm)), hsub]
    have := removePlaceholders_renderSegs (segs.map (Seg.subst ppath)) []
      (by
        intro seg hm
        obtain ⟨seg0, hm0, rfl⟩ := List.mem_map.mp hm
        exact wellFormed_subst ppath (fun kv hkv => (hbr kv hkv).2.2) seg0 (hsegs seg0 hm0))
      (by simp)
    simpa using this
  · intro relativePath
    exact not_hasPlaceholder_removePlaceholdersAux _ _ (le_refl _)

theorem urlPath_spec_witness :
    urlPath List.reverse
        (renderSegs [Seg.lit (ascii "_apis/"), Seg.ph (ascii "area"), Seg.lit (ascii "/"),
          Seg.ph (ascii "resource"), Seg.lit (ascii "/"), Seg.ph (ascii "id")])
        [(ascii "area", ascii "pools"), (ascii "resource", ascii "agents")]
      = specPath [(ascii "area", ascii "pools"), (ascii "resource", ascii "agents")]
          [Seg.lit (ascii "_apis/"), Seg.ph (ascii "area"), Seg.lit (ascii "/"),
            Seg.ph (ascii "resource"), Seg.lit (ascii "/"), Seg.ph (ascii "id")]
    ∧ specPath [(ascii "area", ascii "pools"), (ascii "resource", ascii "agents")]
          [Seg.lit (ascii "_apis/"), Seg.ph (ascii "area"), Seg.lit (ascii "/"),
            Seg.ph (ascii "resource"), Seg.lit (ascii "/"), Seg.ph (ascii "id")]
      = ascii "_apis/pools/agents" :=
  ⟨(urlPath_spec List.reverse (fun l => List.reverse_perm l)
      [(ascii "area", ascii "pools"), (ascii "resource", ascii "agents")] (by decide)).1
      [Seg.lit (ascii "_apis/"), Seg.ph (ascii "area"), Seg.lit (ascii "/"),
        Seg.ph (ascii "resource"), Seg.lit (ascii "/"), Seg.ph (ascii "id")]
      (by
        intro seg hm
        simp only [List.mem_cons, List.mem_singleton, List.not_mem_nil, or_false] at hm
        rcases hm with rfl | rfl | rfl | rfl | rfl | rfl <;>
          exact ⟨by decide, by decide⟩)
      (by decide),
    by decide⟩

/-- C23 fails as stated: for the template `{{a}}` and the map with `a` for `b` and `b`
for `c`, whose values have no brace, the path is `c` when `a` is visited first
and empty when `b` is. -/
theorem urlPath_depends_on_order :
    urlPath id [123, 123, 97, 125, 125] [([97], [98]), ([98], [99])] = [99] ∧
    urlPath List.reverse [123, 123, 97, 125, 125] [([97], [98]), ([98], [99])] = [] := by
  constructor <;> decide


end GithubActRunner
